import Mathlib

/-!
Changelog: the version comparator, the markdown parser, the renderer and the validator

A shallow embedding of the Go packages `core` (compare.go, changelog.go) and
`parser` (parser.go).

Conventions of the embedding:

* a Go `string` is a list of Unicode code points (`Str`); texts are taken to
  be valid UTF-8, for which Go's byte-wise comparison agrees with the
  code-point-wise one;
* a Go `int` is a 64-bit signed integer; `strconv.Atoi` is the only place
  where the width matters (its range check);
* a `panic` is the `none` of an `Option`;
* a Go `map` is a total function to `Option` when its keys form a closed
  enumeration (`Section`), and an association list in enumeration order when
  it is keyed by versions;
* the functions of the external package `semver` (`Parse`, `String`) and
  `sort.Slice` are parameters of the functions that call them; the properties
  are proved for every sort that meets the contract of `sort.Slice`, and
  concrete inputs are evaluated with insertion sort and with a model of
  `semver`.
-/

namespace Makepad

/-- Go strings, as lists of code points. -/
abbrev Str := List Char

/-! ## Standard-library helpers used by the comparator -/

/-- ASCII decimal digit test (`'0' <= ch && ch <= '9'`). -/
def isDigit (c : Char) : Bool := decide (48 ≤ c.toNat) && decide (c.toNat ≤ 57)

/-- Value of a run of decimal digits, most significant first. -/
def digitsVal (ds : Str) : Nat := ds.foldl (fun n c => 10 * n + (c.toNat - 48)) 0

/-- `strconv.Atoi` on a 64-bit platform: an optional sign, then one or more
decimal digits, with the value in the range of a signed 64-bit integer;
`none` stands for the returned error. -/
def Atoi (s : Str) : Option Int :=
  match s with
  | [] => none
  | c :: rest =>
    let neg : Bool := c == '-'
    let ds : Str := if c == '-' || c == '+' then rest else s
    if ds.isEmpty || !ds.all isDigit then none
    else
      let n := digitsVal ds
      if neg then (if n ≤ 2 ^ 63 then some (-(n : Int)) else none)
      else (if n < 2 ^ 63 then some (n : Int) else none)

/-- `strings.Compare`: lexicographic three-way comparison. -/
def stringsCompare : Str → Str → Int
  | [], [] => 0
  | [], _ :: _ => -1
  | _ :: _, [] => 1
  | a :: as, b :: bs =>
    if a.toNat < b.toNat then -1
    else if b.toNat < a.toNat then 1
    else stringsCompare as bs

/-- `strings.Split(s, sep)` for a one-character separator: the pieces between
the separators; always at least one piece. -/
def splitOn (sep : Char) : Str → List Str
  | [] => [[]]
  | c :: cs =>
    if c = sep then [] :: splitOn sep cs
    else
      match splitOn sep cs with
      | [] => [[c]]
      | p :: ps => (c :: p) :: ps

/-! ## compare.go -/

/-- The fields of the external type `semver.Semver` that this repository
reads. `PreRelease` is a `*string` in Go: `none` is the nil pointer, and a
non-nil pointer is represented by the string it points to. -/
structure Semver where
  Major : Str
  Minor : Str
  Patch : Str
  PreRelease : Option Str
deriving DecidableEq, Repr

/-- `mustAtoi`: `none` is the panic. -/
def mustAtoi (s : Str) : Option Int :=
  if s = [] then none else Atoi s

/-- `compareInt`. -/
def compareInt (a b : Int) : Int :=
  if a < b then -1 else if a > b then 1 else 0

/-- The loop of `comparePreRelease`: `fuel` iterations remain, `i` is the loop
index. A field past the end of its slice is the empty string (the zero value
of `var aPart, bPart string`). -/
def preReleaseLoop (aParts bParts : List Str) : Nat → Nat → Int
  | 0, _ => 0
  | fuel + 1, i =>
    let aPart : Str := if i < aParts.length then aParts.getD i [] else []
    let bPart : Str := if i < bParts.length then bParts.getD i [] else []
    match Atoi aPart, Atoi bPart with
    | some aNum, some bNum =>
      if aNum ≠ bNum then compareInt aNum bNum else preReleaseLoop aParts bParts fuel (i + 1)
    | none, none =>
      if aPart ≠ bPart then stringsCompare aPart bPart
      else preReleaseLoop aParts bParts fuel (i + 1)
    | some _, none => -1
    | none, some _ => 1

/-- `comparePreRelease`. -/
def comparePreRelease : Option Str → Option Str → Int
  | none, none => 0
  | none, some _ => 1
  | some _, none => -1
  | some a, some b =>
    let aParts := splitOn '.' a
    let bParts := splitOn '.' b
    preReleaseLoop aParts bParts (max aParts.length bParts.length) 0

/-- `Compare`; `none` when a `mustAtoi` panics. -/
def Compare (a b : Semver) : Option Int := do
  let aMajor ← mustAtoi a.Major
  let bMajor ← mustAtoi b.Major
  if aMajor ≠ bMajor then return compareInt aMajor bMajor
  let aMinor ← mustAtoi a.Minor
  let bMinor ← mustAtoi b.Minor
  if aMinor ≠ bMinor then return compareInt aMinor bMinor
  let aPatch ← mustAtoi a.Patch
  let bPatch ← mustAtoi b.Patch
  if aPatch ≠ bPatch then return compareInt aPatch bPatch
  return comparePreRelease a.PreRelease b.PreRelease

/-- A version whose major, minor and patch fields are integers that
`mustAtoi` accepts. -/
def validVersion (v : Semver) : Prop :=
  (mustAtoi v.Major).isSome ∧ (mustAtoi v.Minor).isSome ∧ (mustAtoi v.Patch).isSome

instance (v : Semver) : Decidable (validVersion v) := by
  unfold validVersion; infer_instance

/-- Version literal `major.minor.patch` with an optional pre-release label. -/
def mkVersion (major minor patch : String) (pre : Option String) : Semver :=
  { Major := major.toList, Minor := minor.toList, Patch := patch.toList,
    PreRelease := pre.map String.toList }

/-! ## Standard-library helpers used by the model, parser and renderer -/

/-- `unicode.ToLower` as far as this program can observe it: the program only
compares lowered text with ASCII words, so the function is exact on every
code point whose lower-case form is ASCII (`A`-`Z`, U+0130 and the Kelvin
sign U+212A) and leaves the other code points in place. -/
def toLowerRune (c : Char) : Char :=
  if 65 ≤ c.toNat ∧ c.toNat ≤ 90 then Char.ofNat (c.toNat + 32)
  else if c.toNat = 0x130 then 'i'
  else if c.toNat = 0x212A then 'k'
  else c

/-- `strings.ToLower`. -/
def toLower (s : Str) : Str := s.map toLowerRune

/-- `unicode.IsSpace`. -/
def isSpace (c : Char) : Bool :=
  let n := c.toNat
  (decide (9 ≤ n) && decide (n ≤ 13)) || n == 32 || n == 0x85 || n == 0xA0 || n == 0x1680 ||
    (decide (0x2000 ≤ n) && decide (n ≤ 0x200A)) || n == 0x2028 || n == 0x2029 || n == 0x202F ||
    n == 0x205F || n == 0x3000

/-- `strings.TrimSpace`. -/
def trimSpace (s : Str) : Str :=
  ((s.dropWhile isSpace).reverse.dropWhile isSpace).reverse

/-- The non-breaking space U+00A0. -/
def nbsp : Char := Char.ofNat 0xA0

/-- `strings.ReplaceAll(line, "\u00A0", " ")`: every non-breaking space
becomes a space. -/
def replaceNbsp (line : Str) : Str := line.map (fun c => if c = nbsp then ' ' else c)

/-- A calendar date, the part of `time.Time` that the layout `2006-01-02`
fills in (the time of day is midnight UTC). -/
structure Date where
  year : Nat
  month : Nat
  day : Nat
deriving DecidableEq, Repr

/-- Days in a month of a year (package `time`). -/
def daysIn (month year : Nat) : Nat :=
  if month = 2 then
    (if year % 4 = 0 ∧ (year % 100 ≠ 0 ∨ year % 400 = 0) then 29 else 28)
  else if month = 4 ∨ month = 6 ∨ month = 9 ∨ month = 11 then 30
  else 31

/-- `time.Parse("2006-01-02", s)`: four digits, a dash, two digits, a dash,
two digits and nothing else, naming a day that exists. -/
def parseDate (s : Str) : Option Date :=
  match s with
  | [y1, y2, y3, y4, '-', m1, m2, '-', d1, d2] =>
    if [y1, y2, y3, y4, m1, m2, d1, d2].all isDigit then
      let year := digitsVal [y1, y2, y3, y4]
      let month := digitsVal [m1, m2]
      let day := digitsVal [d1, d2]
      if month < 1 ∨ 12 < month then none
      else if day < 1 ∨ daysIn month year < day then none
      else some { year := year, month := month, day := day }
    else none
  | _ => none

/-- `Time.Before` on dates. -/
def Date.Before (a b : Date) : Bool :=
  decide (a.year < b.year ∨ (a.year = b.year ∧ (a.month < b.month ∨
    (a.month = b.month ∧ a.day < b.day))))

/-- A model of `sort.Slice`: the comparison may panic (`none`), and then so
does the sort. -/
def SortFn (α : Type) : Type := (α → α → Option Bool) → List α → Option (List α)

/-- One pass of the inner loop of Go's insertion sort: `x` moves left past
every element it is less than. The sorted prefix is given right to left. -/
def insertLeft {α : Type} (less : α → α → Option Bool) (x : α) : List α → Option (List α)
  | [] => some [x]
  | p :: ps =>
    match less x p with
    | none => none
    | some true => (insertLeft less x ps).map (fun r => p :: r)
    | some false => some (x :: p :: ps)

/-- Insertion sort, which is what `sort.Slice` runs on a slice of at most
twelve elements. -/
def insertionSort {α : Type} : SortFn α := fun less xs =>
  (xs.foldlM (fun acc x => insertLeft less x acc) []).map List.reverse

/-! ## changelog.go: the model -/

/-- The six sections. -/
inductive Section where
  | Added
  | Changed
  | Deprecated
  | Removed
  | Fixed
  | Security
deriving DecidableEq, Repr

/-- The sections in the order of the enumeration. -/
def allSections : List Section :=
  [Section.Added, Section.Changed, Section.Deprecated, Section.Removed, Section.Fixed,
    Section.Security]

/-- `Section.String`. -/
def Section.String : Section → Str
  | Section.Added => "Added".toList
  | Section.Changed => "Changed".toList
  | Section.Deprecated => "Deprecated".toList
  | Section.Removed => "Removed".toList
  | Section.Fixed => "Fixed".toList
  | Section.Security => "Security".toList

/-- `ParseSection`; `none` is the `false` outcome. -/
def ParseSection (s : Str) : Option Section :=
  let l := toLower s
  if l = "added".toList then some Section.Added
  else if l = "changed".toList then some Section.Changed
  else if l = "deprecated".toList then some Section.Deprecated
  else if l = "removed".toList then some Section.Removed
  else if l = "fixed".toList then some Section.Fixed
  else if l = "security".toList then some Section.Security
  else none

/-- `Entry`: a date and the map from sections to item lists (`none`: the
section is not a key of the map). -/
structure Entry where
  Date : Str
  Changes : Section → Option (List Str)

/-- The zero value of `Entry`, also the value of a fresh
`Entry{Changes: make(...)}`: no date and no section. -/
def Entry.empty : Entry := { Date := [], Changes := fun _ => none }

/-- `m[s] = items` on a section map. -/
def setSection (m : Section → Option (List Str)) (s : Section) (items : List Str) :
    Section → Option (List Str) :=
  fun t => if t = s then some items else m t

/-- `len(entry.Changes)`: the number of sections that are keys. -/
def Entry.numSections (e : Entry) : Nat :=
  (allSections.filter (fun s => (e.Changes s).isSome)).length

/-- `map[semver.Semver]Entry`, in the order in which `range` enumerates it.
Two keys are the same key when their fields are equal, the pre-release labels
being compared as strings. Go compares the `*string` of the label by address,
so two keys with the same fields and the same label text at different
addresses are two keys there: the list represents exactly the maps whose keys
are pairwise distinct as values, and a statement about the lookup in a given
map of releases takes its keys to be so. -/
abbrev ReleaseMap := List (Semver × Entry)

/-- `m[k]` with the `ok` flag: the entry of the first key equal to `k` as a
value, which is the entry of that very key when the keys are pairwise distinct
as values. -/
def mapGet : ReleaseMap → Semver → Option Entry
  | [], _ => none
  | (k, e) :: rest, v => if k = v then some e else mapGet rest v

/-- `m[k] = e`: the entry of the key equal to `k` as a value is replaced, and
a key equal to none is added last. -/
def mapSet : ReleaseMap → Semver → Entry → ReleaseMap
  | [], v, e => [(v, e)]
  | (k, e0) :: rest, v, e => if k = v then (k, e) :: rest else (k, e0) :: mapSet rest v e

/-- `Changelog`. -/
structure Changelog where
  Unreleased : Entry
  Releases : ReleaseMap

/-- `HasUnreleased`. -/
def Changelog.HasUnreleased (c : Changelog) : Bool :=
  decide (c.Unreleased.numSections > 0)

/-! ## changelog.go: the renderer -/

/-- The part of `writeEntry` for one section: nothing when the section is
not a key or has no item, else the header and one bullet per item. -/
def writeSection (entry : Entry) (s : Section) : Str :=
  match entry.Changes s with
  | none => []
  | some items =>
    if items.length = 0 then []
    else
      "\n### ".toList ++ s.String ++ "\n\n".toList ++
        (items.map (fun item => "- ".toList ++ trimSpace item ++ "\n".toList)).flatten

/-- `writeEntry`, as the text it appends to the builder. -/
def writeEntry (entry : Entry) : Str :=
  if entry.numSections = 0 then "\n".toList
  else (allSections.map (writeSection entry)).flatten

/-- The header line and body that `GenerateMarkdown` writes for one release. -/
def writeRelease (semverString : Semver → Str) (releases : ReleaseMap) (v : Semver) : Str :=
  let entry := (mapGet releases v).getD Entry.empty
  let line := "\n## [".toList ++ semverString v ++ "]".toList
  let line := if entry.Date ≠ [] then line ++ " - ".toList ++ entry.Date else line
  line ++ "\n".toList ++ writeEntry entry

/-- The `less` function that both sorts use: `Compare(x, y) > 0`. -/
def versionLess (a b : Semver) : Option Bool :=
  (Compare a b).map (fun x => decide (x > 0))

/-- `GenerateMarkdown`. The method `String` of the external type
`semver.Semver` and the sort are parameters; `none` is a panic of `Compare`
inside the sort. -/
def GenerateMarkdown (semverString : Semver → Str) (sortSlice : SortFn Semver)
    (c : Changelog) : Option Str :=
  let head := "# Changelog\n\n".toList ++
    "All notable changes to this project will be documented in this file.\n".toList
  let unreleased :=
    if c.HasUnreleased then "## [Unreleased]".toList ++ writeEntry c.Unreleased else []
  let versions := c.Releases.map Prod.fst
  match sortSlice versionLess versions with
  | none => none
  | some sorted =>
    some (head ++ unreleased ++ (sorted.map (writeRelease semverString c.Releases)).flatten)

/-! ## changelog.go: the validator -/

/-- The errors of `Verify`, with the values that their messages print. -/
inductive VerifyError where
  | emptyDate (v : Semver)
  | invalidDate (v : Semver)
  | shouldComeBefore (later earlier : Semver)
  | olderDate (vi : Semver) (di : Date) (vj : Semver) (dj : Date)
deriving DecidableEq, Repr

/-- The first loop of `Verify`: the (version, date) pairs in enumeration
order, or the first date error. -/
def collectDates : ReleaseMap → Except VerifyError (List (Semver × Date))
  | [] => Except.ok []
  | (v, entry) :: rest =>
    if entry.Date = [] then Except.error (VerifyError.emptyDate v)
    else
      match parseDate entry.Date with
      | none => Except.error (VerifyError.invalidDate v)
      | some t =>
        match collectDates rest with
        | Except.error e => Except.error e
        | Except.ok entries => Except.ok ((v, t) :: entries)

/-- The `less` function of the sort in `Verify`. -/
def pairLess (x y : Semver × Date) : Option Bool := versionLess x.1 y.1

/-- The last loop of `Verify` over the sorted pairs; `none` is a panic of
`Compare`. -/
def checkOrder : List (Semver × Date) → Option (Except VerifyError Unit)
  | [] => some (Except.ok ())
  | [_] => some (Except.ok ())
  | vi :: vj :: rest =>
    match Compare vi.1 vj.1 with
    | none => none
    | some x =>
      if x < 0 then some (Except.error (VerifyError.shouldComeBefore vj.1 vi.1))
      else if vi.2.Before vj.2 then
        some (Except.error (VerifyError.olderDate vi.1 vi.2 vj.1 vj.2))
      else checkOrder (vj :: rest)

/-- `Verify`; `none` is a panic of `Compare`. -/
def Verify (sortSlice : SortFn (Semver × Date)) (c : Changelog) :
    Option (Except VerifyError Unit) :=
  match collectDates c.Releases with
  | Except.error e => some (Except.error e)
  | Except.ok entries =>
    match sortSlice pairLess entries with
    | none => none
    | some sorted => checkOrder sorted

/-! ## parser.go -/

/-- The optional group `(?: - (\d{4}-\d{2}-\d{2}))?` of the release pattern,
tried on what follows the closing bracket: the date, or the empty string
when the group does not take part in the match. -/
def matchDate (tail : Str) : Str :=
  match tail with
  | ' ' :: '-' :: ' ' :: y1 :: y2 :: y3 :: y4 :: '-' :: m1 :: m2 :: '-' :: d1 :: d2 :: _ =>
    if [y1, y2, y3, y4, m1, m2, d1, d2].all isDigit then
      [y1, y2, y3, y4, '-', m1, m2, '-', d1, d2]
    else []
  | _ => []

/-- `reRelease.FindStringSubmatch`: the label and the date of a line that
begins `## [`, the label running lazily up to the first closing bracket on
the line. -/
def matchRelease (line : Str) : Option (Str × Str) :=
  match line with
  | '#' :: '#' :: ' ' :: '[' :: rest =>
    let label := rest.takeWhile (fun c => c ≠ ']' && c ≠ '\n')
    match rest.dropWhile (fun c => c ≠ ']' && c ≠ '\n') with
    | ']' :: tail => some (label, matchDate tail)
    | _ => none
  | _ => none

/-- The group `(.+)`: as many characters as the line has before a newline,
and at least one. -/
def matchRest (rest : Str) : Option Str :=
  let text := rest.takeWhile (fun c => c ≠ '\n')
  if text = [] then none else some text

/-- `reSection.FindStringSubmatch`: the name after `### `. -/
def matchSection (line : Str) : Option Str :=
  match line with
  | '#' :: '#' :: '#' :: ' ' :: rest => matchRest rest
  | _ => none

/-- `reBullet.FindStringSubmatch`: the text after `- `. -/
def matchBullet (line : Str) : Option Str :=
  match line with
  | '-' :: ' ' :: rest => matchRest rest
  | _ => none

/-- The variables that the loop of `Parse` carries from line to line. -/
structure ParseState where
  cl : Changelog
  currentEntry : Entry
  currentVersion : Str
  currentSection : Section
  inUnreleased : Bool

/-- The state before the first line. -/
def ParseState.init : ParseState :=
  { cl := { Unreleased := Entry.empty, Releases := [] }
    currentEntry := Entry.empty
    currentVersion := []
    currentSection := Section.Added
    inUnreleased := false }

/-- The block `if currentVersion != "" { ... }` that stores the entry under
construction; it stands both in the loop and after it. `semverParse` is the
external `semver.Parse`, `none` being its error. -/
def flush (semverParse : Str → Option Semver) (s : ParseState) : Changelog :=
  if s.currentVersion ≠ [] then
    if s.inUnreleased then { s.cl with Unreleased := s.currentEntry }
    else
      match semverParse s.currentVersion with
      | some v => { s.cl with Releases := mapSet s.cl.Releases v s.currentEntry }
      | none => s.cl
  else s.cl

/-- The body of the loop of `Parse` for one line. -/
def parseLine (semverParse : Str → Option Semver) (s : ParseState) (line0 : Str) :
    ParseState :=
  let line := replaceNbsp line0
  match matchRelease line with
  | some (label, date) =>
    { cl := flush semverParse s
      currentEntry := { Date := date, Changes := fun _ => none }
      currentVersion := label
      currentSection := s.currentSection
      inUnreleased := decide (toLower label = "unreleased".toList) }
  | none =>
    match matchSection line with
    | some name =>
      match ParseSection name with
      | some sec =>
        match s.currentEntry.Changes sec with
        | some _ => { s with currentSection := sec }
        | none =>
          { s with
            currentSection := sec
            currentEntry := { s.currentEntry with
              Changes := setSection s.currentEntry.Changes sec [] } }
      | none => s
    | none =>
      match matchBullet line with
      | some text =>
        match s.currentEntry.Changes s.currentSection with
        | some items =>
          { s with currentEntry := { s.currentEntry with
              Changes := setSection s.currentEntry.Changes s.currentSection (items ++ [text]) } }
        | none => s
      | none => s

/-- Removes one trailing carriage return, as `ReadLine` does before a line
feed. -/
def dropCR (line : Str) : Str :=
  if line.getLast? = some '\r' then line.dropLast else line

/-- The lines that the reading part of the loop (`ReadLine` and the buffer
that joins the chunks of a long line) hands to the rest of the loop body:
the text is cut at every line feed, a carriage return before the line feed
is dropped, and what follows the last line feed is a line when it is not
empty. `cur` is the line read so far. -/
def readLinesFrom : Str → Str → List Str
  | [], cur => if cur = [] then [] else [cur]
  | c :: cs, cur =>
    if c = '\n' then dropCR cur :: readLinesFrom cs []
    else readLinesFrom cs (cur ++ [c])

/-- The lines of a text. -/
def readLines (text : Str) : List Str := readLinesFrom text []

/-- The loop of `Parse` over the lines, and the final store. -/
def parseLines (semverParse : Str → Option Semver) (lines : List Str) : Changelog :=
  flush semverParse (lines.foldl (parseLine semverParse) ParseState.init)

/-- The result of `Parse` on an in-memory text. -/
def parseText (semverParse : Str → Option Semver) (text : Str) : Changelog :=
  parseLines semverParse (readLines text)

/-- How the `io.Reader` ends: at the end of the text, or with a read error. -/
inductive ReadEnd where
  | eof
  | failure
deriving DecidableEq, Repr

/-- An `io.Reader`: the text it delivers and how it ends. An in-memory text
ends with `eof`. -/
structure Reader where
  text : Str
  ending : ReadEnd

/-- The reader over an in-memory text. -/
def Reader.ofText (text : Str) : Reader := { text := text, ending := ReadEnd.eof }

/-- The error of `Parse`. -/
inductive ParseError where
  | readError
deriving DecidableEq, Repr

/-- `Parse`: a read error other than the end of the input is returned as an
error, otherwise the lines are processed and the result is returned. -/
def Parse (semverParse : Str → Option Semver) (r : Reader) : Except ParseError Changelog :=
  match r.ending with
  | ReadEnd.failure => Except.error ParseError.readError
  | ReadEnd.eof => Except.ok (parseText semverParse r.text)

/-! ## new.go -/

/-- `mergeSection` of new.go, as the section map it leaves. `promptItems` stands
for the interactive prompt: the items that the user types for a title. A
section that is not a key reads as the nil slice. -/
def mergeSection (promptItems : Str → List Str) (existing : Section → Option (List Str))
    (sec : Section) (value : List Str) (noPrompt : Bool) : Section → Option (List Str) :=
  if value.length = 0 then
    if noPrompt then existing
    else setSection existing sec ((existing sec).getD [] ++ promptItems sec.String)
  else setSection existing sec ((existing sec).getD [] ++ value)

/-! ## The external package `semver`, for concrete inputs -/

/-- A field of digits. -/
def isNumeric (s : Str) : Bool := !s.isEmpty && s.all isDigit

/-- A character of a pre-release label: a letter, a digit, a dot or a hyphen. -/
def isLabelChar (c : Char) : Bool := c.isAlphanum || c == '.' || c == '-'

/-- Modelled from the spec: `String` of the external package `semver` (not
part of this repository), which renders `major.minor.patch` followed by
`-` and the pre-release label when there is one. -/
def modelString (v : Semver) : Str :=
  v.Major ++ ".".toList ++ v.Minor ++ ".".toList ++ v.Patch ++
    (match v.PreRelease with
     | some p => "-".toList ++ p
     | none => [])

/-- Modelled from the spec: `Parse` of the external package `semver` (not
part of this repository), which accepts the grammar
`major.minor.patch[-prerelease]` with numeric major, minor and patch. -/
def modelParse (s : Str) : Option Semver :=
  let core := s.takeWhile (fun c => c ≠ '-')
  let pre : Option Str :=
    match s.dropWhile (fun c => c ≠ '-') with
    | [] => none
    | _ :: p => some p
  match splitOn '.' core with
  | [major, minor, patch] =>
    if isNumeric major && isNumeric minor && isNumeric patch &&
        (match pre with
         | some p => !p.isEmpty && p.all isLabelChar
         | none => true) then
      some { Major := major, Minor := minor, Patch := patch, PreRelease := pre }
    else none
  | _ => none

/-! ## Definitions used to state and prove the properties -/

/-- Three-way comparison of two pre-release fields, as one iteration of the
loop of `comparePreRelease` decides it; `0` lets the loop go on. -/
def fieldCompare (a b : Str) : Int :=
  match Atoi a, Atoi b with
  | some x, some y => compareInt x y
  | none, none => stringsCompare a b
  | some _, none => -1
  | none, some _ => 1

/-- The loop of `comparePreRelease` over two infinite field sequences. -/
def lexLoop (f g : Nat → Str) : Nat → Nat → Int
  | 0, _ => 0
  | n + 1, i =>
    if fieldCompare (f i) (g i) ≠ 0 then fieldCompare (f i) (g i) else lexLoop f g n (i + 1)

/-- The field at an index, empty past the end. -/
def fieldAt (l : List Str) (i : Nat) : Str := l.getD i []

/-- Two parser states that agree except, when the entry under construction
has no section yet, in the current section. -/
def SameUpToSection (s t : ParseState) : Prop :=
  s.cl = t.cl ∧ s.currentEntry = t.currentEntry ∧ s.currentVersion = t.currentVersion ∧
    s.inUnreleased = t.inUnreleased ∧
    (s.currentSection = t.currentSection ∨ s.currentEntry.Changes = fun _ => none)

/-- The comparison never panics on the elements of `xs`. -/
def TotalOn {α : Type} (less : α → α → Option Bool) (xs : List α) : Prop :=
  ∀ x ∈ xs, ∀ y ∈ xs, (less x y).isSome

/-- On the elements of `xs`, `less` is a strict weak ordering, which is what
package `sort` asks of it: irreflexive, transitive, and with a transitive
complement. -/
def StrictWeakOn {α : Type} (less : α → α → Option Bool) (xs : List α) : Prop :=
  (∀ x ∈ xs, less x x = some false) ∧
  (∀ x ∈ xs, ∀ y ∈ xs, ∀ z ∈ xs,
    less x y = some true → less y z = some true → less x z = some true) ∧
  (∀ x ∈ xs, ∀ y ∈ xs, ∀ z ∈ xs,
    less x y = some false → less y z = some false → less x z = some false)

/-- The contract of `sort.Slice`: when `less` does not panic the call returns
and the slice holds a permutation of what it held, and when `less` is moreover
a strict weak ordering no element is less than one that comes before it. -/
def SortFn.Correct {α : Type} (sortSlice : SortFn α) : Prop :=
  ∀ (less : α → α → Option Bool) (xs : List α), TotalOn less xs →
    ∃ ys, sortSlice less xs = some ys ∧ ys.Perm xs ∧
      (StrictWeakOn less xs → ys.Pairwise (fun x y => less y x = some false))

/-- The result of `Compare` where it does not panic. -/
def cmpV (a b : Semver) : Int := (Compare a b).getD 0

/-- The releases whose date parses, each with its parsed date. -/
def datedReleases (rels : ReleaseMap) : List (Semver × Date) :=
  rels.filterMap (fun p => (parseDate p.2.Date).map (fun d => (p.1, d)))

/-- Releases 2.0.0 of 2024-01-01 and 1.0.0 of 2024-06-01. -/
def releasesNewerFirst : ReleaseMap :=
  [(mkVersion "2" "0" "0" none, { Date := "2024-01-01".toList, Changes := fun _ => none }),
   (mkVersion "1" "0" "0" none, { Date := "2024-06-01".toList, Changes := fun _ => none })]

/-- Releases 1.0.0 of 2024-01-01 and 2.0.0 of 2024-06-01. -/
def releasesInOrder : ReleaseMap :=
  [(mkVersion "1" "0" "0" none, { Date := "2024-01-01".toList, Changes := fun _ => none }),
   (mkVersion "2" "0" "0" none, { Date := "2024-06-01".toList, Changes := fun _ => none })]

/-- The reading loop, one character at a time: the state of the parser and
the line read so far. -/
def feed (P : ParseState → Str → ParseState) : ParseState × Str → Str → ParseState × Str
  | st, [] => st
  | (s, cur), c :: cs =>
    if c = '\n' then feed P (P s (dropCR cur), []) cs
    else feed P (s, cur ++ [c]) cs

/-- The end of the input: a last line without a line feed is processed. -/
def feedEnd (P : ParseState → Str → ParseState) (st : ParseState × Str) : ParseState :=
  if st.2 = [] then st.1 else P st.1 st.2

/-- A parser state with another section map and current section. -/
def withBody (s : ParseState) (m : Section → Option (List Str)) (sec : Section) : ParseState :=
  { s with currentEntry := { s.currentEntry with Changes := m }, currentSection := sec }

/-- An item that the renderer writes as it is and the parser reads back as
it is: not empty, on one line, without a non-breaking space, and without
white space at either end. -/
def goodItem (item : Str) : Prop :=
  item ≠ [] ∧ '\n' ∉ item ∧ nbsp ∉ item ∧ item.head?.map isSpace ≠ some true ∧
    item.getLast?.map isSpace ≠ some true

instance (item : Str) : Decidable (goodItem item) := by
  unfold goodItem; infer_instance

/-- A date of the form `YYYY-MM-DD`. -/
def isDateForm (d : Str) : Bool :=
  match d with
  | [y1, y2, y3, y4, '-', m1, m2, '-', d1, d2] => [y1, y2, y3, y4, m1, m2, d1, d2].all isDigit
  | _ => false

/-- An entry made of what the renderer and the parser both support: the date
is absent or of the form `YYYY-MM-DD`, and every section that is present has
at least one item, all of them good. -/
def supportedEntry (e : Entry) : Prop :=
  (e.Date = [] ∨ isDateForm e.Date = true) ∧
    ∀ s items, e.Changes s = some items → items ≠ [] ∧ ∀ item ∈ items, goodItem item

/-- A character of the text of a version: a letter, a digit, a dot, a hyphen
or a plus sign. -/
def isVersionChar (c : Char) : Bool := c.isAlphanum || c == '.' || c == '-' || c == '+'

/-- The text of a version: it starts with a digit and is made of the
characters of versions. -/
def isVersionText (t : Str) : Prop :=
  (∃ c rest, t = c :: rest ∧ isDigit c = true) ∧ ∀ c ∈ t, isVersionChar c = true

/-- The line of a bullet. -/
def bulletLine (item : Str) : Str := '-' :: ' ' :: item

/-- The line of a section header. -/
def sectionLine (S : Section) : Str := "### ".toList ++ S.String

/-- The state that a release header line leaves. -/
def afterHeader (p : Str → Option Semver) (s : ParseState) (label date : Str) : ParseState :=
  { cl := flush p s
    currentEntry := { Date := date, Changes := fun _ => none }
    currentVersion := label
    currentSection := s.currentSection
    inUnreleased := decide (toLower label = "unreleased".toList) }

/-- The header line of a release. -/
def headerLine (t d : Str) : Str :=
  "## [".toList ++ t ++ ']' :: (if d ≠ [] then " - ".toList ++ d else [])

/-- The changelog after the entries of the versions `vs`, taken from `rels`,
have been stored in it one after the other. -/
def insertAll (rels : ReleaseMap) (C : Changelog) (vs : List Semver) : Changelog :=
  vs.foldl (fun C v =>
    { C with Releases := mapSet C.Releases v ((mapGet rels v).getD Entry.empty) }) C

/-- A changelog built only from what the renderer and the parser both
support: Unreleased has no date, every release is keyed by a valid version
whose rendered text is the text of a version and parses back to it, and all
entries are supported. -/
def supportedChangelog (semverParse : Str → Option Semver) (semverString : Semver → Str)
    (c : Changelog) : Prop :=
  c.Unreleased.Date = [] ∧ supportedEntry c.Unreleased ∧
    ∀ q ∈ c.Releases, validVersion q.1 ∧ semverParse (semverString q.1) = some q.1 ∧
      isVersionText (semverString q.1) ∧ supportedEntry q.2

/-- The text that `GenerateMarkdown` assembles once the versions are sorted. -/
def renderSorted (semverString : Semver → Str) (c : Changelog) (sorted : List Semver) : Str :=
  "# Changelog\n\n".toList ++
    "All notable changes to this project will be documented in this file.\n".toList ++
    (if c.HasUnreleased then "## [Unreleased]".toList ++ writeEntry c.Unreleased else []) ++
    (sorted.map (writeRelease semverString c.Releases)).flatten

/-- The changelog of the format example: Unreleased with one Added item, and
release 1.2.3 of 2024-05-01 with one Fixed item. -/
def exampleChangelog : Changelog :=
  { Unreleased :=
      { Date := []
        Changes := fun s => if s = Section.Added then some ["item text".toList] else none }
    Releases :=
      [(mkVersion "1" "2" "3" none,
        { Date := "2024-05-01".toList
          Changes := fun s => if s = Section.Fixed then some ["item text".toList] else none })] }

/-- A changelog with an Unreleased item, the pre-release 1.0.0-alpha of
2024-01-01 with one Added item, and the release 1.0.0 of 2024-02-02 with two
Fixed items. -/
def prereleaseChangelog : Changelog :=
  { Unreleased :=
      { Date := []
        Changes := fun s => if s = Section.Added then some ["item text".toList] else none }
    Releases :=
      [(mkVersion "1" "0" "0" (some "alpha"),
        { Date := "2024-01-01".toList
          Changes := fun s => if s = Section.Added then some ["a".toList] else none }),
       (mkVersion "1" "0" "0" none,
        { Date := "2024-02-02".toList
          Changes := fun s => if s = Section.Fixed then some ["b".toList, "c".toList] else none })] }

/-- Two releases whose versions, 1.0.0-1 and 1.0.0-01, compare equal. -/
def tiedReleases : ReleaseMap :=
  [(mkVersion "1" "0" "0" (some "1"), { Date := "2024-01-01".toList, Changes := fun _ => none }),
   (mkVersion "1" "0" "0" (some "01"), { Date := "2024-02-02".toList, Changes := fun _ => none })]

/-- A changelog with a release without a date and a release whose date is
not a day of the calendar. -/
def releasesBadDates : ReleaseMap :=
  [(mkVersion "2" "0" "0" none, { Date := "2024-06-01".toList, Changes := fun _ => none }),
   (mkVersion "1" "1" "0" none, { Date := "2024-02-30".toList, Changes := fun _ => none }),
   (mkVersion "1" "0" "0" none, { Date := [], Changes := fun _ => none })]

/-- The lines of an entry as the specification words them: the sections in
the order Added, Changed, Deprecated, Removed, Fixed, Security; nothing for a
section that is absent or has no item; for a section with items a blank line,
the header `### Name`, a blank line, and one line `- item` per item in list
order, the item trimmed of surrounding white space. -/
def entryLinesSpec (e : Entry) : List Str :=
  ([Section.Added, Section.Changed, Section.Deprecated, Section.Removed, Section.Fixed,
    Section.Security].map (fun s =>
      match e.Changes s with
      | some (item :: items) =>
        [[], "### ".toList ++ s.String, []] ++
          (item :: items).map (fun it => "- ".toList ++ trimSpace it)
      | _ => [])).flatten

/-- The changelog that `Parse` returns for `## [Unreleased]` followed by
`### Added`: the Unreleased entry has the section Added, without items, and
there is no release. -/
def unreleasedWithoutItems : Changelog :=
  { Unreleased := { Date := [], Changes := setSection (fun _ => none) Section.Added [] }
    Releases := [] }

/-! ## The comparator -/

theorem compareInt_eq_zero (a b : Int) : compareInt a b = 0 ↔ a = b := by
  unfold compareInt; split_ifs <;> simp <;> omega

theorem compareInt_neg_iff (a b : Int) : compareInt a b < 0 ↔ a < b := by
  unfold compareInt; split_ifs <;> omega

theorem compareInt_swap (a b : Int) : compareInt b a = -compareInt a b := by
  unfold compareInt; split_ifs <;> omega

theorem stringsCompare_swap : ∀ a b : Str, stringsCompare b a = -stringsCompare a b
  | [], [] => by simp [stringsCompare]
  | [], _ :: _ => by simp [stringsCompare]
  | _ :: _, [] => by simp [stringsCompare]
  | a :: as, b :: bs => by
    have ih := stringsCompare_swap as bs
    simp only [stringsCompare]
    split_ifs <;> omega

theorem stringsCompare_eq_zero : ∀ a b : Str, stringsCompare a b = 0 ↔ a = b
  | [], [] => by simp [stringsCompare]
  | [], _ :: _ => by simp [stringsCompare]
  | _ :: _, [] => by simp [stringsCompare]
  | a :: as, b :: bs => by
    have ih := stringsCompare_eq_zero as bs
    simp only [stringsCompare]
    split_ifs with h1 h2
    · simp; intro h; subst h; omega
    · simp; intro h; subst h; omega
    · have : a = b := Char.ext (UInt32.ext (by simpa [Char.toNat] using (show a.toNat = b.toNat by omega)))
      simp [ih, this]

theorem stringsCompare_range : ∀ a b : Str,
    stringsCompare a b = -1 ∨ stringsCompare a b = 0 ∨ stringsCompare a b = 1
  | [], [] => by simp [stringsCompare]
  | [], _ :: _ => by simp [stringsCompare]
  | _ :: _, [] => by simp [stringsCompare]
  | a :: as, b :: bs => by
    have ih := stringsCompare_range as bs
    simp only [stringsCompare]
    split_ifs <;> simp [ih]

theorem stringsCompare_lt_trans : ∀ a b c : Str,
    stringsCompare a b < 0 → stringsCompare b c < 0 → stringsCompare a c < 0
  | [], [], _ => by simp [stringsCompare]
  | [], _ :: _, [] => by simp [stringsCompare]
  | [], _ :: _, _ :: _ => by simp [stringsCompare]
  | _ :: _, [], _ => by simp [stringsCompare]
  | _ :: _, _ :: _, [] => by simp [stringsCompare]
  | a :: as, b :: bs, c :: cs => by
    have ih := stringsCompare_lt_trans as bs cs
    simp only [stringsCompare]
    intro h1 h2
    split_ifs at h1 h2 ⊢ <;> omega

theorem compareInt_range (a b : Int) :
    compareInt a b = -1 ∨ compareInt a b = 0 ∨ compareInt a b = 1 := by
  unfold compareInt; split_ifs <;> simp

theorem fieldCompare_swap (a b : Str) : fieldCompare b a = -fieldCompare a b := by
  unfold fieldCompare
  cases Atoi a <;> cases Atoi b
  · exact stringsCompare_swap a b
  · rfl
  · rfl
  · exact compareInt_swap _ _

theorem fieldCompare_range (a b : Str) :
    fieldCompare a b = -1 ∨ fieldCompare a b = 0 ∨ fieldCompare a b = 1 := by
  unfold fieldCompare
  cases Atoi a <;> cases Atoi b <;> simp [compareInt_range, stringsCompare_range]

theorem fieldCompare_zero_left (a b c : Str) (h : fieldCompare a b = 0) :
    fieldCompare a c = fieldCompare b c := by
  unfold fieldCompare at *
  cases ha : Atoi a <;> cases hb : Atoi b <;> simp only [ha, hb] at h
  · rw [stringsCompare_eq_zero] at h; subst h; simp [ha]
  · simp at h
  · simp at h
  · rw [compareInt_eq_zero] at h; subst h; cases Atoi c <;> rfl

theorem fieldCompare_zero_right (a b c : Str) (h : fieldCompare b c = 0) :
    fieldCompare a c = fieldCompare a b := by
  have h1 : fieldCompare c b = 0 := by rw [fieldCompare_swap, h]; rfl
  have := fieldCompare_zero_left c b a h1
  rw [fieldCompare_swap a c, fieldCompare_swap a b] at this
  omega

theorem fieldCompare_lt_trans (a b c : Str) (h1 : fieldCompare a b < 0)
    (h2 : fieldCompare b c < 0) : fieldCompare a c < 0 := by
  unfold fieldCompare at *
  cases ha : Atoi a <;> cases hb : Atoi b <;> cases hc : Atoi c <;>
    simp only [ha, hb, hc] at h1 h2 ⊢
  · exact stringsCompare_lt_trans _ _ _ h1 h2
  all_goals first
    | omega
    | (rw [compareInt_neg_iff] at *; omega)

theorem lexLoop_swap (f g : Nat → Str) : ∀ n i, lexLoop g f n i = -lexLoop f g n i
  | 0, _ => by simp [lexLoop]
  | n + 1, i => by
    have ih := lexLoop_swap f g n (i + 1)
    simp only [lexLoop]
    rw [fieldCompare_swap (f i) (g i)]
    split_ifs <;> omega

theorem lexLoop_le_trans (f g h : Nat → Str) : ∀ n i,
    lexLoop f g n i ≤ 0 → lexLoop g h n i ≤ 0 → lexLoop f h n i ≤ 0
  | 0, _ => by simp [lexLoop]
  | n + 1, i => by
    have ih := lexLoop_le_trans f g h n (i + 1)
    simp only [lexLoop]
    intro h1 h2
    by_cases hx : fieldCompare (f i) (g i) = 0
    · rw [fieldCompare_zero_left _ _ _ hx]
      simp only [hx, ne_eq, not_true_eq_false, if_false] at h1
      split_ifs at h2 ⊢
      · exact h2
      · exact ih h1 h2
    · simp only [hx, ne_eq, not_false_eq_true, if_true] at h1
      by_cases hy : fieldCompare (g i) (h i) = 0
      · rw [fieldCompare_zero_right _ _ _ hy]
        simp [hx, h1]
      · simp only [hy, ne_eq, not_false_eq_true, if_true] at h2
        have := fieldCompare_lt_trans (f i) (g i) (h i) (by omega) (by omega)
        split_ifs <;> omega

theorem lexLoop_extend (f g : Nat → Str) : ∀ n k i,
    (∀ j, i + n ≤ j → f j = [] ∧ g j = []) → lexLoop f g (n + k) i = lexLoop f g n i
  | 0, 0, _ => by simp
  | 0, k + 1, i => by
    intro hz
    have ih := lexLoop_extend f g 0 k (i + 1) (fun j hj => hz j (by omega))
    have h0 := hz i (by omega)
    simp only [Nat.zero_add] at ih ⊢
    simp only [lexLoop, h0.1, h0.2] at ih ⊢
    simp [fieldCompare, Atoi, stringsCompare, ih]
  | n + 1, k, i => by
    intro hz
    have ih := lexLoop_extend f g n k (i + 1) (fun j hj => hz j (by omega))
    have : n + 1 + k = (n + k) + 1 := by omega
    rw [this]
    simp only [lexLoop, ih]

theorem preReleaseLoop_eq (a b : List Str) : ∀ n i,
    preReleaseLoop a b n i = lexLoop (fieldAt a) (fieldAt b) n i
  | 0, _ => by simp [preReleaseLoop, lexLoop]
  | n + 1, i => by
    have ih := preReleaseLoop_eq a b n (i + 1)
    have ha : (if i < a.length then a.getD i [] else []) = fieldAt a i := by
      unfold fieldAt; split_ifs with h
      · rfl
      · rw [List.getD_eq_default _ _ (by omega : a.length ≤ i)]
    have hb : (if i < b.length then b.getD i [] else []) = fieldAt b i := by
      unfold fieldAt; split_ifs with h
      · rfl
      · rw [List.getD_eq_default _ _ (by omega : b.length ≤ i)]
    simp only [preReleaseLoop, lexLoop, ha, hb, ih, fieldCompare]
    cases h1 : Atoi (fieldAt a i) <;> cases h2 : Atoi (fieldAt b i) <;> simp
    · simp only [stringsCompare_eq_zero]
    · simp only [compareInt_eq_zero]

theorem compareInt_le_iff (a b : Int) : compareInt a b ≤ 0 ↔ a ≤ b := by
  unfold compareInt; split_ifs <;> simp <;> omega

theorem fieldAt_of_le (l : List Str) (j : Nat) (h : l.length ≤ j) : fieldAt l j = [] := by
  unfold fieldAt; rw [List.getD_eq_default _ _ h]

theorem lexLoop_fuel (a b : List Str) (N : Nat) (h : max a.length b.length ≤ N) :
    lexLoop (fieldAt a) (fieldAt b) (max a.length b.length) 0 =
      lexLoop (fieldAt a) (fieldAt b) N 0 := by
  obtain ⟨k, rfl⟩ := Nat.exists_eq_add_of_le h
  symm
  apply lexLoop_extend
  intro j hj
  have h1 := Nat.le_max_left a.length b.length
  have h2 := Nat.le_max_right a.length b.length
  exact ⟨fieldAt_of_le _ _ (by omega), fieldAt_of_le _ _ (by omega)⟩

theorem comparePreRelease_swap (a b : Option Str) :
    comparePreRelease b a = -comparePreRelease a b := by
  cases a <;> cases b <;> simp only [comparePreRelease] <;> try rfl
  rw [preReleaseLoop_eq, preReleaseLoop_eq, Nat.max_comm]
  exact lexLoop_swap _ _ _ _

theorem comparePreRelease_le_trans (a b c : Option Str)
    (h1 : comparePreRelease a b ≤ 0) (h2 : comparePreRelease b c ≤ 0) :
    comparePreRelease a c ≤ 0 := by
  cases a <;> cases b <;> cases c <;> simp only [comparePreRelease] at h1 h2 ⊢ <;>
    try omega
  rename_i a b c
  rw [preReleaseLoop_eq] at h1 h2 ⊢
  let N := max (max (splitOn '.' a).length (splitOn '.' b).length) (splitOn '.' c).length
  have hab : max (splitOn '.' a).length (splitOn '.' b).length ≤ N := Nat.le_max_left _ _
  have hc : (splitOn '.' c).length ≤ N := Nat.le_max_right _ _
  have ha : (splitOn '.' a).length ≤ N := le_trans (Nat.le_max_left _ _) hab
  have hb : (splitOn '.' b).length ≤ N := le_trans (Nat.le_max_right _ _) hab
  rw [lexLoop_fuel _ _ N (max_le ha hb)] at h1
  rw [lexLoop_fuel _ _ N (max_le hb hc)] at h2
  rw [lexLoop_fuel _ _ N (max_le ha hc)]
  exact lexLoop_le_trans _ _ _ _ _ h1 h2

theorem Compare_of_fields (a b : Semver) (a1 a2 a3 b1 b2 b3 : Int)
    (ha1 : mustAtoi a.Major = some a1) (ha2 : mustAtoi a.Minor = some a2)
    (ha3 : mustAtoi a.Patch = some a3) (hb1 : mustAtoi b.Major = some b1)
    (hb2 : mustAtoi b.Minor = some b2) (hb3 : mustAtoi b.Patch = some b3) :
    Compare a b = some
      (if a1 ≠ b1 then compareInt a1 b1
       else if a2 ≠ b2 then compareInt a2 b2
       else if a3 ≠ b3 then compareInt a3 b3
       else comparePreRelease a.PreRelease b.PreRelease) := by
  unfold Compare
  simp only [ha1, ha2, ha3, hb1, hb2, hb3, Option.bind_eq_bind, Option.some_bind, Option.pure_def]
  split_ifs <;> rfl

theorem validVersion_fields (v : Semver) (h : validVersion v) :
    ∃ x y z, mustAtoi v.Major = some x ∧ mustAtoi v.Minor = some y ∧ mustAtoi v.Patch = some z := by
  obtain ⟨h1, h2, h3⟩ := h
  rw [Option.isSome_iff_exists] at h1 h2 h3
  obtain ⟨x, hx⟩ := h1
  obtain ⟨y, hy⟩ := h2
  obtain ⟨z, hz⟩ := h3
  exact ⟨x, y, z, hx, hy, hz⟩

theorem Compare_swap_valid (a b : Semver) (ha : validVersion a) (hb : validVersion b) :
    ∃ x, Compare a b = some x ∧ Compare b a = some (-x) := by
  obtain ⟨a1, a2, a3, ha1, ha2, ha3⟩ := validVersion_fields a ha
  obtain ⟨b1, b2, b3, hb1, hb2, hb3⟩ := validVersion_fields b hb
  refine ⟨_, Compare_of_fields a b _ _ _ _ _ _ ha1 ha2 ha3 hb1 hb2 hb3, ?_⟩
  rw [Compare_of_fields b a _ _ _ _ _ _ hb1 hb2 hb3 ha1 ha2 ha3]
  congr 1
  rw [comparePreRelease_swap a.PreRelease b.PreRelease, compareInt_swap a1 b1,
    compareInt_swap a2 b2, compareInt_swap a3 b3]
  split_ifs <;> first | rfl | omega

theorem Compare_le_trans_valid (a b c : Semver) (ha : validVersion a) (hb : validVersion b)
    (hc : validVersion c) (x y : Int) (hx : Compare a b = some x) (hy : Compare b c = some y)
    (hx0 : x ≤ 0) (hy0 : y ≤ 0) : ∃ z, Compare a c = some z ∧ z ≤ 0 := by
  obtain ⟨a1, a2, a3, ha1, ha2, ha3⟩ := validVersion_fields a ha
  obtain ⟨b1, b2, b3, hb1, hb2, hb3⟩ := validVersion_fields b hb
  obtain ⟨c1, c2, c3, hc1, hc2, hc3⟩ := validVersion_fields c hc
  rw [Compare_of_fields a b _ _ _ _ _ _ ha1 ha2 ha3 hb1 hb2 hb3] at hx
  rw [Compare_of_fields b c _ _ _ _ _ _ hb1 hb2 hb3 hc1 hc2 hc3] at hy
  refine ⟨_, Compare_of_fields a c _ _ _ _ _ _ ha1 ha2 ha3 hc1 hc2 hc3, ?_⟩
  injection hx with hx
  injection hy with hy
  subst hx hy
  have hp := comparePreRelease_le_trans a.PreRelease b.PreRelease c.PreRelease
  split_ifs at hx0 hy0 ⊢ <;> (try simp only [compareInt_le_iff] at hx0 hy0 ⊢) <;> first
    | exact hp hx0 hy0
    | omega

/-! ## The comparator: prefixes, and the claims C1 to C4 -/

theorem fieldCompare_self (a : Str) : fieldCompare a a = 0 := by
  have := fieldCompare_swap a a
  omega

theorem lexLoop_all_zero (f g : Nat → Str) : ∀ n i,
    (∀ j, i ≤ j → fieldCompare (f j) (g j) = 0) → lexLoop f g n i = 0
  | 0, _ => by simp [lexLoop]
  | n + 1, i => by
    intro h
    simp only [lexLoop, h i (Nat.le_refl i), ne_eq, not_true_eq_false, if_false]
    exact lexLoop_all_zero f g n (i + 1) (fun j hj => h j (by omega))

theorem lexLoop_first_diff (f g : Nat → Str) (m : Nat) : ∀ n i, i ≤ m → m < i + n →
    (∀ j, i ≤ j → j < m → fieldCompare (f j) (g j) = 0) →
    fieldCompare (f m) (g m) ≠ 0 → lexLoop f g n i = fieldCompare (f m) (g m)
  | 0, i => by intro h1 h2; omega
  | n + 1, i => by
    intro h1 h2 hz hm
    by_cases hi : i = m
    · subst hi
      simp only [lexLoop, hm, ne_eq, not_false_eq_true, if_true]
    · simp only [lexLoop, hz i (Nat.le_refl i) (by omega), ne_eq, not_true_eq_false, if_false]
      exact lexLoop_first_diff f g m n (i + 1) (by omega) (by omega)
        (fun j hj hjm => hz j (by omega) hjm) hm

theorem Compare_same_numbers (a b : Semver) (ha : validVersion a) (hb : validVersion b)
    (h1 : mustAtoi a.Major = mustAtoi b.Major) (h2 : mustAtoi a.Minor = mustAtoi b.Minor)
    (h3 : mustAtoi a.Patch = mustAtoi b.Patch) :
    Compare a b = some (comparePreRelease a.PreRelease b.PreRelease) := by
  obtain ⟨a1, a2, a3, ha1, ha2, ha3⟩ := validVersion_fields a ha
  obtain ⟨b1, b2, b3, hb1, hb2, hb3⟩ := validVersion_fields b hb
  rw [Compare_of_fields a b _ _ _ _ _ _ ha1 ha2 ha3 hb1 hb2 hb3]
  rw [ha1, hb1] at h1
  rw [ha2, hb2] at h2
  rw [ha3, hb3] at h3
  injection h1 with h1
  injection h2 with h2
  injection h3 with h3
  simp [h1, h2, h3]

theorem fieldAt_append_left (l ext : List Str) (j : Nat) (h : j < l.length) :
    fieldAt (l ++ ext) j = fieldAt l j := by
  unfold fieldAt
  rw [List.getD_eq_getElem _ _ h, List.getD_eq_getElem _ _ (by simp; omega)]
  exact List.getElem_append_left h

theorem fieldAt_append_right (l ext : List Str) (j : Nat) (h : l.length ≤ j) :
    fieldAt (l ++ ext) j = fieldAt ext (j - l.length) := by
  unfold fieldAt
  simp only [List.getD_eq_getElem?_getD]
  rw [List.getElem?_append_right h]

theorem fieldAt_all_empty (ext : List Str) (h : ∀ f ∈ ext, f = []) (j : Nat) :
    fieldAt ext j = [] := by
  unfold fieldAt
  by_cases hj : j < ext.length
  · rw [List.getD_eq_getElem _ _ hj]
    exact h _ (List.getElem_mem _)
  · rw [List.getD_eq_default _ _ (by omega)]

theorem comparePreRelease_prefix_zero (pa pb : Str) (ext : List Str)
    (hpre : splitOn '.' pb = splitOn '.' pa ++ ext) (hall : ∀ f ∈ ext, f = []) :
    comparePreRelease (some pa) (some pb) = 0 := by
  simp only [comparePreRelease]
  rw [preReleaseLoop_eq, hpre]
  apply lexLoop_all_zero
  intro j _
  by_cases hj : j < (splitOn '.' pa).length
  · rw [fieldAt_append_left _ _ _ hj]; exact fieldCompare_self _
  · rw [fieldAt_append_right _ _ _ (by omega), fieldAt_all_empty ext hall,
      fieldAt_of_le _ _ (by omega)]
    exact fieldCompare_self _

theorem fieldCompare_empty_text (f : Str) (hf : f ≠ []) (hn : Atoi f = none) :
    fieldCompare [] f = -1 := by
  unfold fieldCompare
  rw [hn]
  cases f with
  | nil => exact absurd rfl hf
  | cons c cs => simp [Atoi, stringsCompare]

theorem comparePreRelease_prefix_text (pa pb : Str) (k : Nat) (f : Str) (rest : List Str)
    (hpre : splitOn '.' pb = splitOn '.' pa ++ (List.replicate k [] ++ f :: rest))
    (hf : f ≠ []) (hn : Atoi f = none) :
    comparePreRelease (some pa) (some pb) = -1 := by
  simp only [comparePreRelease]
  rw [preReleaseLoop_eq, hpre]
  have hm : fieldAt (splitOn '.' pa ++ (List.replicate k [] ++ f :: rest))
      ((splitOn '.' pa).length + k) = f := by
    rw [fieldAt_append_right _ _ _ (by omega)]
    unfold fieldAt
    rw [List.getD_eq_getElem _ _ (by simp), List.getElem_append_right (by simp)]
    simp
  have hm' : fieldAt (splitOn '.' pa) ((splitOn '.' pa).length + k) = [] :=
    fieldAt_of_le _ _ (by omega)
  rw [lexLoop_first_diff _ _ ((splitOn '.' pa).length + k)]
  · rw [hm, hm']; exact fieldCompare_empty_text f hf hn
  · omega
  · simp only [List.length_append, List.length_replicate, List.length_cons]
    have := Nat.le_max_right (splitOn '.' pa).length
      ((splitOn '.' pa).length + (k + (rest.length + 1)))
    omega
  · intro j _ hj
    by_cases hj' : j < (splitOn '.' pa).length
    · rw [fieldAt_append_left _ _ _ hj']; exact fieldCompare_self _
    · rw [fieldAt_append_right _ _ _ (by omega), fieldAt_of_le _ _ (by omega)]
      have : fieldAt (List.replicate k [] ++ f :: rest) (j - (splitOn '.' pa).length) = [] := by
        rw [fieldAt_append_left _ _ _ (by simp; omega)]
        unfold fieldAt
        rw [List.getD_eq_getElem _ _ (by simp; omega)]
        simp
      rw [this]; exact fieldCompare_self _
  · rw [hm, hm', fieldCompare_empty_text f hf hn]; decide

/-- C1: on versions whose major, minor and patch fields are integers, `Compare`
returns a result, `Compare(a, b) = -Compare(b, a)`, and `Compare(a, b) <= 0`
with `Compare(b, c) <= 0` gives `Compare(a, c) <= 0`. -/
theorem Compare_total_order (a b c : Semver) (ha : validVersion a) (hb : validVersion b)
    (hc : validVersion c) :
    (∃ x, Compare a b = some x ∧ Compare b a = some (-x)) ∧
    (∀ x y, Compare a b = some x → Compare b c = some y → x ≤ 0 → y ≤ 0 →
      ∃ z, Compare a c = some z ∧ z ≤ 0) :=
  ⟨Compare_swap_valid a b ha hb,
    fun x y hx hy hx0 hy0 => Compare_le_trans_valid a b c ha hb hc x y hx hy hx0 hy0⟩

theorem Compare_total_order_witness :
    validVersion (mkVersion "1" "0" "0" (some "alpha")) ∧
    validVersion (mkVersion "1" "0" "0" (some "beta.2")) ∧
    validVersion (mkVersion "1" "2" "0" none) ∧
    ((∃ x, Compare (mkVersion "1" "0" "0" (some "alpha"))
        (mkVersion "1" "0" "0" (some "beta.2")) = some x ∧
      Compare (mkVersion "1" "0" "0" (some "beta.2"))
        (mkVersion "1" "0" "0" (some "alpha")) = some (-x)) ∧
    (∀ x y, Compare (mkVersion "1" "0" "0" (some "alpha"))
        (mkVersion "1" "0" "0" (some "beta.2")) = some x →
      Compare (mkVersion "1" "0" "0" (some "beta.2")) (mkVersion "1" "2" "0" none) = some y →
      x ≤ 0 → y ≤ 0 →
      ∃ z, Compare (mkVersion "1" "0" "0" (some "alpha")) (mkVersion "1" "2" "0" none) = some z ∧
        z ≤ 0)) :=
  ⟨by decide, by decide, by decide,
    Compare_total_order _ _ _ (by decide) (by decide) (by decide)⟩

/-- C2: with the same major, minor and patch numbers, a version without a
pre-release label compares greater than one with a label, and the one with a
label compares less. -/
theorem Compare_release_beats_prerelease (a b : Semver) (ha : validVersion a)
    (hb : validVersion b) (h1 : mustAtoi a.Major = mustAtoi b.Major)
    (h2 : mustAtoi a.Minor = mustAtoi b.Minor) (h3 : mustAtoi a.Patch = mustAtoi b.Patch)
    (hpa : a.PreRelease = none) (hpb : b.PreRelease ≠ none) :
    (∃ x, Compare a b = some x ∧ x > 0) ∧ (∃ y, Compare b a = some y ∧ y < 0) := by
  rw [Compare_same_numbers a b ha hb h1 h2 h3,
    Compare_same_numbers b a hb ha h1.symm h2.symm h3.symm, hpa]
  cases hp : b.PreRelease with
  | none => exact absurd hp hpb
  | some p => exact ⟨⟨1, rfl, by decide⟩, ⟨-1, rfl, by decide⟩⟩

theorem Compare_release_beats_prerelease_witness :
    (∃ x, Compare (mkVersion "1" "0" "0" none) (mkVersion "1" "0" "0" (some "alpha")) = some x ∧
      x > 0) ∧
    (∃ y, Compare (mkVersion "1" "0" "0" (some "alpha")) (mkVersion "1" "0" "0" none) = some y ∧
      y < 0) :=
  Compare_release_beats_prerelease (mkVersion "1" "0" "0" none)
    (mkVersion "1" "0" "0" (some "alpha")) (by decide) (by decide) (by decide) (by decide)
    (by decide) (by decide) (by decide)

/-- C3: what the code returns for `Compare(1.0.0-alpha, 1.0.0-alpha.1)`: the
missing second field of `alpha` is the empty string, which is not a number,
so the numeric field `1` sorts before it and the result is `1`, not a
negative number. -/
theorem Compare_alpha_alpha_1 :
    Compare (mkVersion "1" "0" "0" (some "alpha")) (mkVersion "1" "0" "0" (some "alpha.1")) =
      some 1 := by
  decide

/-- C4, as stated, fails: the fields of `alpha` are a strict prefix of the
fields of `alpha.beta`, and `Compare(1.0.0-alpha, 1.0.0-alpha.beta)` is `-1`,
not `0`. -/
theorem Compare_prefix_not_equal :
    validVersion (mkVersion "1" "0" "0" (some "alpha")) ∧
    validVersion (mkVersion "1" "0" "0" (some "alpha.beta")) ∧
    splitOn '.' "alpha.beta".toList = splitOn '.' "alpha".toList ++ ["beta".toList] ∧
    Compare (mkVersion "1" "0" "0" (some "alpha")) (mkVersion "1" "0" "0" (some "alpha.beta")) =
      some (-1) ∧
    Compare (mkVersion "1" "0" "0" (some "alpha")) (mkVersion "1" "0" "0" (some "alpha.beta")) ≠
      some 0 := by
  decide

/-- C4, amended: when the fields of one label are a prefix of the fields of the
other (`ext` being the extra fields of the longer one), the two versions compare equal if every extra field is empty,
and the version with the shorter label compares less if the first extra
field that is not empty is not an integer. -/
theorem Compare_prefix_label (a b : Semver) (ha : validVersion a) (hb : validVersion b)
    (h1 : mustAtoi a.Major = mustAtoi b.Major) (h2 : mustAtoi a.Minor = mustAtoi b.Minor)
    (h3 : mustAtoi a.Patch = mustAtoi b.Patch) (pa pb : Str) (hpa : a.PreRelease = some pa)
    (hpb : b.PreRelease = some pb) (ext : List Str)
    (hpre : splitOn '.' pb = splitOn '.' pa ++ ext) :
    ((∀ f ∈ ext, f = []) → Compare a b = some 0 ∧ Compare b a = some 0) ∧
    (∀ k f rest, ext = List.replicate k [] ++ f :: rest → f ≠ [] → Atoi f = none →
      Compare a b = some (-1) ∧ Compare b a = some 1) := by
  rw [Compare_same_numbers a b ha hb h1 h2 h3,
    Compare_same_numbers b a hb ha h1.symm h2.symm h3.symm, hpa, hpb,
    comparePreRelease_swap (some pa) (some pb)]
  constructor
  · intro hall
    rw [comparePreRelease_prefix_zero pa pb ext hpre hall]
    exact ⟨rfl, rfl⟩
  · intro k f rest he hf hn
    rw [he] at hpre
    rw [comparePreRelease_prefix_text pa pb k f rest hpre hf hn]
    exact ⟨rfl, rfl⟩

theorem Compare_prefix_label_witness :
    ((∀ f ∈ ["beta".toList], f = []) →
      Compare (mkVersion "1" "0" "0" (some "alpha"))
        (mkVersion "1" "0" "0" (some "alpha.beta")) = some 0 ∧
      Compare (mkVersion "1" "0" "0" (some "alpha.beta"))
        (mkVersion "1" "0" "0" (some "alpha")) = some 0) ∧
    (∀ k f rest, ["beta".toList] = List.replicate k [] ++ f :: rest → f ≠ [] → Atoi f = none →
      Compare (mkVersion "1" "0" "0" (some "alpha"))
        (mkVersion "1" "0" "0" (some "alpha.beta")) = some (-1) ∧
      Compare (mkVersion "1" "0" "0" (some "alpha.beta"))
        (mkVersion "1" "0" "0" (some "alpha")) = some 1) :=
  Compare_prefix_label (mkVersion "1" "0" "0" (some "alpha"))
    (mkVersion "1" "0" "0" (some "alpha.beta")) (by decide) (by decide) (by decide) (by decide)
    (by decide) "alpha".toList "alpha.beta".toList rfl rfl ["beta".toList] (by decide)

/-! ## The parser: what a line does to the state -/

theorem matchSection_not_release (l name : Str) (h : matchSection l = some name) :
    matchRelease l = none := by
  unfold matchSection at h
  split at h
  · simp [matchRelease]
  · exact absurd h (by simp)

theorem parseLine_release (p : Str → Option Semver) (s : ParseState) (l label date : Str)
    (h : matchRelease (replaceNbsp l) = some (label, date)) :
    parseLine p s l =
      { cl := flush p s
        currentEntry := { Date := date, Changes := fun _ => none }
        currentVersion := label
        currentSection := s.currentSection
        inUnreleased := decide (toLower label = "unreleased".toList) } := by
  simp only [parseLine, h]

theorem parseLine_unknown_section (p : Str → Option Semver) (s : ParseState) (l name : Str)
    (h : matchSection (replaceNbsp l) = some name) (hn : ParseSection name = none) :
    parseLine p s l = s := by
  simp only [parseLine, matchSection_not_release _ _ h, h, hn]

theorem parseLine_not_release (p : Str → Option Semver) (s : ParseState) (l : Str)
    (h : matchRelease (replaceNbsp l) = none) :
    (parseLine p s l).cl = s.cl ∧ (parseLine p s l).currentVersion = s.currentVersion ∧
      (parseLine p s l).inUnreleased = s.inUnreleased ∧
      (parseLine p s l).currentEntry.Date = s.currentEntry.Date := by
  simp only [parseLine, h]
  split
  · split
    · split <;> simp
    · simp
  · split
    · split <;> simp
    · simp

theorem foldl_not_release (p : Str → Option Semver) (ls : List Str)
    (h : ∀ l ∈ ls, matchRelease (replaceNbsp l) = none) : ∀ s : ParseState,
    (ls.foldl (parseLine p) s).cl = s.cl ∧
      (ls.foldl (parseLine p) s).currentVersion = s.currentVersion ∧
      (ls.foldl (parseLine p) s).inUnreleased = s.inUnreleased := by
  induction ls with
  | nil => intro s; simp
  | cons l ls ih =>
    intro s
    have h1 := parseLine_not_release p s l (h l (List.mem_cons_self _ _))
    have h2 := ih (fun l' hl' => h l' (List.mem_cons_of_mem _ hl')) (parseLine p s l)
    simp only [List.foldl_cons]
    exact ⟨h2.1.trans h1.1, h2.2.1.trans h1.2.1, h2.2.2.trans h1.2.2.1⟩

theorem flush_congr (p : Str → Option Semver) (s t : ParseState) (h : SameUpToSection s t) :
    flush p s = flush p t := by
  obtain ⟨h1, h2, h3, h4, _⟩ := h
  simp only [flush, h1, h2, h3, h4]

theorem parseLine_congr (p : Str → Option Semver) (s t : ParseState) (l : Str)
    (h : SameUpToSection s t) : SameUpToSection (parseLine p s l) (parseLine p t l) := by
  have hf := flush_congr p s t h
  obtain ⟨cl, e, v, sec, u⟩ := s
  obtain ⟨cl', e', v', sec', u'⟩ := t
  obtain ⟨h1, h2, h3, h4, h5⟩ := h
  simp only at h1 h2 h3 h4 h5
  subst h1 h2 h3 h4
  simp only [parseLine]
  split
  · exact ⟨hf, rfl, rfl, rfl, Or.inr rfl⟩
  · split
    · split
      · split
        · exact ⟨rfl, rfl, rfl, rfl, Or.inl rfl⟩
        · exact ⟨rfl, rfl, rfl, rfl, Or.inl rfl⟩
      · exact ⟨rfl, rfl, rfl, rfl, h5⟩
    · split
      · rcases h5 with h5 | h5
        · subst h5
          split
          · exact ⟨rfl, rfl, rfl, rfl, Or.inl rfl⟩
          · exact ⟨rfl, rfl, rfl, rfl, Or.inl rfl⟩
        · simp only [h5]
          exact ⟨rfl, rfl, rfl, rfl, Or.inr h5⟩
      · exact ⟨rfl, rfl, rfl, rfl, h5⟩

theorem foldl_congr (p : Str → Option Semver) (ls : List Str) : ∀ s t : ParseState,
    SameUpToSection s t → SameUpToSection (ls.foldl (parseLine p) s) (ls.foldl (parseLine p) t) := by
  induction ls with
  | nil => intro s t h; exact h
  | cons l ls ih => intro s t h; exact ih _ _ (parseLine_congr p s t l h)

theorem flush_bad_version (p : Str → Option Semver) (s : ParseState)
    (hu : s.inUnreleased = false) (hp : p s.currentVersion = none) : flush p s = s.cl := by
  simp only [flush, hu, hp]
  split <;> simp

/-! ## The parser: the claims C7, C8 and C9 -/

theorem parseLine_no_section (p : Str → Option Semver) (s : ParseState) (l : Str)
    (hr : matchRelease (replaceNbsp l) = none)
    (hs : (matchSection (replaceNbsp l)).bind ParseSection = none)
    (he : s.currentEntry.Changes = fun _ => none) : parseLine p s l = s := by
  simp only [parseLine, hr, he]
  cases hm : matchSection (replaceNbsp l) with
  | some name =>
    rw [hm] at hs
    simp only [Option.some_bind] at hs
    simp only [hs]
  | none =>
    simp only
    split <;> rfl

theorem foldl_no_section (p : Str → Option Semver) (ls : List Str)
    (h : ∀ l ∈ ls, matchRelease (replaceNbsp l) = none ∧
      (matchSection (replaceNbsp l)).bind ParseSection = none)
    (s : ParseState) (he : s.currentEntry.Changes = fun _ => none) :
    ls.foldl (parseLine p) s = s := by
  induction ls with
  | nil => rfl
  | cons l ls ih =>
    have hl := h l (List.mem_cons_self _ _)
    rw [List.foldl_cons, parseLine_no_section p s l hl.1 hl.2 he]
    exact ih (fun l' hl' => h l' (List.mem_cons_of_mem _ hl'))

/-- C7, as stated, fails: in `## [Unreleased]` followed by `- foo`, the bullet
is not stored in Added; the entry has no Added section at all. -/
theorem Parse_bullet_before_section_dropped :
    Parse modelParse (Reader.ofText "## [Unreleased]\n- foo\n".toList) =
      Except.ok (parseText modelParse "## [Unreleased]\n- foo\n".toList) ∧
    (parseText modelParse "## [Unreleased]\n- foo\n".toList).Unreleased.Changes Section.Added =
      none ∧
    (parseText modelParse "## [Unreleased]\n- foo\n".toList).Unreleased.Changes Section.Added ≠
      some ["foo".toList] :=
  ⟨rfl, by set_option maxRecDepth 100000 in decide, by set_option maxRecDepth 100000 in decide⟩

/-- C7, amended: the lines that follow a release header before the first
recognized section header of its block leave no trace: the text parses to
what it parses to without them. In particular a bullet there is dropped. -/
theorem Parse_before_first_section (semverParse : Str → Option Semver) (t1 t2 : Str)
    (pre ls rest : List Str) (h : Str) (hh : (matchRelease (replaceNbsp h)).isSome)
    (hls : ∀ l ∈ ls, matchRelease (replaceNbsp l) = none ∧
      (matchSection (replaceNbsp l)).bind ParseSection = none)
    (h1 : readLines t1 = pre ++ h :: (ls ++ rest)) (h2 : readLines t2 = pre ++ h :: rest) :
    Parse semverParse (Reader.ofText t1) = Parse semverParse (Reader.ofText t2) := by
  simp only [Parse, Reader.ofText, parseText, parseLines, h1, h2, List.foldl_append,
    List.foldl_cons]
  obtain ⟨⟨label, date⟩, hm⟩ := Option.isSome_iff_exists.mp hh
  rw [parseLine_release _ _ _ _ _ hm, foldl_no_section semverParse ls hls _ rfl]

theorem Parse_before_first_section_witness :
    Parse modelParse (Reader.ofText "## [1.0.0]\n- foo\n\n### Added\n- bar\n".toList) =
      Parse modelParse (Reader.ofText "## [1.0.0]\n### Added\n- bar\n".toList) :=
  Parse_before_first_section modelParse _ _ [] ["- foo".toList, []]
    ["### Added".toList, "- bar".toList] "## [1.0.0]".toList (by decide) (by decide)
    (by set_option maxRecDepth 100000 in decide) (by set_option maxRecDepth 100000 in decide)

/-- C8, as stated, fails: in the text below the bullet `- b` follows the
unrecognized header `### Foo`, and it is appended to Added, the section that
was active before that header. -/
theorem Parse_bullet_after_unknown_section_kept :
    matchSection (replaceNbsp "### Foo".toList) = some "Foo".toList ∧
    ParseSection "Foo".toList = none ∧
    Parse modelParse (Reader.ofText "## [Unreleased]\n### Added\n- a\n### Foo\n- b\n".toList) =
      Except.ok (parseText modelParse "## [Unreleased]\n### Added\n- a\n### Foo\n- b\n".toList) ∧
    (parseText modelParse
      "## [Unreleased]\n### Added\n- a\n### Foo\n- b\n".toList).Unreleased.Changes Section.Added =
      some ["a".toList, "b".toList] :=
  ⟨by decide, by decide, rfl, by set_option maxRecDepth 100000 in decide⟩

/-- C8, amended: a `### <name>` line whose name is not one of the six sections
has no effect: the text parses to what it parses to without that line, so a
bullet after it goes where it would go if the line were absent (to the section
that was active before, when the current entry has that section). -/
theorem Parse_unknown_section_ignored (semverParse : Str → Option Semver) (t1 t2 : Str)
    (pre rest : List Str) (h name : Str) (hname : matchSection (replaceNbsp h) = some name)
    (hunknown : ParseSection name = none) (h1 : readLines t1 = pre ++ h :: rest)
    (h2 : readLines t2 = pre ++ rest) :
    Parse semverParse (Reader.ofText t1) = Parse semverParse (Reader.ofText t2) := by
  simp only [Parse, Reader.ofText, parseText, parseLines, h1, h2, List.foldl_append,
    List.foldl_cons]
  rw [parseLine_unknown_section _ _ _ _ hname hunknown]

theorem Parse_unknown_section_ignored_witness :
    Parse modelParse (Reader.ofText "## [Unreleased]\n### Added\n- a\n### Foo\n- b\n".toList) =
      Parse modelParse (Reader.ofText "## [Unreleased]\n### Added\n- a\n- b\n".toList) :=
  Parse_unknown_section_ignored modelParse _ _
    ["## [Unreleased]".toList, "### Added".toList, "- a".toList] ["- b".toList]
    "### Foo".toList "Foo".toList (by decide) (by decide)
    (by set_option maxRecDepth 100000 in decide) (by set_option maxRecDepth 100000 in decide)

/-- C9: `Parse` returns a changelog and no error on every in-memory text; and a
release header whose label is not `unreleased` in any letter case and that
`semver.Parse` rejects adds nothing: the text parses to what it parses to
without the header and the lines of its block (the lines up to the next
release header or the end of the text). -/
theorem Parse_skips_unparsable_header (semverParse : Str → Option Semver) :
    (∀ text, ∃ c, Parse semverParse (Reader.ofText text) = Except.ok c) ∧
    (∀ (t1 t2 : Str) (pre block rest : List Str) (h label date : Str),
      matchRelease (replaceNbsp h) = some (label, date) →
      toLower label ≠ "unreleased".toList → semverParse label = none →
      (∀ l ∈ block, matchRelease (replaceNbsp l) = none) →
      (rest = [] ∨ ∃ h2 tl, rest = h2 :: tl ∧ (matchRelease (replaceNbsp h2)).isSome) →
      readLines t1 = pre ++ h :: (block ++ rest) → readLines t2 = pre ++ rest →
      Parse semverParse (Reader.ofText t1) = Parse semverParse (Reader.ofText t2)) := by
  refine ⟨fun text => ⟨_, rfl⟩, ?_⟩
  intro t1 t2 pre block rest h label date hm hlab hbad hblock hrest h1 h2
  simp only [Parse, Reader.ofText, parseText, parseLines, h1, h2, List.foldl_append,
    List.foldl_cons]
  congr 1
  generalize pre.foldl (parseLine semverParse) ParseState.init = s0
  rw [parseLine_release _ _ _ _ _ hm]
  have hb := foldl_not_release semverParse block hblock
    { cl := flush semverParse s0
      currentEntry := { Date := date, Changes := fun _ => none }
      currentVersion := label
      currentSection := s0.currentSection
      inUnreleased := decide (toLower label = "unreleased".toList) }
  generalize block.foldl (parseLine semverParse) _ = s2 at hb ⊢
  simp only at hb
  obtain ⟨hcl, hver, hun⟩ := hb
  have hun' : s2.inUnreleased = false := by rw [hun]; exact decide_eq_false hlab
  have hflush : flush semverParse s2 = flush semverParse s0 := by
    rw [flush_bad_version semverParse s2 hun' (by rw [hver]; exact hbad)]
    exact hcl
  rcases hrest with hrest | ⟨h2, tl, hrest, hh2⟩
  · subst hrest
    simpa using hflush
  · subst hrest
    obtain ⟨⟨label2, date2⟩, hm2⟩ := Option.isSome_iff_exists.mp hh2
    simp only [List.foldl_cons]
    apply flush_congr
    apply foldl_congr
    rw [parseLine_release _ _ _ _ _ hm2, parseLine_release _ _ _ _ _ hm2]
    exact ⟨hflush, rfl, rfl, rfl, Or.inr rfl⟩

theorem Parse_skips_unparsable_header_witness :
    Parse modelParse (Reader.ofText
      "## [Unreleased]\n### Added\n- a\n## [not-a-version]\n### Fixed\n- b\n## [1.0.0]\n".toList) =
      Parse modelParse (Reader.ofText "## [Unreleased]\n### Added\n- a\n## [1.0.0]\n".toList) :=
  (Parse_skips_unparsable_header modelParse).2 _ _
    ["## [Unreleased]".toList, "### Added".toList, "- a".toList]
    ["### Fixed".toList, "- b".toList] ["## [1.0.0]".toList] "## [not-a-version]".toList
    "not-a-version".toList [] (by decide) (by decide) (by decide) (by decide)
    (Or.inr ⟨_, _, rfl, by decide⟩)
    (by set_option maxRecDepth 100000 in decide) (by set_option maxRecDepth 100000 in decide)

/-! ## The sort -/

theorem insertLeft_spec {α : Type} (less : α → α → Option Bool) (xs : List α)
    (ht : TotalOn less xs) (x : α) (hx : x ∈ xs) : ∀ rev : List α, (∀ y ∈ rev, y ∈ xs) →
    ∃ r, insertLeft less x rev = some r ∧ r.Perm (x :: rev) ∧
      (StrictWeakOn less xs → rev.Pairwise (fun a b => less a b = some false) →
        r.Pairwise (fun a b => less a b = some false))
  | [] => fun _ => ⟨[x], rfl, List.Perm.refl _, fun _ _ => List.pairwise_singleton _ _⟩
  | p :: ps => fun hrev => by
    have hp : p ∈ xs := hrev p (List.mem_cons_self _ _)
    have hps : ∀ y ∈ ps, y ∈ xs := fun y hy => hrev y (List.mem_cons_of_mem _ hy)
    obtain ⟨b, hb⟩ := Option.isSome_iff_exists.mp (ht x hx p hp)
    cases b with
    | true =>
      obtain ⟨r, hr, hperm, hsorted⟩ := insertLeft_spec less xs ht x hx ps hps
      refine ⟨p :: r, by simp [insertLeft, hb, hr], ?_, ?_⟩
      · exact (List.Perm.cons p hperm).trans (List.Perm.swap x p ps)
      · intro hsw hpw
        rw [List.pairwise_cons] at hpw
        refine List.pairwise_cons.mpr ⟨?_, hsorted hsw hpw.2⟩
        intro y hy
        rcases List.mem_cons.mp (hperm.subset hy) with hy | hy
        · subst hy
          obtain ⟨b', hb'⟩ := Option.isSome_iff_exists.mp (ht p hp y hx)
          cases b' with
          | false => exact hb'
          | true =>
            have := hsw.2.1 y hx p hp y hx hb hb'
            rw [hsw.1 y hx] at this
            exact absurd this (by simp)
        · exact hpw.1 y hy
    | false =>
      refine ⟨x :: p :: ps, by simp [insertLeft, hb], List.Perm.refl _, ?_⟩
      intro hsw hpw
      refine List.pairwise_cons.mpr ⟨?_, hpw⟩
      intro y hy
      rcases List.mem_cons.mp hy with hy | hy
      · subst hy; exact hb
      · exact hsw.2.2 x hx p hp y (hps y hy) hb ((List.pairwise_cons.mp hpw).1 y hy)

theorem foldlM_insertLeft_spec {α : Type} (less : α → α → Option Bool) (xs : List α)
    (ht : TotalOn less xs) : ∀ (todo acc : List α), (∀ y ∈ todo, y ∈ xs) →
    (∀ y ∈ acc, y ∈ xs) →
    ∃ r, todo.foldlM (fun acc x => insertLeft less x acc) acc = some r ∧
      r.Perm (todo.reverse ++ acc) ∧
      (StrictWeakOn less xs → acc.Pairwise (fun a b => less a b = some false) →
        r.Pairwise (fun a b => less a b = some false))
  | [], acc => fun _ _ => ⟨acc, rfl, by simp, fun _ h => h⟩
  | x :: todo, acc => fun htodo hacc => by
    have hx : x ∈ xs := htodo x (List.mem_cons_self _ _)
    obtain ⟨r1, hr1, hperm1, hs1⟩ := insertLeft_spec less xs ht x hx acc hacc
    have hr1mem : ∀ y ∈ r1, y ∈ xs := by
      intro y hy
      rcases List.mem_cons.mp (hperm1.subset hy) with h | h
      · subst h; exact hx
      · exact hacc y h
    obtain ⟨r, hr, hperm, hs⟩ := foldlM_insertLeft_spec less xs ht todo r1
      (fun y hy => htodo y (List.mem_cons_of_mem _ hy)) hr1mem
    refine ⟨r, ?_, ?_, fun hsw hpw => hs hsw (hs1 hsw hpw)⟩
    · simp only [List.foldlM_cons, hr1, Option.bind_eq_bind, Option.some_bind]
      exact hr
    · refine hperm.trans ?_
      simp only [List.reverse_cons, List.append_assoc, List.singleton_append]
      exact List.Perm.append_left _ hperm1

theorem insertionSort_correct {α : Type} : SortFn.Correct (insertionSort : SortFn α) := by
  intro less xs ht
  obtain ⟨r, hr, hperm, hs⟩ := foldlM_insertLeft_spec less xs ht xs [] (fun _ h => h)
    (fun _ h => absurd h (List.not_mem_nil _))
  refine ⟨r.reverse, by simp [insertionSort, hr], ?_, ?_⟩
  · refine (List.reverse_perm r).trans (hperm.trans ?_)
    simp only [List.append_nil]
    exact List.reverse_perm xs
  · intro hsw
    rw [List.pairwise_reverse]
    exact hs hsw List.Pairwise.nil

/-! ## The validator -/

theorem Compare_eq_cmpV (a b : Semver) (ha : validVersion a) (hb : validVersion b) :
    Compare a b = some (cmpV a b) := by
  obtain ⟨x, hx, _⟩ := Compare_swap_valid a b ha hb
  simp [cmpV, hx]

theorem cmpV_swap (a b : Semver) (ha : validVersion a) (hb : validVersion b) :
    cmpV b a = -cmpV a b := by
  obtain ⟨x, hx, hy⟩ := Compare_swap_valid a b ha hb
  simp [cmpV, hx, hy]

theorem cmpV_self (a : Semver) (ha : validVersion a) : cmpV a a = 0 := by
  have := cmpV_swap a a ha ha
  omega

theorem cmpV_le_trans (a b c : Semver) (ha : validVersion a) (hb : validVersion b)
    (hc : validVersion c) (h1 : cmpV a b ≤ 0) (h2 : cmpV b c ≤ 0) : cmpV a c ≤ 0 := by
  obtain ⟨z, hz, hz0⟩ := Compare_le_trans_valid a b c ha hb hc _ _
    (Compare_eq_cmpV a b ha hb) (Compare_eq_cmpV b c hb hc) h1 h2
  simp [cmpV, hz, hz0]

theorem cmpV_lt_trans (a b c : Semver) (ha : validVersion a) (hb : validVersion b)
    (hc : validVersion c) (h1 : cmpV a b < 0) (h2 : cmpV b c < 0) : cmpV a c < 0 := by
  have h3 := cmpV_le_trans a b c ha hb hc (by omega) (by omega)
  by_contra h4
  have h5 : cmpV a c = 0 := by omega
  have h6 := cmpV_le_trans c a b hc ha hb (by rw [cmpV_swap a c ha hc]; omega) (by omega)
  rw [cmpV_swap b c hb hc] at h6
  omega

theorem versionLess_eq (a b : Semver) (ha : validVersion a) (hb : validVersion b) :
    versionLess a b = some (decide (cmpV a b > 0)) := by
  simp [versionLess, Compare_eq_cmpV a b ha hb]

theorem versionLess_totalOn (xs : List Semver) (h : ∀ v ∈ xs, validVersion v) :
    TotalOn versionLess xs := by
  intro x hx y hy
  rw [versionLess_eq x y (h x hx) (h y hy)]; rfl

theorem versionLess_strictWeakOn (xs : List Semver) (h : ∀ v ∈ xs, validVersion v) :
    StrictWeakOn versionLess xs := by
  refine ⟨?_, ?_, ?_⟩
  · intro x hx
    rw [versionLess_eq x x (h x hx) (h x hx), cmpV_self x (h x hx)]; rfl
  · intro x hx y hy z hz
    rw [versionLess_eq x y (h x hx) (h y hy), versionLess_eq y z (h y hy) (h z hz),
      versionLess_eq x z (h x hx) (h z hz)]
    simp only [Option.some.injEq, decide_eq_true_eq]
    intro h1 h2
    have := cmpV_lt_trans z y x (h z hz) (h y hy) (h x hx)
      (by rw [cmpV_swap y z (h y hy) (h z hz)]; omega)
      (by rw [cmpV_swap x y (h x hx) (h y hy)]; omega)
    rw [cmpV_swap x z (h x hx) (h z hz)] at this
    omega
  · intro x hx y hy z hz
    rw [versionLess_eq x y (h x hx) (h y hy), versionLess_eq y z (h y hy) (h z hz),
      versionLess_eq x z (h x hx) (h z hz)]
    simp only [Option.some.injEq, decide_eq_false_iff_not, not_lt]
    exact cmpV_le_trans x y z (h x hx) (h y hy) (h z hz)

theorem pairLess_totalOn (xs : List (Semver × Date)) (h : ∀ p ∈ xs, validVersion p.1) :
    TotalOn pairLess xs := by
  intro x hx y hy
  exact versionLess_totalOn (xs.map Prod.fst)
    (fun v hv => by
      obtain ⟨p, hp, rfl⟩ := List.mem_map.mp hv
      exact h p hp) x.1 (List.mem_map_of_mem _ hx) y.1 (List.mem_map_of_mem _ hy)

theorem pairLess_strictWeakOn (xs : List (Semver × Date)) (h : ∀ p ∈ xs, validVersion p.1) :
    StrictWeakOn pairLess xs := by
  have hv : ∀ v ∈ xs.map Prod.fst, validVersion v := fun v hv => by
    obtain ⟨p, hp, rfl⟩ := List.mem_map.mp hv
    exact h p hp
  obtain ⟨h1, h2, h3⟩ := versionLess_strictWeakOn (xs.map Prod.fst) hv
  refine ⟨?_, ?_, ?_⟩
  · intro x hx; exact h1 x.1 (List.mem_map_of_mem _ hx)
  · intro x hx y hy z hz
    exact h2 x.1 (List.mem_map_of_mem _ hx) y.1 (List.mem_map_of_mem _ hy) z.1
      (List.mem_map_of_mem _ hz)
  · intro x hx y hy z hz
    exact h3 x.1 (List.mem_map_of_mem _ hx) y.1 (List.mem_map_of_mem _ hy) z.1
      (List.mem_map_of_mem _ hz)

theorem collectDates_ok (rels : ReleaseMap) (h : ∀ p ∈ rels, (parseDate p.2.Date).isSome) :
    collectDates rels = Except.ok (datedReleases rels) := by
  induction rels with
  | nil => rfl
  | cons p rels ih =>
    obtain ⟨v, e⟩ := p
    obtain ⟨d, hd⟩ := Option.isSome_iff_exists.mp (h (v, e) (List.mem_cons_self _ _))
    have hne : e.Date ≠ [] := by
      intro h0
      rw [h0] at hd
      simp [parseDate] at hd
    simp only at hd
    simp only [collectDates, hne, if_false, hd,
      ih (fun q hq => h q (List.mem_cons_of_mem _ hq)), datedReleases, List.filterMap_cons,
      Option.map_some']

theorem mem_datedReleases (rels : ReleaseMap) (v : Semver) (d : Date) :
    (v, d) ∈ datedReleases rels ↔ ∃ p ∈ rels, p.1 = v ∧ parseDate p.2.Date = some d := by
  simp only [datedReleases, List.mem_filterMap, Option.map_eq_some']
  constructor
  · rintro ⟨p, hp, d', hd', heq⟩
    injection heq with h1 h2
    subst h1 h2
    exact ⟨p, hp, rfl, hd'⟩
  · rintro ⟨p, hp, rfl, hd⟩
    exact ⟨p, hp, d, hd, rfl⟩

theorem Date.not_before_trans (a b c : Date) (h1 : a.Before b = false) (h2 : b.Before c = false) :
    a.Before c = false := by
  simp only [Date.Before, decide_eq_false_iff_not] at *
  omega

theorem checkOrder_ok (ys : List (Semver × Date)) (hv : ∀ p ∈ ys, validVersion p.1)
    (hs : ys.Pairwise (fun x y => cmpV x.1 y.1 > 0)) :
    checkOrder ys = some (Except.ok ()) ↔ ys.Chain' (fun x y => x.2.Before y.2 = false) := by
  induction ys with
  | nil => simp [checkOrder]
  | cons x ys ih =>
    cases ys with
    | nil => simp [checkOrder]
    | cons y ys =>
      have hx := hv x (List.mem_cons_self _ _)
      have hy := hv y (List.mem_cons_of_mem _ (List.mem_cons_self _ _))
      have hxy : cmpV x.1 y.1 > 0 := (List.pairwise_cons.mp hs).1 y (List.mem_cons_self _ _)
      have ih' := ih (fun p hp => hv p (List.mem_cons_of_mem _ hp)) (List.pairwise_cons.mp hs).2
      simp only [checkOrder, Compare_eq_cmpV x.1 y.1 hx hy, List.chain'_cons]
      rw [if_neg (by omega)]
      cases hb : x.2.Before y.2 with
      | true => simp
      | false => simpa using ih'

theorem Verify_ok_iff (sortSlice : SortFn (Semver × Date)) (hsort : sortSlice.Correct)
    (c : Changelog) (hvalid : ∀ p ∈ c.Releases, validVersion p.1)
    (hdate : ∀ p ∈ c.Releases, (parseDate p.2.Date).isSome)
    (hneq : c.Releases.Pairwise (fun p q => Compare p.1 q.1 ≠ some 0)) :
    Verify sortSlice c = some (Except.ok ()) ↔
      ∀ p ∈ c.Releases, ∀ q ∈ c.Releases, ∀ dp dq, parseDate p.2.Date = some dp →
        parseDate q.2.Date = some dq → (∃ x, Compare p.1 q.1 = some x ∧ x > 0) →
        dp.Before dq = false := by
  have hdv : ∀ p ∈ datedReleases c.Releases, validVersion p.1 := by
    rintro ⟨v, d⟩ hp
    obtain ⟨q, hq, rfl, _⟩ := (mem_datedReleases _ _ _).mp hp
    exact hvalid q hq
  obtain ⟨ys, hys, hperm, hsorted⟩ := hsort pairLess (datedReleases c.Releases)
    (pairLess_totalOn _ hdv)
  have hsorted := hsorted (pairLess_strictWeakOn _ hdv)
  have hyv : ∀ p ∈ ys, validVersion p.1 := fun p hp => hdv p (hperm.subset hp)
  have hne0 : (datedReleases c.Releases).Pairwise (fun p q => cmpV p.1 q.1 ≠ 0) := by
    unfold datedReleases
    rw [List.pairwise_filterMap]
    refine hneq.imp_of_mem ?_
    intro p q hp hq hpq b hb b' hb'
    simp only [Option.mem_def, Option.map_eq_some'] at hb hb'
    obtain ⟨_, _, rfl⟩ := hb
    obtain ⟨_, _, rfl⟩ := hb'
    intro h0
    apply hpq
    rw [Compare_eq_cmpV p.1 q.1 (hvalid p hp) (hvalid q hq), h0]
  have hne1 : ys.Pairwise (fun p q => cmpV p.1 q.1 ≠ 0) := by
    have hsymm : Symmetric (fun p q : Semver × Date => cmpV p.1 q.1 ≠ 0 ∨
        ¬ (validVersion p.1 ∧ validVersion q.1)) := by
      intro p q h
      by_cases hv : validVersion p.1 ∧ validVersion q.1
      · rcases h with h | h
        · left
          rw [cmpV_swap p.1 q.1 hv.1 hv.2]; omega
        · exact absurd hv h
      · right; exact fun h' => hv ⟨h'.2, h'.1⟩
    have h1 := (List.Perm.pairwise_iff (fun {x y} h => hsymm h) hperm).mpr
      (hne0.imp (fun h => Or.inl h))
    refine h1.imp_of_mem ?_
    intro p q hp hq h
    rcases h with h | h
    · exact h
    · exact absurd ⟨hyv p hp, hyv q hq⟩ h
  have hstrict : ys.Pairwise (fun x y => cmpV x.1 y.1 > 0) := by
    have := hsorted.and hne1
    refine this.imp_of_mem ?_
    intro p q hp hq h
    obtain ⟨h1, h2⟩ := h
    simp only [pairLess] at h1
    rw [versionLess_eq q.1 p.1 (hyv q hq) (hyv p hp)] at h1
    simp only [Option.some.injEq, decide_eq_false_iff_not, not_lt] at h1
    rw [cmpV_swap p.1 q.1 (hyv p hp) (hyv q hq)] at h1
    omega
  have hV : Verify sortSlice c = checkOrder ys := by
    simp only [Verify, collectDates_ok c.Releases hdate, hys]
  rw [hV, checkOrder_ok ys hyv hstrict]
  haveI : IsTrans (Semver × Date) (fun x y => x.2.Before y.2 = false) :=
    ⟨fun a b c h1 h2 => Date.not_before_trans a.2 b.2 c.2 h1 h2⟩
  rw [List.chain'_iff_pairwise]
  constructor
  · intro hpw p hp q hq dp dq hdp hdq hx
    obtain ⟨x, hx, hx0⟩ := hx
    rw [Compare_eq_cmpV p.1 q.1 (hvalid p hp) (hvalid q hq)] at hx
    injection hx with hx
    have hp' : (p.1, dp) ∈ ys := hperm.symm.subset ((mem_datedReleases _ _ _).mpr ⟨p, hp, rfl, hdp⟩)
    have hq' : (q.1, dq) ∈ ys := hperm.symm.subset ((mem_datedReleases _ _ _).mpr ⟨q, hq, rfl, hdq⟩)
    have hsymm : Symmetric (fun a b : Semver × Date =>
        (cmpV a.1 b.1 > 0 → a.2.Before b.2 = false) ∧
        (cmpV b.1 a.1 > 0 → b.2.Before a.2 = false)) := fun a b h => ⟨h.2, h.1⟩
    have hT : ys.Pairwise (fun a b : Semver × Date =>
        (cmpV a.1 b.1 > 0 → a.2.Before b.2 = false) ∧
        (cmpV b.1 a.1 > 0 → b.2.Before a.2 = false)) := by
      refine (hpw.and hstrict).imp_of_mem ?_
      intro a b ha hb h
      refine ⟨fun _ => h.1, fun h' => ?_⟩
      have := cmpV_swap a.1 b.1 (hyv a ha) (hyv b hb)
      have := h.2
      omega
    have hne : (p.1, dp) ≠ (q.1, dq) := by
      intro heq
      injection heq with h1 h2
      rw [h1, cmpV_self q.1 (hvalid q hq)] at hx
      omega
    exact (hT.forall hsymm hp' hq' hne).1 (by simp only; omega)
  · intro hall
    refine hstrict.imp_of_mem ?_
    intro a b ha hb hab
    obtain ⟨p, hp, hp1, hpd⟩ := (mem_datedReleases _ a.1 a.2).mp (hperm.subset ha)
    obtain ⟨q, hq, hq1, hqd⟩ := (mem_datedReleases _ b.1 b.2).mp (hperm.subset hb)
    refine hall p hp q hq a.2 b.2 hpd hqd ⟨cmpV a.1 b.1, ?_, hab⟩
    rw [hp1, hq1]
    exact Compare_eq_cmpV a.1 b.1 (hyv a ha) (hyv b hb)

/-! ## The validator: the claim C10 -/

theorem sorted_pair {α : Type} (R : α → α → Prop) (a b : α) (ys : List α)
    (hperm : ys.Perm [a, b]) (hs : ys.Pairwise R) (hba : ¬ R b a) : ys = [a, b] := by
  have hlen := hperm.length_eq
  match ys, hlen with
  | [x, y], _ =>
    have hx : x ∈ [a, b] := hperm.subset (List.mem_cons_self _ _)
    have hy : y ∈ [a, b] := hperm.subset (List.mem_cons_of_mem _ (List.mem_cons_self _ _))
    have ha : a ∈ [x, y] := hperm.symm.subset (List.mem_cons_self _ _)
    have hb : b ∈ [x, y] := hperm.symm.subset (List.mem_cons_of_mem _ (List.mem_cons_self _ _))
    have hR : R x y := (List.pairwise_cons.mp hs).1 y (List.mem_cons_self _ _)
    simp only [List.mem_cons, List.mem_singleton, List.not_mem_nil, or_false] at hx hy ha hb
    rcases hx with rfl | rfl <;> rcases hy with rfl | rfl
    · rcases hb with rfl | rfl <;> rfl
    · rfl
    · exact absurd hR hba
    · rcases ha with rfl | rfl <;> rfl

theorem Verify_of_sorted_pair (sortSlice : SortFn (Semver × Date)) (hsort : sortSlice.Correct)
    (u : Entry) (rels : ReleaseMap) (a b : Semver × Date)
    (hdate : ∀ p ∈ rels, (parseDate p.2.Date).isSome)
    (hperm : (datedReleases rels).Perm [a, b]) (ha : validVersion a.1) (hb : validVersion b.1)
    (hab : pairLess a b = some true) :
    Verify sortSlice { Unreleased := u, Releases := rels } = checkOrder [a, b] := by
  have hdv : ∀ p ∈ datedReleases rels, validVersion p.1 := by
    intro p hp
    have := hperm.subset hp
    simp only [List.mem_cons, List.mem_singleton, List.not_mem_nil, or_false] at this
    rcases this with rfl | rfl
    · exact ha
    · exact hb
  obtain ⟨ys, hys, hp, hsorted⟩ := hsort pairLess (datedReleases rels) (pairLess_totalOn _ hdv)
  have hsorted := hsorted (pairLess_strictWeakOn _ hdv)
  have hyab : ys = [a, b] := sorted_pair _ a b ys (hp.trans hperm) hsorted (by rw [hab]; simp)
  simp only [Verify, collectDates_ok rels hdate, hys, hyab]

/-- C10: when every release has a date that parses and no two release versions
compare equal, `Verify` succeeds exactly if, for any two releases `p` and `q`
with `Compare(p, q) > 0`, the date of `p` is not before the date of `q`.
Moreover, in whatever order the map is enumerated, the releases 2.0.0 of
2024-01-01 and 1.0.0 of 2024-06-01 give the error that names both versions,
and the releases 1.0.0 of 2024-01-01 and 2.0.0 of 2024-06-01 give success. -/
theorem Verify_ordering (sortSlice : SortFn (Semver × Date)) (hsort : sortSlice.Correct)
    (c : Changelog) (hvalid : ∀ p ∈ c.Releases, validVersion p.1)
    (hdate : ∀ p ∈ c.Releases, (parseDate p.2.Date).isSome)
    (hneq : c.Releases.Pairwise (fun p q => Compare p.1 q.1 ≠ some 0)) :
    (Verify sortSlice c = some (Except.ok ()) ↔
      ∀ p ∈ c.Releases, ∀ q ∈ c.Releases, ∀ dp dq, parseDate p.2.Date = some dp →
        parseDate q.2.Date = some dq → (∃ x, Compare p.1 q.1 = some x ∧ x > 0) →
        dp.Before dq = false) ∧
    (∀ (u : Entry) (rels : ReleaseMap), rels.Perm releasesNewerFirst →
      Verify sortSlice { Unreleased := u, Releases := rels } =
        some (Except.error (VerifyError.olderDate
          (mkVersion "2" "0" "0" none) { year := 2024, month := 1, day := 1 }
          (mkVersion "1" "0" "0" none) { year := 2024, month := 6, day := 1 }))) ∧
    (∀ (u : Entry) (rels : ReleaseMap), rels.Perm releasesInOrder →
      Verify sortSlice { Unreleased := u, Releases := rels } = some (Except.ok ())) := by
  refine ⟨Verify_ok_iff sortSlice hsort c hvalid hdate hneq, ?_, ?_⟩
  · intro u rels hperm
    have hd : ∀ p ∈ rels, (parseDate p.2.Date).isSome := by
      intro p hp
      have hmem := hperm.subset hp
      simp only [releasesNewerFirst, List.mem_cons, List.mem_singleton, List.not_mem_nil,
        or_false] at hmem
      rcases hmem with rfl | rfl <;> decide
    rw [Verify_of_sorted_pair sortSlice hsort u rels
      (mkVersion "2" "0" "0" none, { year := 2024, month := 1, day := 1 })
      (mkVersion "1" "0" "0" none, { year := 2024, month := 6, day := 1 }) hd
      (List.Perm.filterMap _ hperm) (by decide) (by decide) (by decide)]
    rfl
  · intro u rels hperm
    have hd : ∀ p ∈ rels, (parseDate p.2.Date).isSome := by
      intro p hp
      have hmem := hperm.subset hp
      simp only [releasesInOrder, List.mem_cons, List.mem_singleton, List.not_mem_nil,
        or_false] at hmem
      rcases hmem with rfl | rfl <;> decide
    rw [Verify_of_sorted_pair sortSlice hsort u rels
      (mkVersion "2" "0" "0" none, { year := 2024, month := 6, day := 1 })
      (mkVersion "1" "0" "0" none, { year := 2024, month := 1, day := 1 }) hd
      ((List.Perm.filterMap _ hperm).trans (List.Perm.swap _ _ _)) (by decide) (by decide)
      (by decide)]
    rfl

theorem Verify_ordering_witness :
    Verify insertionSort { Unreleased := Entry.empty, Releases := releasesInOrder } =
      some (Except.ok ()) ↔
      ∀ p ∈ releasesInOrder, ∀ q ∈ releasesInOrder, ∀ dp dq, parseDate p.2.Date = some dp →
        parseDate q.2.Date = some dq → (∃ x, Compare p.1 q.1 = some x ∧ x > 0) →
        dp.Before dq = false :=
  (Verify_ordering insertionSort insertionSort_correct
    { Unreleased := Entry.empty, Releases := releasesInOrder } (by decide) (by decide)
    (by decide)).1

/-! ## Reading the rendered text -/

theorem foldl_readLinesFrom (P : ParseState → Str → ParseState) : ∀ (text cur : Str)
    (s : ParseState), (readLinesFrom text cur).foldl P s = feedEnd P (feed P (s, cur) text)
  | [], cur, s => by
    simp only [readLinesFrom, feed, feedEnd]
    split <;> simp
  | c :: cs, cur, s => by
    simp only [readLinesFrom, feed]
    split
    · simp only [List.foldl_cons]
      exact foldl_readLinesFrom P cs [] _
    · exact foldl_readLinesFrom P cs _ s

theorem feed_append (P : ParseState → Str → ParseState) : ∀ (t1 t2 : Str)
    (st : ParseState × Str), feed P st (t1 ++ t2) = feed P (feed P st t1) t2
  | [], t2, st => by simp [feed]
  | c :: cs, t2, (s, cur) => by
    simp only [List.cons_append, feed]
    split
    · exact feed_append P cs t2 _
    · exact feed_append P cs t2 _

theorem feed_no_newline (P : ParseState → Str → ParseState) : ∀ (l : Str) (s : ParseState)
    (cur : Str), '\n' ∉ l → feed P (s, cur) l = (s, cur ++ l)
  | [], s, cur, _ => by simp [feed]
  | c :: cs, s, cur, h => by
    have hc : c ≠ '\n' := fun h' => h (by simp [h'])
    have hcs : '\n' ∉ cs := fun h' => h (List.mem_cons_of_mem _ h')
    simp only [feed, hc, if_false]
    rw [feed_no_newline P cs s (cur ++ [c]) hcs]
    simp

theorem feed_newline (P : ParseState → Str → ParseState) (s : ParseState) (cur t : Str) :
    feed P (s, cur) ('\n' :: t) = feed P (P s (dropCR cur), []) t := by
  simp [feed]

theorem feed_line (P : ParseState → Str → ParseState) (l : Str) (s : ParseState) (t : Str)
    (h : '\n' ∉ l) : feed P (s, []) (l ++ '\n' :: t) = feed P (P s (dropCR l), []) t := by
  rw [feed_append, feed_no_newline P l s [] h, feed_newline]
  simp

theorem parseLine_empty (p : Str → Option Semver) (s : ParseState) : parseLine p s [] = s := by
  simp [parseLine, replaceNbsp, matchRelease, matchSection, matchBullet]

theorem dropCR_nil : dropCR [] = [] := by simp [dropCR]

theorem dropCR_of_last (l : Str) (h : ∀ c, l.getLast? = some c → c ≠ '\r') : dropCR l = l := by
  unfold dropCR
  split
  · rename_i h'
    exact absurd rfl (h _ h')
  · rfl

theorem getLast?_append_cons (l t : Str) (c : Char) :
    (l ++ c :: t).getLast? = (c :: t).getLast? := by
  rw [List.getLast?_append]
  cases h : (c :: t).getLast? with
  | none => simp at h
  | some x => rfl

theorem withBody_self (s : ParseState) : withBody s s.currentEntry.Changes s.currentSection = s :=
  rfl

theorem withBody_withBody (s : ParseState) (m m2 : Section → Option (List Str))
    (sec sec2 : Section) : withBody (withBody s m sec) m2 sec2 = withBody s m2 sec2 := rfl

theorem setSection_setSection (m : Section → Option (List Str)) (S : Section)
    (a b : List Str) : setSection (setSection m S a) S b = setSection m S b := by
  funext t
  simp only [setSection]
  split <;> rfl

theorem replaceNbsp_of_not_mem (l : Str) (h : nbsp ∉ l) : replaceNbsp l = l := by
  unfold replaceNbsp
  conv_rhs => rw [← List.map_id l]
  apply List.map_congr_left
  intro c hc
  have : c ≠ nbsp := fun h' => h (h' ▸ hc)
  simp [this]

theorem takeWhile_of_forall {α : Type} (f : α → Bool) : ∀ (l t : List α),
    (∀ c ∈ l, f c = true) → (∀ c, t.head? = some c → f c = false) →
    (l ++ t).takeWhile f = l ∧ (l ++ t).dropWhile f = t
  | [], t, _, ht => by
    cases t with
    | nil => simp
    | cons c cs =>
      have := ht c rfl
      simp [List.takeWhile, List.dropWhile, this]
  | a :: l, t, hl, ht => by
    have ha := hl a (List.mem_cons_self _ _)
    have ih := takeWhile_of_forall f l t (fun c hc => hl c (List.mem_cons_of_mem _ hc)) ht
    simp [List.takeWhile, List.dropWhile, ha, ih.1, ih.2]

theorem matchRest_of_line (text : Str) (h0 : text ≠ []) (h : '\n' ∉ text) :
    matchRest text = some text := by
  have := (takeWhile_of_forall (fun c => decide (c ≠ '\n')) text []
    (fun c hc => by
      have : c ≠ '\n' := fun h' => h (h' ▸ hc)
      simp [this]) (by simp)).1
  simp only [List.append_nil] at this
  unfold matchRest
  simp only [this, h0, if_false]

theorem goodItem_ends (item : Str) (h : goodItem item) :
    (∀ c, item.head? = some c → isSpace c = false) ∧
      (∀ c, item.getLast? = some c → isSpace c = false) := by
  obtain ⟨_, _, _, hh, hl⟩ := h
  constructor
  · intro c hc
    rw [hc] at hh
    simpa using hh
  · intro c hc
    rw [hc] at hl
    simpa using hl

theorem trimSpace_of_good (item : Str) (h : goodItem item) : trimSpace item = item := by
  obtain ⟨hh, hl⟩ := goodItem_ends item h
  obtain ⟨h0, _, _, _, _⟩ := h
  unfold trimSpace
  have h1 : item.dropWhile isSpace = item := by
    cases item with
    | nil => rfl
    | cons c cs => simp [List.dropWhile, hh c rfl]
  rw [h1]
  have h2 : item.reverse.dropWhile isSpace = item.reverse := by
    cases hr : item.reverse with
    | nil => rfl
    | cons c cs =>
      have : item.getLast? = some c := by
        rw [← List.head?_reverse, hr]; rfl
      simp [List.dropWhile, hl c this]
  rw [h2, List.reverse_reverse]

theorem bulletLine_facts (item : Str) (h : goodItem item) :
    '\n' ∉ bulletLine item ∧ dropCR (bulletLine item) = bulletLine item ∧
      replaceNbsp (bulletLine item) = bulletLine item ∧
      matchRelease (bulletLine item) = none ∧ matchSection (bulletLine item) = none ∧
      matchBullet (bulletLine item) = some item := by
  obtain ⟨hh, hl⟩ := goodItem_ends item h
  obtain ⟨h0, hn, hb, _, _⟩ := h
  refine ⟨?_, ?_, ?_, ?_, ?_, ?_⟩
  · simp only [bulletLine, List.mem_cons, not_or]
    exact ⟨by decide, by decide, hn⟩
  · apply dropCR_of_last
    intro c hc
    have : (bulletLine item).getLast? = item.getLast? := by
      cases item with
      | nil => exact absurd rfl h0
      | cons a as => simp [bulletLine, List.getLast?_cons_cons]
    rw [this] at hc
    intro hcr
    have := hl c hc
    rw [hcr] at this
    exact absurd this (by decide)
  · apply replaceNbsp_of_not_mem
    simp only [bulletLine, List.mem_cons, not_or]
    exact ⟨by decide, by decide, hb⟩
  · simp [bulletLine, matchRelease]
  · simp [bulletLine, matchSection]
  · simp only [bulletLine, matchBullet]
    exact matchRest_of_line item h0 hn

theorem parseLine_bullet (p : Str → Option Semver) (s : ParseState)
    (m : Section → Option (List Str)) (sec : Section) (items : List Str) (item : Str)
    (h : goodItem item) (hm : m sec = some items) :
    parseLine p (withBody s m sec) (bulletLine item) =
      withBody s (setSection m sec (items ++ [item])) sec := by
  obtain ⟨_, _, h3, h4, h5, h6⟩ := bulletLine_facts item h
  simp only [parseLine, h3, h4, h5, h6, withBody, hm]

theorem sectionLine_facts (S : Section) :
    '\n' ∉ sectionLine S ∧ dropCR (sectionLine S) = sectionLine S ∧
      replaceNbsp (sectionLine S) = sectionLine S ∧
      matchRelease (sectionLine S) = none ∧ matchSection (sectionLine S) = some S.String ∧
      ParseSection S.String = some S := by
  cases S <;> decide

theorem parseLine_section (p : Str → Option Semver) (s : ParseState)
    (m : Section → Option (List Str)) (sec S : Section) (hm : m S = none) :
    parseLine p (withBody s m sec) (sectionLine S) = withBody s (setSection m S []) S := by
  obtain ⟨_, _, h3, h4, h5, h6⟩ := sectionLine_facts S
  simp only [parseLine, h3, h4, h5, h6, withBody, hm]

theorem mem_allSections (S : Section) : S ∈ allSections := by
  cases S <;> decide

theorem feed_bullets (p : Str → Option Semver) (s : ParseState)
    (m : Section → Option (List Str)) (S : Section) : ∀ (items acc : List Str),
    (∀ item ∈ items, goodItem item) → ∀ t : Str,
    feed (parseLine p) (withBody s (setSection m S acc) S, [])
        ((items.map (fun item => "- ".toList ++ trimSpace item ++ "\n".toList)).flatten ++ t) =
      feed (parseLine p) (withBody s (setSection m S (acc ++ items)) S, []) t
  | [], acc, _, t => by simp
  | item :: items, acc, h, t => by
    have hg := h item (List.mem_cons_self _ _)
    have ih := feed_bullets p s m S items (acc ++ [item])
      (fun x hx => h x (List.mem_cons_of_mem _ hx)) t
    have hm : setSection m S acc S = some acc := by simp [setSection]
    have htext : ((item :: items).map
        (fun item => "- ".toList ++ trimSpace item ++ "\n".toList)).flatten ++ t =
        bulletLine item ++ '\n' :: ((items.map
          (fun item => "- ".toList ++ trimSpace item ++ "\n".toList)).flatten ++ t) := by
      simp [trimSpace_of_good item hg, bulletLine]
    rw [htext, feed_line _ _ _ _ (bulletLine_facts item hg).1, (bulletLine_facts item hg).2.1,
      parseLine_bullet p s _ S acc item hg hm, setSection_setSection, ih]
    simp

theorem feed_section (p : Str → Option Semver) (e : Entry) (s s' : ParseState) (cur : Str)
    (m : Section → Option (List Str)) (sec S : Section) (items : List Str) (t : Str)
    (hcur : parseLine p s' (dropCR cur) = withBody s m sec) (hm : m S = none)
    (he : e.Changes S = some items) (hne : items ≠ []) (hg : ∀ item ∈ items, goodItem item) :
    feed (parseLine p) (s', cur) (writeSection e S ++ t) =
      feed (parseLine p) (withBody s (setSection m S items) S, []) t := by
  have hlen : ¬ items.length = 0 := fun h => hne (List.length_eq_zero.mp h)
  have htext : writeSection e S ++ t = '\n' :: (sectionLine S ++ '\n' :: '\n' ::
      ((items.map (fun item => "- ".toList ++ trimSpace item ++ "\n".toList)).flatten ++ t)) := by
    simp [writeSection, he, hlen, sectionLine]
  rw [htext, feed_newline, hcur, feed_line _ _ _ _ (sectionLine_facts S).1,
    (sectionLine_facts S).2.1, parseLine_section p s m sec S hm, feed_newline, dropCR_nil,
    parseLine_empty]
  have := feed_bullets p s m S items [] hg t
  simpa using this

theorem feed_sections (p : Str → Option Semver) (e : Entry) (he : supportedEntry e)
    (s : ParseState) : ∀ ss : List Section, ss.Nodup →
    ∀ (s' : ParseState) (cur : Str) (m : Section → Option (List Str)) (sec : Section) (t : Str),
    parseLine p s' (dropCR cur) = withBody s m sec → (∀ S ∈ ss, m S = none) →
    ((∀ S ∈ ss, e.Changes S = none) →
      feed (parseLine p) (s', cur) ((ss.map (writeSection e)).flatten ++ t) =
        feed (parseLine p) (s', cur) t) ∧
    ((∃ S ∈ ss, e.Changes S ≠ none) → ∃ sec',
      feed (parseLine p) (s', cur) ((ss.map (writeSection e)).flatten ++ t) =
        feed (parseLine p) (withBody s (fun S => if S ∈ ss then e.Changes S else m S) sec', [])
          t)
  | [], _, s', cur, m, sec, t, _, _ => by
    refine ⟨fun _ => by simp, ?_⟩
    rintro ⟨S, hS, _⟩
    exact absurd hS (List.not_mem_nil _)
  | S :: ss, hnd, s', cur, m, sec, t, hcur, hm => by
    have hS : S ∉ ss := (List.nodup_cons.mp hnd).1
    have hnd' : ss.Nodup := (List.nodup_cons.mp hnd).2
    have hmS : m S = none := hm S (List.mem_cons_self _ _)
    have hm' : ∀ T ∈ ss, m T = none := fun T hT => hm T (List.mem_cons_of_mem _ hT)
    have htext : ((S :: ss).map (writeSection e)).flatten ++ t =
        writeSection e S ++ ((ss.map (writeSection e)).flatten ++ t) := by simp
    cases hc : e.Changes S with
    | none =>
      have hw : writeSection e S = [] := by simp [writeSection, hc]
      obtain ⟨ih1, ih2⟩ := feed_sections p e he s ss hnd' s' cur m sec t hcur hm'
      rw [htext, hw, List.nil_append]
      refine ⟨fun hall => ih1 (fun T hT => hall T (List.mem_cons_of_mem _ hT)), ?_⟩
      rintro ⟨T, hT, hTc⟩
      have hT' : T ∈ ss := by
        rcases List.mem_cons.mp hT with h | h
        · rw [h] at hTc; exact absurd hc hTc
        · exact h
      obtain ⟨sec', h2⟩ := ih2 ⟨T, hT', hTc⟩
      refine ⟨sec', ?_⟩
      rw [h2]
      congr 3
      funext U
      by_cases hU : U = S
      · subst hU; simp [hS, hc, hmS]
      · simp [hU]
    | some items =>
      obtain ⟨hne, hg⟩ := he.2 S items hc
      have hstep := feed_section p e s s' cur m sec S items
        ((ss.map (writeSection e)).flatten ++ t) hcur hmS hc hne hg
      have hm1 : ∀ T ∈ ss, setSection m S items T = none := by
        intro T hT
        have : T ≠ S := fun h => hS (h ▸ hT)
        simp [setSection, this, hm' T hT]
      obtain ⟨ih1, ih2⟩ := feed_sections p e he s ss hnd' (withBody s (setSection m S items) S)
        [] (setSection m S items) S t (by rw [dropCR_nil, parseLine_empty]) hm1
      rw [htext, hstep]
      refine ⟨fun hall => ?_, fun _ => ?_⟩
      · have := hall S (List.mem_cons_self _ _)
        rw [hc] at this
        exact absurd this (by simp)
      · by_cases hex : ∃ T ∈ ss, e.Changes T ≠ none
        · obtain ⟨sec', h2⟩ := ih2 hex
          refine ⟨sec', ?_⟩
          rw [h2]
          congr 3
          funext U
          by_cases hU : U = S
          · subst hU; simp [hS, hc, setSection]
          · simp [hU, setSection]
        · refine ⟨S, ?_⟩
          have hall : ∀ T ∈ ss, e.Changes T = none := by
            intro T hT
            by_contra h
            exact hex ⟨T, hT, h⟩
          rw [ih1 hall]
          congr 3
          funext U
          by_cases hU : U = S
          · subst hU; simp [hc, setSection]
          · by_cases hUs : U ∈ ss
            · simp [hU, hUs, setSection, hall U hUs, hm' U hUs]
            · simp [hU, hUs, setSection]

theorem feed_writeEntry (p : Str → Option Semver) (e : Entry) (he : supportedEntry e)
    (s s' : ParseState) (cur : Str) (sec : Section) (t : Str)
    (hcur : parseLine p s' (dropCR cur) = withBody s (fun _ => none) sec) :
    ∃ sec', feed (parseLine p) (s', cur) (writeEntry e ++ t) =
      feed (parseLine p) (withBody s e.Changes sec', []) t := by
  unfold writeEntry
  split
  · rename_i h0
    have hall : ∀ S, e.Changes S = none := by
      intro S
      unfold Entry.numSections at h0
      have := List.length_eq_zero.mp h0
      rw [List.filter_eq_nil_iff] at this
      have := this S (mem_allSections S)
      cases hc : e.Changes S with
      | none => rfl
      | some x => simp [hc] at this
    have hfun : e.Changes = fun _ => none := funext hall
    refine ⟨sec, ?_⟩
    rw [show "\n".toList ++ t = '\n' :: t from rfl, feed_newline, hcur, hfun]
  · rename_i h0
    have hex : ∃ S ∈ allSections, e.Changes S ≠ none := by
      by_contra hno
      apply h0
      unfold Entry.numSections
      rw [List.length_eq_zero, List.filter_eq_nil_iff]
      intro S hS
      have : e.Changes S = none := by
        by_contra h
        exact hno ⟨S, hS, h⟩
      simp [this]
    obtain ⟨sec', h2⟩ := (feed_sections p e he s allSections (by decide) s' cur (fun _ => none)
      sec t hcur (fun _ _ => rfl)).2 hex
    refine ⟨sec', ?_⟩
    rw [h2]
    congr 3
    funext U
    simp [mem_allSections U]

theorem isDigit_facts (c : Char) (h : isDigit c = true) :
    c ≠ '\n' ∧ c ≠ '\r' ∧ c ≠ nbsp ∧ c ≠ ']' := by
  refine ⟨?_, ?_, ?_, ?_⟩ <;> intro h' <;> subst h' <;> revert h <;> decide

theorem isVersionChar_facts (c : Char) (h : isVersionChar c = true) :
    c ≠ '\n' ∧ c ≠ '\r' ∧ c ≠ nbsp ∧ c ≠ ']' := by
  refine ⟨?_, ?_, ?_, ?_⟩ <;> intro h' <;> subst h' <;> revert h <;> decide

theorem isDateForm_cases (d : Str) (h : isDateForm d = true) :
    ∃ y1 y2 y3 y4 m1 m2 d1 d2, d = [y1, y2, y3, y4, '-', m1, m2, '-', d1, d2] ∧
      [y1, y2, y3, y4, m1, m2, d1, d2].all isDigit = true := by
  unfold isDateForm at h
  split at h
  · exact ⟨_, _, _, _, _, _, _, _, rfl, h⟩
  · exact absurd h (by simp)

theorem isDateForm_facts (d : Str) (h : isDateForm d = true) :
    d ≠ [] ∧ '\n' ∉ d ∧ nbsp ∉ d ∧ (∀ c, d.getLast? = some c → c ≠ '\r') ∧
      matchDate (" - ".toList ++ d) = d := by
  obtain ⟨y1, y2, y3, y4, m1, m2, d1, d2, rfl, hd⟩ := isDateForm_cases d h
  have hd' := hd
  simp only [List.all_cons, List.all_nil, Bool.and_true, Bool.and_eq_true] at hd'
  obtain ⟨h1, h2, h3, h4, h5, h6, h7, h8⟩ := hd'
  have f1 := isDigit_facts y1 h1
  have f2 := isDigit_facts y2 h2
  have f3 := isDigit_facts y3 h3
  have f4 := isDigit_facts y4 h4
  have f5 := isDigit_facts m1 h5
  have f6 := isDigit_facts m2 h6
  have f7 := isDigit_facts d1 h7
  have f8 := isDigit_facts d2 h8
  refine ⟨by simp, ?_, ?_, ?_, ?_⟩
  · simp only [List.mem_cons, List.mem_singleton, List.not_mem_nil, or_false, not_or]
    exact ⟨f1.1.symm, f2.1.symm, f3.1.symm, f4.1.symm, by decide, f5.1.symm, f6.1.symm,
      by decide, f7.1.symm, f8.1.symm⟩
  · simp only [List.mem_cons, List.mem_singleton, List.not_mem_nil, or_false, not_or]
    exact ⟨f1.2.2.1.symm, f2.2.2.1.symm, f3.2.2.1.symm, f4.2.2.1.symm, by decide,
      f5.2.2.1.symm, f6.2.2.1.symm, by decide, f7.2.2.1.symm, f8.2.2.1.symm⟩
  · intro c hc
    simp only [List.getLast?_cons_cons, List.getLast?_singleton, Option.some.injEq] at hc
    rw [← hc]; exact f8.2.1
  · show matchDate (' ' :: '-' :: ' ' :: [y1, y2, y3, y4, '-', m1, m2, '-', d1, d2]) = _
    simp only [matchDate, hd, if_true]

theorem headerLine_facts (t d : Str) (ht : isVersionText t)
    (hd : d = [] ∨ isDateForm d = true) :
    '\n' ∉ headerLine t d ∧ dropCR (headerLine t d) = headerLine t d ∧
      replaceNbsp (headerLine t d) = headerLine t d ∧
      matchRelease (headerLine t d) = some (t, d) := by
  have htc : ∀ c ∈ t, c ≠ '\n' ∧ c ≠ '\r' ∧ c ≠ nbsp ∧ c ≠ ']' :=
    fun c hc => isVersionChar_facts c (ht.2 c hc)
  have hsuf : ∃ suf : Str, (if d ≠ [] then " - ".toList ++ d else []) = suf ∧ '\n' ∉ suf ∧
      nbsp ∉ suf ∧ (∀ c, (']' :: suf).getLast? = some c → c ≠ '\r') ∧ matchDate suf = d := by
    rcases hd with hd | hd
    · subst hd
      exact ⟨[], by simp, by simp, by simp, by simp, rfl⟩
    · obtain ⟨h0, h1, h2, h3, h4⟩ := isDateForm_facts d hd
      refine ⟨" - ".toList ++ d, by simp [h0], ?_, ?_, ?_, h4⟩
      · simp only [List.mem_append, not_or]
        exact ⟨by decide, h1⟩
      · simp only [List.mem_append, not_or]
        exact ⟨by decide, h2⟩
      · intro c hc
        have : (']' :: (" - ".toList ++ d)).getLast? = d.getLast? := by
          cases d with
          | nil => exact absurd rfl h0
          | cons a as =>
            rw [show ']' :: (" - ".toList ++ a :: as) = (']' :: " - ".toList) ++ a :: as from rfl,
              getLast?_append_cons]
        rw [this] at hc
        exact h3 c hc
  obtain ⟨suf, hsuf, s1, s2, s3, s4⟩ := hsuf
  unfold headerLine
  rw [hsuf]
  refine ⟨?_, ?_, ?_, ?_⟩
  · simp only [List.mem_append, List.mem_cons, not_or]
    exact ⟨⟨by decide, fun h => (htc _ h).1 rfl⟩, by decide, s1⟩
  · apply dropCR_of_last
    intro c hc
    rw [getLast?_append_cons] at hc
    exact s3 c hc
  · apply replaceNbsp_of_not_mem
    simp only [List.mem_append, List.mem_cons, not_or]
    exact ⟨⟨by decide, fun h => (htc _ h).2.2.1 rfl⟩, by decide, s2⟩
  · have hw := takeWhile_of_forall (fun c => decide (c ≠ ']') && decide (c ≠ '\n')) t
      (']' :: suf) (fun c hc => by simp [(htc c hc).1, (htc c hc).2.2.2]) (by simp)
    show matchRelease ('#' :: '#' :: ' ' :: '[' :: (t ++ ']' :: suf)) = _
    simp only [matchRelease, hw.1, hw.2, s4]

theorem toLowerRune_digit (c : Char) (h : isDigit c = true) : toLowerRune c = c := by
  simp only [isDigit, Bool.and_eq_true, decide_eq_true_eq] at h
  unfold toLowerRune
  rw [if_neg (by omega), if_neg (by omega), if_neg (by omega)]

theorem isVersionText_facts (t : Str) (ht : isVersionText t) :
    t ≠ [] ∧ decide (toLower t = "unreleased".toList) = false := by
  obtain ⟨⟨c, rest, rfl, hc⟩, _⟩ := ht
  refine ⟨by simp, ?_⟩
  rw [decide_eq_false_iff_not]
  intro h
  simp only [toLower, List.map_cons, toLowerRune_digit c hc] at h
  have : c = 'u' := by
    have h' := congrArg List.head? h
    simpa using h'
  subst this
  revert hc
  decide

theorem flush_release (p : Str → Option Semver) (s : ParseState) (label date : Str)
    (m : Section → Option (List Str)) (sec : Section) (v : Semver) (h0 : label ≠ [])
    (hu : decide (toLower label = "unreleased".toList) = false) (hp : p label = some v) :
    flush p (withBody (afterHeader p s label date) m sec) =
      { flush p s with
        Releases := mapSet (flush p s).Releases v { Date := date, Changes := m } } := by
  simp only [flush, withBody, afterHeader, hu, hp, h0, ne_eq, not_false_eq_true, if_true]
  simp

theorem flush_unreleased (p : Str → Option Semver) (s : ParseState) (date : Str)
    (m : Section → Option (List Str)) (sec : Section) :
    flush p (withBody (afterHeader p s "Unreleased".toList date) m sec) =
      { flush p s with Unreleased := { Date := date, Changes := m } } := by
  have h1 : decide (toLower "Unreleased".toList = "unreleased".toList) = true := by decide
  have h0 : "Unreleased".toList ≠ [] := by decide
  simp only [flush, withBody, afterHeader, h1, h0, ne_eq, not_false_eq_true, if_true]

theorem feed_release (p : Str → Option Semver) (str : Semver → Str) (rels : ReleaseMap)
    (v : Semver) (e : Entry) (st : ParseState) (t : Str) (hget : mapGet rels v = some e)
    (hsup : supportedEntry e) (htext : isVersionText (str v)) :
    ∃ sec', feed (parseLine p) (st, []) (writeRelease str rels v ++ t) =
      feed (parseLine p) (withBody (afterHeader p st (str v) e.Date) e.Changes sec', []) t := by
  have hf := headerLine_facts (str v) e.Date htext hsup.1
  have hw : writeRelease str rels v ++ t =
      '\n' :: (headerLine (str v) e.Date ++ '\n' :: (writeEntry e ++ t)) := by
    simp only [writeRelease, hget, Option.getD_some, headerLine]
    split <;> simp [List.append_assoc]
  have hrel : parseLine p st (headerLine (str v) e.Date) = afterHeader p st (str v) e.Date := by
    have := parseLine_release p st (headerLine (str v) e.Date) (str v) e.Date
      (by rw [hf.2.2.1]; exact hf.2.2.2)
    rw [this]; rfl
  rw [hw, feed_newline, dropCR_nil, parseLine_empty, feed_line _ _ _ _ hf.1, hf.2.1, hrel]
  exact feed_writeEntry p e hsup (afterHeader p st (str v) e.Date) _ [] _ t
    (by rw [dropCR_nil, parseLine_empty]; rfl)

theorem feed_unreleased (p : Str → Option Semver) (u : Entry) (st : ParseState) (t : Str)
    (hsup : supportedEntry u) :
    ∃ sec', feed (parseLine p) (st, []) ("## [Unreleased]".toList ++ writeEntry u ++ t) =
      feed (parseLine p) (withBody (afterHeader p st "Unreleased".toList []) u.Changes sec', [])
        t := by
  have h1 : '\n' ∉ "## [Unreleased]".toList := by decide
  have h2 : dropCR "## [Unreleased]".toList = "## [Unreleased]".toList := by decide
  have h3 : matchRelease (replaceNbsp "## [Unreleased]".toList) =
      some ("Unreleased".toList, []) := by decide
  rw [List.append_assoc, feed_append, feed_no_newline _ _ _ _ h1, List.nil_append]
  apply feed_writeEntry p u hsup (afterHeader p st "Unreleased".toList []) st _
    st.currentSection t
  rw [h2, parseLine_release p st _ _ _ h3]
  rfl

theorem GenerateMarkdown_eq (str : Semver → Str) (sortSlice : SortFn Semver) (c : Changelog) :
    GenerateMarkdown str sortSlice c =
      (sortSlice versionLess (c.Releases.map Prod.fst)).map (renderSorted str c) := by
  simp only [GenerateMarkdown, renderSorted]
  cases sortSlice versionLess (List.map Prod.fst c.Releases) <;> rfl

theorem mapGet_of_mem_keys : ∀ (rels : ReleaseMap) (v : Semver), v ∈ rels.map Prod.fst →
    ∃ e, mapGet rels v = some e ∧ (v, e) ∈ rels
  | [], v, h => absurd h (List.not_mem_nil _)
  | (k, e) :: rest, v, h => by
    by_cases hk : k = v
    · subst hk
      exact ⟨e, by simp [mapGet], List.mem_cons_self _ _⟩
    · have hv : v ∈ rest.map Prod.fst := by
        rcases List.mem_cons.mp h with h | h
        · exact absurd h.symm hk
        · exact h
      obtain ⟨e', h1, h2⟩ := mapGet_of_mem_keys rest v hv
      exact ⟨e', by simp [mapGet, hk, h1], List.mem_cons_of_mem _ h2⟩

theorem mapGet_of_not_mem_keys : ∀ (rels : ReleaseMap) (v : Semver), v ∉ rels.map Prod.fst →
    mapGet rels v = none
  | [], _, _ => rfl
  | (k, e) :: rest, v, h => by
    have hk : k ≠ v := fun h' => h (by simp [h'])
    have hv : v ∉ rest.map Prod.fst := fun h' => h (List.mem_cons_of_mem _ h')
    simp [mapGet, hk, mapGet_of_not_mem_keys rest v hv]

theorem mapGet_mapSet : ∀ (m : ReleaseMap) (k v : Semver) (e : Entry),
    mapGet (mapSet m k e) v = if k = v then some e else mapGet m v
  | [], k, v, e => by simp [mapSet, mapGet]
  | (k0, e0) :: rest, k, v, e => by
    have ih := mapGet_mapSet rest k v e
    by_cases h0 : k0 = k
    · subst h0
      simp only [mapSet, if_true, mapGet]
      split_ifs <;> rfl
    · simp only [mapSet, h0, if_false, mapGet, ih]
      by_cases h1 : k0 = v
      · subst h1
        simp [Ne.symm h0]
      · simp [h1]

theorem insertAll_unreleased (rels : ReleaseMap) : ∀ (vs : List Semver) (C : Changelog),
    (insertAll rels C vs).Unreleased = C.Unreleased
  | [], _ => rfl
  | v :: vs, C => by
    simp only [insertAll, List.foldl_cons]
    exact insertAll_unreleased rels vs _

theorem mapGet_insertAll (rels : ReleaseMap) : ∀ (vs : List Semver) (C : Changelog)
    (v : Semver), mapGet (insertAll rels C vs).Releases v =
      if v ∈ vs then some ((mapGet rels v).getD Entry.empty) else mapGet C.Releases v
  | [], _, _ => by simp [insertAll]
  | k :: vs, C, v => by
    have ih := mapGet_insertAll rels vs
      { C with Releases := mapSet C.Releases k ((mapGet rels k).getD Entry.empty) } v
    simp only [insertAll, List.foldl_cons] at ih ⊢
    rw [ih]
    by_cases hv : v ∈ vs
    · simp [hv]
    · simp only [hv, if_false, mapGet_mapSet, List.mem_cons, or_false]
      by_cases hk : k = v
      · subst hk; simp
      · simp [hk, Ne.symm hk]

theorem feed_releases (p : Str → Option Semver) (str : Semver → Str) (rels : ReleaseMap) :
    ∀ vs : List Semver,
    (∀ v ∈ vs, ∃ e, mapGet rels v = some e ∧ supportedEntry e ∧ isVersionText (str v) ∧
      p (str v) = some v) →
    ∀ st : ParseState, ∃ st', feed (parseLine p) (st, [])
        ((vs.map (writeRelease str rels)).flatten) = (st', []) ∧
      flush p st' = insertAll rels (flush p st) vs
  | [], _, st => ⟨st, by simp [feed], rfl⟩
  | v :: vs, h, st => by
    obtain ⟨e, hget, hsup, htext, hparse⟩ := h v (List.mem_cons_self _ _)
    obtain ⟨sec', hstep⟩ := feed_release p str rels v e st
      ((vs.map (writeRelease str rels)).flatten) hget hsup htext
    obtain ⟨st', h1, h2⟩ := feed_releases p str rels vs
      (fun x hx => h x (List.mem_cons_of_mem _ hx))
      (withBody (afterHeader p st (str v) e.Date) e.Changes sec')
    refine ⟨st', ?_, ?_⟩
    · simp only [List.map_cons, List.flatten_cons]
      rw [hstep, h1]
    · rw [h2, flush_release p st (str v) e.Date e.Changes sec' v (isVersionText_facts _ htext).1
        (isVersionText_facts _ htext).2 hparse]
      simp only [insertAll, List.foldl_cons, hget, Option.getD_some]

theorem parseLine_other (p : Str → Option Semver) (s : ParseState) (l : Str)
    (h1 : matchRelease (replaceNbsp l) = none) (h2 : matchSection (replaceNbsp l) = none)
    (h3 : matchBullet (replaceNbsp l) = none) : parseLine p s l = s := by
  simp only [parseLine, h1, h2, h3]

theorem feed_head (p : Str → Option Semver) (t : Str) :
    feed (parseLine p) (ParseState.init, []) ("# Changelog\n\n".toList ++
      "All notable changes to this project will be documented in this file.\n".toList ++ t) =
      feed (parseLine p) (ParseState.init, []) t := by
  have e : "# Changelog\n\n".toList ++
      "All notable changes to this project will be documented in this file.\n".toList ++ t =
      "# Changelog".toList ++ '\n' :: '\n' ::
        ("All notable changes to this project will be documented in this file.".toList ++
          '\n' :: t) := rfl
  rw [e, feed_line _ _ _ _ (by decide), parseLine_other p _ _ (by decide) (by decide) (by decide),
    feed_newline, dropCR_nil, parseLine_empty, feed_line _ _ _ _ (by decide),
    parseLine_other p _ _ (by decide) (by decide) (by decide)]

theorem numSections_eq_zero (e : Entry) (h : e.numSections = 0) : e.Changes = fun _ => none := by
  funext S
  unfold Entry.numSections at h
  have := List.length_eq_zero.mp h
  rw [List.filter_eq_nil_iff] at this
  have := this S (mem_allSections S)
  cases hc : e.Changes S with
  | none => rfl
  | some x => simp [hc] at this

theorem parseText_renderSorted (p : Str → Option Semver) (str : Semver → Str) (c : Changelog)
    (hc : supportedChangelog p str c) (sorted : List Semver)
    (hsub : ∀ v ∈ sorted, v ∈ c.Releases.map Prod.fst) :
    parseText p (renderSorted str c sorted) =
      insertAll c.Releases { Unreleased := c.Unreleased, Releases := [] } sorted := by
  obtain ⟨hdate, hu, hrel⟩ := hc
  have hvs : ∀ v ∈ sorted, ∃ e, mapGet c.Releases v = some e ∧ supportedEntry e ∧
      isVersionText (str v) ∧ p (str v) = some v := by
    intro v hv
    obtain ⟨e, h1, h2⟩ := mapGet_of_mem_keys c.Releases v (hsub v hv)
    obtain ⟨_, h3, h4, h5⟩ := hrel (v, e) h2
    exact ⟨e, h1, h5, h4, h3⟩
  have hflush0 : flush p ParseState.init = { Unreleased := Entry.empty, Releases := [] } := by
    simp [flush, ParseState.init]
  have hstart : ∃ st1, feed (parseLine p) (ParseState.init, [])
      ("# Changelog\n\n".toList ++
        "All notable changes to this project will be documented in this file.\n".toList ++
        (if c.HasUnreleased then "## [Unreleased]".toList ++ writeEntry c.Unreleased else []))
        = (st1, []) ∧
      flush p st1 = { Unreleased := c.Unreleased, Releases := [] } := by
    rw [feed_head]
    by_cases hhas : c.HasUnreleased = true
    · obtain ⟨sec', h1⟩ := feed_unreleased p c.Unreleased ParseState.init [] hu
      simp only [List.append_nil] at h1
      refine ⟨_, by rw [if_pos hhas, h1]; rfl, ?_⟩
      rw [flush_unreleased, hflush0]
      have : c.Unreleased = { Date := [], Changes := c.Unreleased.Changes } := by
        rw [← hdate]
      rw [← this]
    · refine ⟨ParseState.init, by rw [if_neg hhas]; rfl, ?_⟩
      rw [hflush0]
      have h0 : c.Unreleased.numSections = 0 := by
        simp only [Changelog.HasUnreleased, decide_eq_true_eq, not_lt] at hhas
        omega
      have h1 := numSections_eq_zero _ h0
      have : c.Unreleased = Entry.empty := by
        cases hcu : c.Unreleased with
        | mk d m =>
          rw [hcu] at hdate h1
          simp only at hdate h1
          rw [hdate, h1]; rfl
      rw [this]
  obtain ⟨st1, hst1, hfl1⟩ := hstart
  obtain ⟨st2, hst2, hfl2⟩ := feed_releases p str c.Releases sorted hvs st1
  unfold parseText parseLines readLines renderSorted
  rw [foldl_readLinesFrom, feed_append, hst1, hst2]
  simp only [feedEnd, if_true]
  rw [hfl2, hfl1]

/-! ## Round trip and idempotence: the claims C5 and C6 -/

theorem sorted_versions_exist (sortSlice : SortFn Semver) (hsort : sortSlice.Correct)
    (rels : ReleaseMap) (hv : ∀ q ∈ rels, validVersion q.1) :
    ∃ sorted, sortSlice versionLess (rels.map Prod.fst) = some sorted ∧
      sorted.Perm (rels.map Prod.fst) ∧
      sorted.Pairwise (fun a b => versionLess b a = some false) := by
  have hv' : ∀ v ∈ rels.map Prod.fst, validVersion v := by
    intro v h
    obtain ⟨q, hq, rfl⟩ := List.mem_map.mp h
    exact hv q hq
  obtain ⟨sorted, h1, h2, h3⟩ := hsort versionLess (rels.map Prod.fst)
    (versionLess_totalOn _ hv')
  exact ⟨sorted, h1, h2, h3 (versionLess_strictWeakOn _ hv')⟩

theorem roundtrip_core (p : Str → Option Semver) (str : Semver → Str) (c : Changelog)
    (hc : supportedChangelog p str c) (sorted : List Semver)
    (hperm : sorted.Perm (c.Releases.map Prod.fst)) :
    (parseText p (renderSorted str c sorted)).Unreleased = c.Unreleased ∧
      ∀ v, mapGet (parseText p (renderSorted str c sorted)).Releases v = mapGet c.Releases v := by
  rw [parseText_renderSorted p str c hc sorted (fun v hv => hperm.subset hv)]
  refine ⟨insertAll_unreleased _ _ _, ?_⟩
  intro v
  rw [mapGet_insertAll]
  by_cases hv : v ∈ sorted
  · obtain ⟨e, he, _⟩ := mapGet_of_mem_keys c.Releases v (hperm.subset hv)
    simp [hv, he]
  · have : v ∉ c.Releases.map Prod.fst := fun h => hv (hperm.symm.subset h)
    simp [hv, mapGet_of_not_mem_keys _ _ this, mapGet]

theorem supportedChangelog_example : supportedChangelog modelParse modelString exampleChangelog := by
  refine ⟨rfl, ⟨Or.inl rfl, ?_⟩, ?_⟩
  · intro s items h
    cases s <;> simp [exampleChangelog] at h
    subst h
    decide
  · intro q hq
    simp only [exampleChangelog, List.mem_singleton] at hq
    subst hq
    refine ⟨by decide, by decide, ⟨⟨_, _, rfl, by decide⟩, by decide⟩, Or.inr (by decide), ?_⟩
    intro s items h
    cases s <;> simp at h
    subst h
    decide

theorem mapSet_of_not_mem : ∀ (m : ReleaseMap) (k : Semver) (e : Entry),
    k ∉ m.map Prod.fst → mapSet m k e = m ++ [(k, e)]
  | [], _, _, _ => rfl
  | (k0, e0) :: rest, k, e, h => by
    have h0 : k0 ≠ k := fun h' => h (by simp [h'])
    have hr : k ∉ rest.map Prod.fst := fun h' => h (List.mem_cons_of_mem _ h')
    simp [mapSet, h0, mapSet_of_not_mem rest k e hr]

theorem insertAll_releases (rels : ReleaseMap) : ∀ (vs : List Semver) (C : Changelog),
    vs.Nodup → (∀ v ∈ vs, v ∉ C.Releases.map Prod.fst) →
    (insertAll rels C vs).Releases =
      C.Releases ++ vs.map (fun v => (v, (mapGet rels v).getD Entry.empty))
  | [], C, _, _ => by simp [insertAll]
  | v :: vs, C, hnd, hnot => by
    have hv : v ∉ vs := (List.nodup_cons.mp hnd).1
    have hC : v ∉ C.Releases.map Prod.fst := hnot v (List.mem_cons_self _ _)
    have ih := insertAll_releases rels vs
      { C with Releases := mapSet C.Releases v ((mapGet rels v).getD Entry.empty) }
      (List.nodup_cons.mp hnd).2
      (by
        intro w hw
        simp only [mapSet_of_not_mem _ _ _ hC, List.map_append, List.map_cons, List.map_nil,
          List.mem_append, List.mem_singleton, not_or]
        exact ⟨hnot w (List.mem_cons_of_mem _ hw), fun h => hv (h ▸ hw)⟩)
    simp only [insertAll, List.foldl_cons] at ih ⊢
    rw [ih, mapSet_of_not_mem _ _ _ hC]
    simp

theorem mapGet_eq_some_iff : ∀ (m : ReleaseMap) (v : Semver) (e : Entry),
    (m.map Prod.fst).Nodup → (mapGet m v = some e ↔ (v, e) ∈ m)
  | [], v, e, _ => by simp [mapGet]
  | (k0, e0) :: rest, v, e, hnd => by
    have hk : k0 ∉ rest.map Prod.fst := (List.nodup_cons.mp hnd).1
    have ih := mapGet_eq_some_iff rest v e (List.nodup_cons.mp hnd).2
    by_cases h0 : k0 = v
    · subst h0
      simp only [mapGet, if_true, Option.some.injEq, List.mem_cons, Prod.mk.injEq, true_and]
      constructor
      · intro h; exact Or.inl h.symm
      · rintro (h | h)
        · exact h.symm
        · exact absurd (List.mem_map_of_mem Prod.fst h) hk
    · simp only [mapGet, h0, if_false, ih, List.mem_cons, Prod.mk.injEq]
      constructor
      · intro h; exact Or.inr h
      · rintro (h | h)
        · exact absurd h.1.symm h0
        · exact h

theorem mapGet_perm (m1 m2 : ReleaseMap) (hnd : (m1.map Prod.fst).Nodup) (hperm : m1.Perm m2)
    (v : Semver) : mapGet m1 v = mapGet m2 v := by
  have hnd2 : (m2.map Prod.fst).Nodup := (hperm.map Prod.fst).nodup_iff.mp hnd
  apply Option.ext
  intro e
  rw [Option.mem_def, Option.mem_def, mapGet_eq_some_iff m1 v e hnd,
    mapGet_eq_some_iff m2 v e hnd2]
  exact hperm.mem_iff

theorem sorted_versions_unique (xs ys : List Semver) (hv : ∀ v ∈ xs, validVersion v)
    (hperm : xs.Perm ys) (hx : xs.Pairwise (fun a b => versionLess b a = some false))
    (hy : ys.Pairwise (fun a b => versionLess b a = some false))
    (hne : xs.Pairwise (fun a b => Compare a b ≠ some 0)) : xs = ys := by
  have hvy : ∀ v ∈ ys, validVersion v := fun v h => hv v (hperm.symm.subset h)
  have hsymm : ∀ {a b : Semver}, (Compare a b ≠ some 0 ∨ ¬ (validVersion a ∧ validVersion b)) →
      (Compare b a ≠ some 0 ∨ ¬ (validVersion b ∧ validVersion a)) := by
    intro a b h
    by_cases hab : validVersion a ∧ validVersion b
    · rcases h with h | h
      · left
        rw [Compare_eq_cmpV b a hab.2 hab.1, cmpV_swap a b hab.1 hab.2]
        rw [Compare_eq_cmpV a b hab.1 hab.2] at h
        intro h'
        apply h
        injection h' with h'
        rw [show cmpV a b = 0 by omega]
      · exact absurd hab h
    · right; exact fun h' => hab ⟨h'.2, h'.1⟩
  have hney : ys.Pairwise (fun a b => Compare a b ≠ some 0) := by
    have h1 := (List.Perm.pairwise_iff hsymm hperm).mp (hne.imp (fun h => Or.inl h))
    refine h1.imp_of_mem ?_
    intro a b ha hb h
    rcases h with h | h
    · exact h
    · exact absurd ⟨hvy a ha, hvy b hb⟩ h
  have key : ∀ l : List Semver, (∀ v ∈ l, validVersion v) →
      l.Pairwise (fun a b => versionLess b a = some false) →
      l.Pairwise (fun a b => Compare a b ≠ some 0) →
      l.Pairwise (fun a b => validVersion a ∧ validVersion b ∧ cmpV a b > 0) := by
    intro l hl h1 h2
    refine (h1.and h2).imp_of_mem ?_
    intro a b ha hb h
    obtain ⟨h3, h4⟩ := h
    rw [versionLess_eq b a (hl b hb) (hl a ha)] at h3
    rw [Compare_eq_cmpV a b (hl a ha) (hl b hb)] at h4
    simp only [Option.some.injEq, decide_eq_false_iff_not, not_lt] at h3
    rw [cmpV_swap a b (hl a ha) (hl b hb)] at h3
    have : cmpV a b ≠ 0 := fun h => h4 (by rw [h])
    exact ⟨hl a ha, hl b hb, by omega⟩
  haveI : IsAntisymm Semver (fun a b => validVersion a ∧ validVersion b ∧ cmpV a b > 0) :=
    ⟨fun a b h1 h2 => by
      have := cmpV_swap a b h1.1 h1.2.1
      have := h1.2.2
      have := h2.2.2
      omega⟩
  exact List.eq_of_perm_of_sorted hperm (key xs hv hx hne) (key ys hvy hy hney)

theorem renderSorted_congr (str : Semver → Str) (c1 c2 : Changelog) (sorted : List Semver)
    (hu : c1.Unreleased = c2.Unreleased)
    (hget : ∀ v ∈ sorted, mapGet c1.Releases v = mapGet c2.Releases v) :
    renderSorted str c1 sorted = renderSorted str c2 sorted := by
  have h1 : c1.HasUnreleased = c2.HasUnreleased := by
    simp only [Changelog.HasUnreleased, hu]
  have h2 : sorted.map (writeRelease str c1.Releases) =
      sorted.map (writeRelease str c2.Releases) := by
    apply List.map_congr_left
    intro v hv
    simp only [writeRelease, hget v hv]
  simp only [renderSorted, h1, hu, h2]

theorem keys_nodup_of_unequal (rels : ReleaseMap) (hv : ∀ q ∈ rels, validVersion q.1)
    (hneq : rels.Pairwise (fun q r => Compare q.1 r.1 ≠ some 0)) :
    (rels.map Prod.fst).Nodup := by
  unfold List.Nodup
  rw [List.pairwise_map]
  refine hneq.imp_of_mem ?_
  intro q r hq _ h heq
  apply h
  rw [← heq, Compare_eq_cmpV q.1 q.1 (hv q hq) (hv q hq), cmpV_self q.1 (hv q hq)]

theorem mapGet_self_of_nodup (rels : ReleaseMap) (hkeys : (rels.map Prod.fst).Nodup) :
    rels.map (fun q => (q.1, (mapGet rels q.1).getD Entry.empty)) = rels := by
  conv_rhs => rw [← List.map_id rels]
  apply List.map_congr_left
  intro q hq
  have : mapGet rels q.1 = some q.2 := (mapGet_eq_some_iff rels q.1 q.2 hkeys).mpr hq
  rw [this]
  rfl

theorem roundtrip_releases (p : Str → Option Semver) (str : Semver → Str) (c : Changelog)
    (hc : supportedChangelog p str c) (hkeys : (c.Releases.map Prod.fst).Nodup)
    (sorted : List Semver) (hperm : sorted.Perm (c.Releases.map Prod.fst)) :
    (parseText p (renderSorted str c sorted)).Releases.Perm c.Releases := by
  have hsnd : sorted.Nodup := hperm.nodup_iff.mpr hkeys
  rw [parseText_renderSorted p str c hc sorted (fun v hv => hperm.subset hv),
    insertAll_releases c.Releases sorted _ hsnd (fun v _ => by simp)]
  simp only [List.nil_append]
  have h := hperm.map (fun v => (v, (mapGet c.Releases v).getD Entry.empty))
  rw [List.map_map] at h
  have h2 := mapGet_self_of_nodup c.Releases hkeys
  exact h.trans (by rw [← h2]; simp [Function.comp_def, h2])

theorem supportedChangelog_prerelease :
    supportedChangelog modelParse modelString prereleaseChangelog := by
  refine ⟨rfl, ⟨Or.inl rfl, ?_⟩, ?_⟩
  · intro s items h
    cases s <;> simp [prereleaseChangelog] at h
    subst h
    decide
  · intro q hq
    simp only [prereleaseChangelog, List.mem_cons, List.mem_singleton, List.not_mem_nil,
      or_false] at hq
    rcases hq with rfl | rfl
    · refine ⟨by decide, by decide, ⟨⟨_, _, rfl, by decide⟩, by decide⟩, Or.inr (by decide), ?_⟩
      intro s items h
      cases s <;> simp at h
      subst h
      decide
    · refine ⟨by decide, by decide, ⟨⟨_, _, rfl, by decide⟩, by decide⟩, Or.inr (by decide), ?_⟩
      intro s items h
      cases s <;> simp at h
      subst h
      decide

/-- C5: for a changelog built only from supported constructs, its releases
keyed by pairwise distinct versions, `GenerateMarkdown` returns a text, `Parse`
succeeds on it, and the parsed changelog has the same Unreleased entry and the
same releases: its list of releases is a rearrangement of the one rendered (the
same versions, each once, each with the same date, sections and items in
order), so that under every version the same entry is found. -/
theorem Parse_GenerateMarkdown_roundtrip (semverParse : Str → Option Semver)
    (semverString : Semver → Str) (sortSlice : SortFn Semver) (hsort : sortSlice.Correct)
    (c : Changelog) (hc : supportedChangelog semverParse semverString c)
    (hkeys : (c.Releases.map Prod.fst).Nodup) :
    ∃ text c2, GenerateMarkdown semverString sortSlice c = some text ∧
      Parse semverParse (Reader.ofText text) = Except.ok c2 ∧
      c2.Unreleased = c.Unreleased ∧ c2.Releases.Perm c.Releases ∧
      (c2.Releases.map Prod.fst).Nodup ∧
      ∀ v, mapGet c2.Releases v = mapGet c.Releases v := by
  obtain ⟨sorted, h1, h2, _⟩ := sorted_versions_exist sortSlice hsort c.Releases
    (fun q hq => (hc.2.2 q hq).1)
  have h3 := roundtrip_core semverParse semverString c hc sorted h2
  have h4 := roundtrip_releases semverParse semverString c hc hkeys sorted h2
  refine ⟨renderSorted semverString c sorted, _, ?_, rfl, h3.1, h4, ?_, h3.2⟩
  · rw [GenerateMarkdown_eq, h1]; rfl
  · exact (h4.map Prod.fst).nodup_iff.mpr hkeys

theorem Parse_GenerateMarkdown_roundtrip_witness :
    (prereleaseChangelog.Releases.map Prod.fst).Nodup ∧
    ∃ text c2, GenerateMarkdown modelString insertionSort prereleaseChangelog = some text ∧
      Parse modelParse (Reader.ofText text) = Except.ok c2 ∧
      c2.Unreleased = prereleaseChangelog.Unreleased ∧
      c2.Releases.Perm prereleaseChangelog.Releases ∧
      (c2.Releases.map Prod.fst).Nodup ∧
      ∀ v, mapGet c2.Releases v = mapGet prereleaseChangelog.Releases v :=
  ⟨by decide, Parse_GenerateMarkdown_roundtrip modelParse modelString insertionSort
    insertionSort_correct prereleaseChangelog supportedChangelog_prerelease (by decide)⟩

theorem supportedChangelog_tied :
    supportedChangelog modelParse modelString
      { Unreleased := Entry.empty, Releases := tiedReleases } := by
  refine ⟨rfl, ⟨Or.inl rfl, ?_⟩, ?_⟩
  · intro s items h
    simp [Entry.empty] at h
  · intro q hq
    simp only [tiedReleases, List.mem_cons, List.mem_singleton, List.not_mem_nil, or_false] at hq
    rcases hq with rfl | rfl
    · refine ⟨by decide, by decide, ⟨⟨_, _, rfl, by decide⟩, by decide⟩, Or.inr (by decide), ?_⟩
      intro s items h
      simp at h
    · refine ⟨by decide, by decide, ⟨⟨_, _, rfl, by decide⟩, by decide⟩, Or.inr (by decide), ?_⟩
      intro s items h
      simp at h

/-- C6, as stated, fails for a changelog that `Parse` returns: the text
`## [Unreleased]` followed by `### Added` parses to a changelog whose
Unreleased entry has the section Added without items; it is rendered with the
header `## [Unreleased]`, which parses to an Unreleased entry without any
section, which is rendered without that header. And for a changelog of
supported constructs with two versions that compare equal, the second
rendering depends on the order in which the parsed map is enumerated. -/
theorem GenerateMarkdown_not_idempotent_on_parsed :
    (Parse modelParse (Reader.ofText "## [Unreleased]\n### Added\n".toList) =
      Except.ok (parseText modelParse "## [Unreleased]\n### Added\n".toList) ∧
    GenerateMarkdown modelString insertionSort
        (parseText modelParse "## [Unreleased]\n### Added\n".toList) =
      some ("# Changelog\n\nAll notable changes to this project will be documented in " ++
        "this file.\n## [Unreleased]").toList ∧
    Parse modelParse (Reader.ofText ("# Changelog\n\nAll notable changes to this project " ++
        "will be documented in this file.\n## [Unreleased]").toList) =
      Except.ok (parseText modelParse ("# Changelog\n\nAll notable changes to this project " ++
        "will be documented in this file.\n## [Unreleased]").toList) ∧
    GenerateMarkdown modelString insertionSort
        (parseText modelParse ("# Changelog\n\nAll notable changes to this project will be " ++
          "documented in this file.\n## [Unreleased]").toList) =
      some ("# Changelog\n\nAll notable changes to this project will be documented in " ++
        "this file.\n").toList ∧
    ("# Changelog\n\nAll notable changes to this project will be documented in " ++
        "this file.\n## [Unreleased]").toList ≠
      ("# Changelog\n\nAll notable changes to this project will be documented in " ++
        "this file.\n").toList) ∧
    (supportedChangelog modelParse modelString
        { Unreleased := Entry.empty, Releases := tiedReleases } ∧
    Compare (mkVersion "1" "0" "0" (some "1")) (mkVersion "1" "0" "0" (some "01")) = some 0 ∧
    GenerateMarkdown modelString insertionSort
        { Unreleased := Entry.empty, Releases := tiedReleases } =
      some ("# Changelog\n\nAll notable changes to this project will be documented in " ++
        "this file.\n\n## [1.0.0-1] - 2024-01-01\n\n\n## [1.0.0-01] - 2024-02-02\n\n").toList ∧
    (parseText modelParse ("# Changelog\n\nAll notable changes to this project will be " ++
        "documented in this file.\n\n## [1.0.0-1] - 2024-01-01\n\n\n" ++
        "## [1.0.0-01] - 2024-02-02\n\n").toList).Releases = tiedReleases ∧
    tiedReleases.reverse.Perm tiedReleases ∧
    GenerateMarkdown modelString insertionSort
        { Unreleased := Entry.empty, Releases := tiedReleases.reverse } =
      some ("# Changelog\n\nAll notable changes to this project will be documented in " ++
        "this file.\n\n## [1.0.0-01] - 2024-02-02\n\n\n## [1.0.0-1] - 2024-01-01\n\n").toList) :=
  ⟨⟨rfl, by set_option maxRecDepth 100000 in decide, rfl,
    by set_option maxRecDepth 100000 in decide, by set_option maxRecDepth 100000 in decide⟩,
   ⟨supportedChangelog_tied, by decide, by set_option maxRecDepth 100000 in decide,
    by set_option maxRecDepth 100000 in rfl, List.reverse_perm _,
    by set_option maxRecDepth 100000 in decide⟩⟩

/-- C6, amended: for a changelog built only from supported constructs whose
release versions are pairwise unequal under `Compare`, rendering, parsing and
rendering again gives the first text, in whatever order the parsed map of
releases is enumerated. -/
theorem GenerateMarkdown_idempotent (semverParse : Str → Option Semver)
    (semverString : Semver → Str) (sortSlice : SortFn Semver) (hsort : sortSlice.Correct)
    (c : Changelog) (hc : supportedChangelog semverParse semverString c)
    (hneq : c.Releases.Pairwise (fun q r => Compare q.1 r.1 ≠ some 0)) :
    ∃ text c2, GenerateMarkdown semverString sortSlice c = some text ∧
      Parse semverParse (Reader.ofText text) = Except.ok c2 ∧
      ∀ c3 : Changelog, c3.Unreleased = c2.Unreleased → c3.Releases.Perm c2.Releases →
        GenerateMarkdown semverString sortSlice c3 = some text := by
  have hvalid : ∀ q ∈ c.Releases, validVersion q.1 := fun q hq => (hc.2.2 q hq).1
  obtain ⟨sorted, h1, h2, h3⟩ := sorted_versions_exist sortSlice hsort c.Releases hvalid
  have hkeys := keys_nodup_of_unequal c.Releases hvalid hneq
  have hsnd : sorted.Nodup := h2.nodup_iff.mpr hkeys
  refine ⟨renderSorted semverString c sorted, _, by rw [GenerateMarkdown_eq, h1]; rfl, rfl, ?_⟩
  intro c3 hu3 hp3
  have hrt := roundtrip_core semverParse semverString c hc sorted h2
  have hrel : (parseText semverParse (renderSorted semverString c sorted)).Releases =
      sorted.map (fun v => (v, (mapGet c.Releases v).getD Entry.empty)) := by
    rw [parseText_renderSorted semverParse semverString c hc sorted (fun v hv => h2.subset hv),
      insertAll_releases c.Releases sorted _ hsnd (fun v _ => by simp)]
    simp
  have hkeys2 : (parseText semverParse (renderSorted semverString c sorted)).Releases.map
      Prod.fst = sorted := by
    rw [hrel, List.map_map]
    conv_rhs => rw [← List.map_id sorted]
    apply List.map_congr_left
    intro v _
    rfl
  have hk3 : (c3.Releases.map Prod.fst).Perm sorted := by
    rw [← hkeys2]
    exact hp3.map Prod.fst
  have hv3 : ∀ q ∈ c3.Releases, validVersion q.1 := by
    intro q hq
    have : q.1 ∈ c.Releases.map Prod.fst :=
      h2.subset (hk3.subset (List.mem_map_of_mem Prod.fst hq))
    obtain ⟨r, hr, hr1⟩ := List.mem_map.mp this
    rw [← hr1]
    exact hvalid r hr
  obtain ⟨sorted3, g1, g2, g3⟩ := sorted_versions_exist sortSlice hsort c3.Releases hv3
  have hneS : sorted.Pairwise (fun a b => Compare a b ≠ some 0) := by
    have hsymm : ∀ {a b : Semver},
        (a ≠ b → a ∈ c.Releases.map Prod.fst → b ∈ c.Releases.map Prod.fst →
          Compare a b ≠ some 0) →
        (b ≠ a → b ∈ c.Releases.map Prod.fst → a ∈ c.Releases.map Prod.fst →
          Compare b a ≠ some 0) := by
      intro a b h hba hb ha
      obtain ⟨q, hq, hq1⟩ := List.mem_map.mp ha
      obtain ⟨r, hr, hr1⟩ := List.mem_map.mp hb
      have hva : validVersion a := hq1 ▸ hvalid q hq
      have hvb : validVersion b := hr1 ▸ hvalid r hr
      have := h (Ne.symm hba) ha hb
      rw [Compare_eq_cmpV a b hva hvb] at this
      rw [Compare_eq_cmpV b a hvb hva, cmpV_swap a b hva hvb]
      intro h'
      apply this
      injection h' with h'
      rw [show cmpV a b = 0 by omega]
    have hk : (c.Releases.map Prod.fst).Pairwise (fun a b =>
        a ≠ b → a ∈ c.Releases.map Prod.fst → b ∈ c.Releases.map Prod.fst →
          Compare a b ≠ some 0) := by
      rw [List.pairwise_map]
      exact hneq.imp (fun h _ _ _ => h)
    have := (List.Perm.pairwise_iff hsymm h2).mpr hk
    refine (this.and hsnd).imp_of_mem ?_
    intro a b ha hb h
    exact h.1 h.2 (h2.subset ha) (h2.subset hb)
  have heq : sorted3 = sorted :=
    (sorted_versions_unique sorted sorted3
      (fun v hv => by
        obtain ⟨q, hq, hq1⟩ := List.mem_map.mp (h2.subset hv)
        exact hq1 ▸ hvalid q hq)
      (hk3.symm.trans g2.symm) h3 g3 hneS).symm
  rw [GenerateMarkdown_eq, g1, heq]
  simp only [Option.map_some', Option.some.injEq]
  apply renderSorted_congr
  · rw [hu3]; exact hrt.1
  · intro v _
    rw [mapGet_perm c3.Releases _ ?_ hp3 v]
    · exact hrt.2 v
    · exact (hk3.nodup_iff).mpr hsnd

theorem GenerateMarkdown_idempotent_witness :
    ∃ text c2, GenerateMarkdown modelString insertionSort exampleChangelog = some text ∧
      Parse modelParse (Reader.ofText text) = Except.ok c2 ∧
      ∀ c3 : Changelog, c3.Unreleased = c2.Unreleased → c3.Releases.Perm c2.Releases →
        GenerateMarkdown modelString insertionSort c3 = some text :=
  GenerateMarkdown_idempotent modelParse modelString insertionSort insertionSort_correct
    exampleChangelog supportedChangelog_example (by decide)

/-! ## The validator: the claims C11 and C20 -/

theorem parseDate_nil : parseDate [] = none := rfl

theorem collectDates_error (rels : ReleaseMap)
    (h : ∃ p ∈ rels, p.2.Date = [] ∨ parseDate p.2.Date = none) :
    ∃ q ∈ rels, (q.2.Date = [] ∧ collectDates rels = Except.error (VerifyError.emptyDate q.1)) ∨
      (q.2.Date ≠ [] ∧ parseDate q.2.Date = none ∧
        collectDates rels = Except.error (VerifyError.invalidDate q.1)) := by
  induction rels with
  | nil =>
    obtain ⟨p, hp, _⟩ := h
    exact absurd hp (List.not_mem_nil _)
  | cons r rels ih =>
    obtain ⟨v, e⟩ := r
    by_cases h0 : e.Date = []
    · exact ⟨(v, e), List.mem_cons_self _ _, Or.inl ⟨h0, by simp [collectDates, h0]⟩⟩
    · cases hd : parseDate e.Date with
      | none =>
        exact ⟨(v, e), List.mem_cons_self _ _, Or.inr ⟨h0, hd, by simp [collectDates, h0, hd]⟩⟩
      | some d =>
        have hrest : ∃ p ∈ rels, p.2.Date = [] ∨ parseDate p.2.Date = none := by
          obtain ⟨p, hp, hbad⟩ := h
          rcases List.mem_cons.mp hp with rfl | hp
          · rcases hbad with hbad | hbad
            · exact absurd hbad h0
            · simp only at hbad
              rw [hd] at hbad
              exact absurd hbad (by simp)
          · exact ⟨p, hp, hbad⟩
        obtain ⟨q, hq, hres⟩ := ih hrest
        refine ⟨q, List.mem_cons_of_mem _ hq, ?_⟩
        rcases hres with ⟨h1, h2⟩ | ⟨h1, h2, h3⟩
        · exact Or.inl ⟨h1, by simp [collectDates, h0, hd, h2]⟩
        · exact Or.inr ⟨h1, h2, by simp [collectDates, h0, hd, h3]⟩

/-- C11: when some release has an empty date or a date that `time.Parse` rejects,
`Verify` returns an error that names a release with such a date, whatever the
versions, the other dates and the sort are; and `Verify` does not look at the
Unreleased entry. -/
theorem Verify_date_required (sortSlice : SortFn (Semver × Date)) (c : Changelog)
    (hbad : ∃ p ∈ c.Releases, p.2.Date = [] ∨ parseDate p.2.Date = none) :
    (∃ q ∈ c.Releases,
      (q.2.Date = [] ∧
        Verify sortSlice c = some (Except.error (VerifyError.emptyDate q.1))) ∨
      (q.2.Date ≠ [] ∧ parseDate q.2.Date = none ∧
        Verify sortSlice c = some (Except.error (VerifyError.invalidDate q.1)))) ∧
    (∀ u : Entry, Verify sortSlice { Unreleased := u, Releases := c.Releases } =
      Verify sortSlice c) := by
  refine ⟨?_, fun u => rfl⟩
  obtain ⟨q, hq, hres⟩ := collectDates_error c.Releases hbad
  refine ⟨q, hq, ?_⟩
  rcases hres with ⟨h1, h2⟩ | ⟨h1, h2, h3⟩
  · exact Or.inl ⟨h1, by simp only [Verify, h2]⟩
  · exact Or.inr ⟨h1, h2, by simp only [Verify, h3]⟩

theorem Verify_date_required_witness :
    (∃ q ∈ releasesBadDates,
      (q.2.Date = [] ∧
        Verify insertionSort { Unreleased := Entry.empty, Releases := releasesBadDates } =
          some (Except.error (VerifyError.emptyDate q.1))) ∨
      (q.2.Date ≠ [] ∧ parseDate q.2.Date = none ∧
        Verify insertionSort { Unreleased := Entry.empty, Releases := releasesBadDates } =
          some (Except.error (VerifyError.invalidDate q.1)))) ∧
    (∀ u : Entry, Verify insertionSort { Unreleased := u, Releases := releasesBadDates } =
      Verify insertionSort { Unreleased := Entry.empty, Releases := releasesBadDates }) :=
  Verify_date_required insertionSort { Unreleased := Entry.empty, Releases := releasesBadDates }
    ⟨(mkVersion "1" "0" "0" none, { Date := [], Changes := fun _ => none }), by simp [releasesBadDates],
      Or.inl rfl⟩

theorem checkOrder_no_shouldComeBefore : ∀ ys : List (Semver × Date),
    (∀ p ∈ ys, validVersion p.1) → ys.Pairwise (fun x y => cmpV x.1 y.1 ≥ 0) →
    ∃ r, checkOrder ys = some r ∧ ∀ a b, r ≠ Except.error (VerifyError.shouldComeBefore a b)
  | [], _, _ => ⟨Except.ok (), rfl, fun _ _ h => by cases h⟩
  | [_], _, _ => ⟨Except.ok (), rfl, fun _ _ h => by cases h⟩
  | x :: y :: rest, hv, hs => by
    have hx := hv x (List.mem_cons_self _ _)
    have hy := hv y (List.mem_cons_of_mem _ (List.mem_cons_self _ _))
    have hxy : cmpV x.1 y.1 ≥ 0 := (List.pairwise_cons.mp hs).1 y (List.mem_cons_self _ _)
    obtain ⟨r, hr, hne⟩ := checkOrder_no_shouldComeBefore (y :: rest)
      (fun p hp => hv p (List.mem_cons_of_mem _ hp)) (List.pairwise_cons.mp hs).2
    simp only [checkOrder, Compare_eq_cmpV x.1 y.1 hx hy]
    rw [if_neg (by omega)]
    cases hb : x.2.Before y.2 with
    | true =>
      refine ⟨Except.error (VerifyError.olderDate x.1 x.2 y.1 y.2), by simp, ?_⟩
      intro a b h
      injection h with h
      cases h
    | false => exact ⟨r, by simpa using hr, hne⟩

/-- C20: when all releases have valid versions and dates that parse, the sort
returns, no pair of neighbours (earlier, later) of the sorted list has
`Compare(earlier, later) < 0`, and `Verify` returns a result that is not the
error "version X should come before Y". -/
theorem Verify_should_come_before_unreachable (sortSlice : SortFn (Semver × Date))
    (hsort : sortSlice.Correct) (c : Changelog) (hvalid : ∀ p ∈ c.Releases, validVersion p.1)
    (hdate : ∀ p ∈ c.Releases, (parseDate p.2.Date).isSome) :
    collectDates c.Releases = Except.ok (datedReleases c.Releases) ∧
    ∃ sorted, sortSlice pairLess (datedReleases c.Releases) = some sorted ∧
      sorted.Chain' (fun earlier later =>
        ∃ k, Compare earlier.1 later.1 = some k ∧ ¬ k < 0) ∧
      ∃ r, Verify sortSlice c = some r ∧
        ∀ a b, r ≠ Except.error (VerifyError.shouldComeBefore a b) := by
  have hdv : ∀ p ∈ datedReleases c.Releases, validVersion p.1 := by
    rintro ⟨v, d⟩ hp
    obtain ⟨q, hq, rfl, _⟩ := (mem_datedReleases _ _ _).mp hp
    exact hvalid q hq
  obtain ⟨ys, hys, hperm, hsorted⟩ := hsort pairLess (datedReleases c.Releases)
    (pairLess_totalOn _ hdv)
  have hsorted := hsorted (pairLess_strictWeakOn _ hdv)
  have hyv : ∀ p ∈ ys, validVersion p.1 := fun p hp => hdv p (hperm.subset hp)
  have hge : ys.Pairwise (fun x y => cmpV x.1 y.1 ≥ 0) := by
    refine hsorted.imp_of_mem ?_
    intro p q hp hq h
    simp only [pairLess] at h
    rw [versionLess_eq q.1 p.1 (hyv q hq) (hyv p hp)] at h
    simp only [Option.some.injEq, decide_eq_false_iff_not, not_lt] at h
    rw [cmpV_swap p.1 q.1 (hyv p hp) (hyv q hq)] at h
    omega
  refine ⟨collectDates_ok c.Releases hdate, ys, hys, ?_, ?_⟩
  · refine List.Pairwise.chain' (hge.imp_of_mem ?_)
    intro p q hp hq h
    exact ⟨cmpV p.1 q.1, Compare_eq_cmpV p.1 q.1 (hyv p hp) (hyv q hq), by omega⟩
  · obtain ⟨r, hr, hne⟩ := checkOrder_no_shouldComeBefore ys hyv hge
    refine ⟨r, ?_, hne⟩
    simp only [Verify, collectDates_ok c.Releases hdate, hys, hr]

theorem Verify_should_come_before_unreachable_witness :
    collectDates releasesInOrder = Except.ok (datedReleases releasesInOrder) ∧
    ∃ sorted, insertionSort pairLess (datedReleases releasesInOrder) = some sorted ∧
      sorted.Chain' (fun earlier later =>
        ∃ k, Compare earlier.1 later.1 = some k ∧ ¬ k < 0) ∧
      ∃ r, Verify insertionSort { Unreleased := Entry.empty, Releases := releasesInOrder } =
          some r ∧
        ∀ a b, r ≠ Except.error (VerifyError.shouldComeBefore a b) :=
  Verify_should_come_before_unreachable insertionSort insertionSort_correct
    { Unreleased := Entry.empty, Releases := releasesInOrder } (by decide) (by decide)

/-! ## The renderer: the claims C12 and C15 -/

theorem writeRelease_eq (str : Semver → Str) (rels : ReleaseMap) (v : Semver) :
    writeRelease str rels v =
      '\n' :: (headerLine (str v) ((mapGet rels v).getD Entry.empty).Date ++
        '\n' :: writeEntry ((mapGet rels v).getD Entry.empty)) := by
  simp only [writeRelease, headerLine]
  split <;> simp [List.append_assoc]

theorem versions_pairwise_of_perm (xs ys : List Semver) (hv : ∀ v ∈ xs, validVersion v)
    (hperm : xs.Perm ys) (hne : xs.Pairwise (fun a b => Compare a b ≠ some 0)) :
    ys.Pairwise (fun a b => Compare a b ≠ some 0) := by
  have hvy : ∀ v ∈ ys, validVersion v := fun v h => hv v (hperm.symm.subset h)
  have hsymm : ∀ {a b : Semver}, (Compare a b ≠ some 0 ∨ ¬ (validVersion a ∧ validVersion b)) →
      (Compare b a ≠ some 0 ∨ ¬ (validVersion b ∧ validVersion a)) := by
    intro a b h
    by_cases hab : validVersion a ∧ validVersion b
    · rcases h with h | h
      · left
        rw [Compare_eq_cmpV b a hab.2 hab.1, cmpV_swap a b hab.1 hab.2]
        rw [Compare_eq_cmpV a b hab.1 hab.2] at h
        intro h'
        apply h
        injection h' with h'
        rw [show cmpV a b = 0 by omega]
      · exact absurd hab h
    · right; exact fun h' => hab ⟨h'.2, h'.1⟩
  have h1 := (List.Perm.pairwise_iff hsymm hperm).mp (hne.imp (fun h => Or.inl h))
  refine h1.imp_of_mem ?_
  intro a b ha hb h
  rcases h with h | h
  · exact h
  · exact absurd ⟨hvy a ha, hvy b hb⟩ h

/-- C12: for valid release versions `GenerateMarkdown` returns the preamble, the
Unreleased block, and then, for each version of a list that is a permutation
of the keys of Releases (one header per key), the header line of that version
and the body of its entry; in that list every version compares greater than
or equal to every version after it. -/
theorem GenerateMarkdown_release_order (semverString : Semver → Str)
    (sortSlice : SortFn Semver) (hsort : sortSlice.Correct) (c : Changelog)
    (hvalid : ∀ p ∈ c.Releases, validVersion p.1) :
    ∃ sorted : List Semver, sorted.Perm (c.Releases.map Prod.fst) ∧
      sorted.Pairwise (fun a b => ∃ k, Compare a b = some k ∧ k ≥ 0) ∧
      GenerateMarkdown semverString sortSlice c = some
        ("# Changelog\n\n".toList ++
          "All notable changes to this project will be documented in this file.\n".toList ++
          (if c.HasUnreleased then "## [Unreleased]".toList ++ writeEntry c.Unreleased else []) ++
          (sorted.map (fun v =>
            '\n' :: (headerLine (semverString v) ((mapGet c.Releases v).getD Entry.empty).Date ++
              '\n' :: writeEntry ((mapGet c.Releases v).getD Entry.empty)))).flatten) := by
  obtain ⟨sorted, h1, h2, h3⟩ := sorted_versions_exist sortSlice hsort c.Releases hvalid
  have hv : ∀ v ∈ sorted, validVersion v := by
    intro v hv
    obtain ⟨q, hq, rfl⟩ := List.mem_map.mp (h2.subset hv)
    exact hvalid q hq
  refine ⟨sorted, h2, ?_, ?_⟩
  · refine h3.imp_of_mem ?_
    intro a b ha hb h
    rw [versionLess_eq b a (hv b hb) (hv a ha)] at h
    simp only [Option.some.injEq, decide_eq_false_iff_not, not_lt] at h
    rw [cmpV_swap a b (hv a ha) (hv b hb)] at h
    exact ⟨cmpV a b, Compare_eq_cmpV a b (hv a ha) (hv b hb), by omega⟩
  · rw [GenerateMarkdown_eq, h1]
    simp only [Option.map_some', renderSorted, Option.some.injEq]
    congr 2
    apply List.map_congr_left
    intro v _
    exact writeRelease_eq semverString c.Releases v

theorem GenerateMarkdown_release_order_witness :
    ∃ sorted : List Semver, sorted.Perm (releasesInOrder.map Prod.fst) ∧
      sorted.Pairwise (fun a b => ∃ k, Compare a b = some k ∧ k ≥ 0) ∧
      GenerateMarkdown modelString insertionSort
          { Unreleased := Entry.empty, Releases := releasesInOrder } = some
        ("# Changelog\n\n".toList ++
          "All notable changes to this project will be documented in this file.\n".toList ++
          (if (Changelog.HasUnreleased { Unreleased := Entry.empty, Releases := releasesInOrder })
            then "## [Unreleased]".toList ++ writeEntry Entry.empty else []) ++
          (sorted.map (fun v =>
            '\n' :: (headerLine (modelString v) ((mapGet releasesInOrder v).getD Entry.empty).Date ++
              '\n' :: writeEntry ((mapGet releasesInOrder v).getD Entry.empty)))).flatten) :=
  GenerateMarkdown_release_order modelString insertionSort insertionSort_correct
    { Unreleased := Entry.empty, Releases := releasesInOrder } (by decide)

/-- C15, as stated, fails: the releases 1.0.0-1 and 1.0.0-01 have valid
versions that compare equal, and the two enumeration orders of this map are
rendered to different texts. -/
theorem GenerateMarkdown_depends_on_enumeration :
    (∀ p ∈ tiedReleases, validVersion p.1) ∧
    Compare (mkVersion "1" "0" "0" (some "1")) (mkVersion "1" "0" "0" (some "01")) = some 0 ∧
    mkVersion "1" "0" "0" (some "1") ≠ mkVersion "1" "0" "0" (some "01") ∧
    tiedReleases.reverse.Perm tiedReleases ∧
    GenerateMarkdown modelString insertionSort
        { Unreleased := Entry.empty, Releases := tiedReleases } =
      some ("# Changelog\n\nAll notable changes to this project will be documented in " ++
        "this file.\n\n## [1.0.0-1] - 2024-01-01\n\n\n## [1.0.0-01] - 2024-02-02\n\n").toList ∧
    GenerateMarkdown modelString insertionSort
        { Unreleased := Entry.empty, Releases := tiedReleases.reverse } =
      some ("# Changelog\n\nAll notable changes to this project will be documented in " ++
        "this file.\n\n## [1.0.0-01] - 2024-02-02\n\n\n## [1.0.0-1] - 2024-01-01\n\n").toList ∧
    GenerateMarkdown modelString insertionSort
        { Unreleased := Entry.empty, Releases := tiedReleases } ≠
      GenerateMarkdown modelString insertionSort
        { Unreleased := Entry.empty, Releases := tiedReleases.reverse } :=
  ⟨by decide, by decide, by decide, List.reverse_perm _,
    by set_option maxRecDepth 100000 in decide, by set_option maxRecDepth 100000 in decide,
    by set_option maxRecDepth 100000 in decide⟩

/-- C15, amended: for valid release versions that are pairwise unequal under
`Compare`, two changelogs with the same Unreleased entry and the same
version-to-entry pairs, enumerated in any two orders, are rendered to the
same text. -/
theorem GenerateMarkdown_deterministic (semverString : Semver → Str)
    (sortSlice : SortFn Semver) (hsort : sortSlice.Correct) (c1 c2 : Changelog)
    (hu : c1.Unreleased = c2.Unreleased) (hperm : c1.Releases.Perm c2.Releases)
    (hvalid : ∀ p ∈ c1.Releases, validVersion p.1)
    (hneq : c1.Releases.Pairwise (fun p q => Compare p.1 q.1 ≠ some 0)) :
    ∃ text, GenerateMarkdown semverString sortSlice c1 = some text ∧
      GenerateMarkdown semverString sortSlice c2 = some text := by
  have hvalid2 : ∀ p ∈ c2.Releases, validVersion p.1 :=
    fun p hp => hvalid p (hperm.symm.subset hp)
  obtain ⟨s1, a1, a2, a3⟩ := sorted_versions_exist sortSlice hsort c1.Releases hvalid
  obtain ⟨s2, b1, b2, b3⟩ := sorted_versions_exist sortSlice hsort c2.Releases hvalid2
  have hkv : ∀ v ∈ c1.Releases.map Prod.fst, validVersion v := by
    intro v hv
    obtain ⟨q, hq, rfl⟩ := List.mem_map.mp hv
    exact hvalid q hq
  have hkne : (c1.Releases.map Prod.fst).Pairwise (fun a b => Compare a b ≠ some 0) := by
    rw [List.pairwise_map]
    exact hneq
  have hs1ne := versions_pairwise_of_perm _ s1 hkv a2.symm hkne
  have hs12 : s1.Perm s2 := a2.trans ((hperm.map Prod.fst).trans b2.symm)
  have heq : s1 = s2 := sorted_versions_unique s1 s2
    (fun v hv => hkv v (a2.subset hv)) hs12 a3 b3 hs1ne
  refine ⟨renderSorted semverString c1 s1, by rw [GenerateMarkdown_eq, a1]; rfl, ?_⟩
  rw [GenerateMarkdown_eq, b1, ← heq]
  simp only [Option.map_some', Option.some.injEq]
  apply renderSorted_congr _ _ _ _ hu.symm
  intro v _
  exact (mapGet_perm c1.Releases c2.Releases (keys_nodup_of_unequal _ hvalid hneq) hperm v).symm

theorem GenerateMarkdown_deterministic_witness :
    ∃ text, GenerateMarkdown modelString insertionSort
        { Unreleased := Entry.empty, Releases := releasesInOrder } = some text ∧
      GenerateMarkdown modelString insertionSort
        { Unreleased := Entry.empty, Releases := releasesInOrder.reverse } = some text :=
  GenerateMarkdown_deterministic modelString insertionSort insertionSort_correct
    { Unreleased := Entry.empty, Releases := releasesInOrder }
    { Unreleased := Entry.empty, Releases := releasesInOrder.reverse }
    rfl (List.reverse_perm _).symm (by decide) (by decide)

/-! ## Merging, section names and entries: the claims C13, C14 and C16 -/

/-- C13: `mergeSection` with a non-empty list of new items leaves under the
section the previous items followed by the new ones in order, and leaves every
other section as it was; with `noPrompt` set and no new item it changes
nothing; merging `x` into Fixed = `y` gives `y`, `x`. -/
theorem mergeSection_appends (promptItems : Str → List Str)
    (m : Section → Option (List Str)) (s : Section) (v : List Str) (noPrompt : Bool) :
    (v ≠ [] →
      mergeSection promptItems m s v noPrompt s = some ((m s).getD [] ++ v) ∧
      ∀ t, t ≠ s → mergeSection promptItems m s v noPrompt t = m t) ∧
    mergeSection promptItems m s [] true = m ∧
    mergeSection promptItems (setSection (fun _ => none) Section.Fixed ["y".toList])
      Section.Fixed ["x".toList] noPrompt Section.Fixed = some ["y".toList, "x".toList] := by
  refine ⟨?_, ?_, ?_⟩
  · intro hv
    have hlen : ¬ v.length = 0 := fun h => hv (List.length_eq_zero.mp h)
    refine ⟨by simp [mergeSection, hlen, setSection], ?_⟩
    intro t ht
    simp [mergeSection, hlen, setSection, ht]
  · simp [mergeSection]
  · simp [mergeSection, setSection]

theorem mergeSection_appends_witness :
    mergeSection (fun _ => []) (setSection (fun _ => none) Section.Added ["a".toList])
        Section.Added ["b".toList, "c".toList] false Section.Added =
      some (((setSection (fun _ => none) Section.Added ["a".toList]) Section.Added).getD [] ++
        ["b".toList, "c".toList]) ∧
    ∀ t, t ≠ Section.Added →
      mergeSection (fun _ => []) (setSection (fun _ => none) Section.Added ["a".toList])
        Section.Added ["b".toList, "c".toList] false t =
      (setSection (fun _ => none) Section.Added ["a".toList]) t :=
  (mergeSection_appends (fun _ => []) (setSection (fun _ => none) Section.Added ["a".toList])
    Section.Added ["b".toList, "c".toList] false).1 (by decide)

theorem toLower_String (s : Section) :
    toLower s.String =
      match s with
      | Section.Added => "added".toList
      | Section.Changed => "changed".toList
      | Section.Deprecated => "deprecated".toList
      | Section.Removed => "removed".toList
      | Section.Fixed => "fixed".toList
      | Section.Security => "security".toList := by
  cases s <;> decide

theorem ParseSection_eq_some_iff (t : Str) (s : Section) :
    ParseSection t = some s ↔ toLower t = toLower s.String := by
  rw [toLower_String]
  unfold ParseSection
  simp only
  constructor
  · intro h
    split_ifs at h with h1 h2 h3 h4 h5 h6 <;> injection h with h <;> subst h <;> assumption
  · intro h
    cases s <;> simp only at h <;> rw [h] <;> decide

/-- C14: `ParseSection` returns every section from its rendered name; its result
depends only on the lower-case form of the text; it returns a section exactly
for the texts whose lower-case form is the lower-case form of the name of
that section, and the not-recognized outcome for every other text. -/
theorem ParseSection_String_roundtrip :
    (∀ s : Section, ParseSection s.String = some s) ∧
    (∀ t u : Str, toLower t = toLower u → ParseSection t = ParseSection u) ∧
    (∀ (t : Str) (s : Section), ParseSection t = some s ↔ toLower t = toLower s.String) ∧
    (∀ t : Str, (∀ s : Section, toLower t ≠ toLower s.String) → ParseSection t = none) ∧
    ParseSection "ADDED".toList = some Section.Added ∧
    ParseSection "sEcUrItY".toList = some Section.Security ∧
    ParseSection "Unknown".toList = none := by
  refine ⟨?_, ?_, ParseSection_eq_some_iff, ?_, by decide, by decide, by decide⟩
  · intro s
    exact (ParseSection_eq_some_iff _ s).mpr rfl
  · intro t u h
    simp only [ParseSection, h]
  · intro t h
    cases hp : ParseSection t with
    | none => rfl
    | some s => exact absurd ((ParseSection_eq_some_iff t s).mp hp) (h s)

theorem writeSection_lines (e : Entry) (s : Section) :
    writeSection e s =
      ((match e.Changes s with
        | some (item :: items) =>
          [[], "### ".toList ++ s.String, []] ++
            (item :: items).map (fun it => "- ".toList ++ trimSpace it)
        | _ => []).map (fun l => l ++ "\n".toList)).flatten := by
  unfold writeSection
  cases h : e.Changes s with
  | none => rfl
  | some items =>
    cases items with
    | nil => rfl
    | cons item items =>
      simp only [List.length_cons, Nat.add_one_ne_zero, if_false]
      simp [List.map_map, Function.comp_def, List.append_assoc]

theorem trimSpace_spec (item : Str) :
    ∃ pre post : Str, item = pre ++ trimSpace item ++ post ∧
      (∀ c ∈ pre, isSpace c = true) ∧ (∀ c ∈ post, isSpace c = true) ∧
      (∀ c, (trimSpace item).head? = some c → isSpace c = false) ∧
      (∀ c, (trimSpace item).getLast? = some c → isSpace c = false) := by
  have h1 := List.takeWhile_append_dropWhile isSpace item
  have h2 := List.takeWhile_append_dropWhile isSpace (item.dropWhile isSpace).reverse
  have h3 : item.dropWhile isSpace =
      ((item.dropWhile isSpace).reverse.dropWhile isSpace).reverse ++
        ((item.dropWhile isSpace).reverse.takeWhile isSpace).reverse := by
    rw [← List.reverse_append, h2, List.reverse_reverse]
  have hlast : ∀ c, (trimSpace item).getLast? = some c → isSpace c = false := by
    intro c hc
    unfold trimSpace at hc
    rw [List.getLast?_reverse] at hc
    have := List.head?_dropWhile_not isSpace (item.dropWhile isSpace).reverse
    rw [hc] at this
    simpa using this
  refine ⟨item.takeWhile isSpace, ((item.dropWhile isSpace).reverse.takeWhile isSpace).reverse,
    ?_, ?_, ?_, ?_, hlast⟩
  · unfold trimSpace
    rw [List.append_assoc, ← h3, h1]
  · intro c hc
    exact List.mem_takeWhile_imp hc
  · intro c hc
    exact List.mem_takeWhile_imp (List.mem_reverse.mp hc)
  · intro c hc
    by_cases hnil : trimSpace item = []
    · rw [hnil] at hc
      exact absurd hc (by simp)
    · have hd : (item.dropWhile isSpace).head? = some c := by
        have : item.dropWhile isSpace = trimSpace item ++
            ((item.dropWhile isSpace).reverse.takeWhile isSpace).reverse := h3
        rw [this, List.head?_append_of_ne_nil _ hnil]
        exact hc
      have := List.head?_dropWhile_not isSpace item
      rw [hd] at this
      simpa using this

/-- C16: `writeEntry` writes the lines of the specification, each followed by a
line feed: the sections in the fixed order, nothing for a section that is
absent or has no item, and for a section with items its header and one bullet
per item in list order, the item without its leading and trailing white
space. An entry whose map has no section at all is written as one line
feed. -/
theorem writeEntry_sections (e : Entry) :
    writeEntry e =
      (if e.numSections = 0 then "\n".toList
       else ((entryLinesSpec e).map (fun l => l ++ "\n".toList)).flatten) ∧
    (∀ s, (e.Changes s = none ∨ e.Changes s = some []) → writeSection e s = []) ∧
    (∀ item : Str, ∃ pre post : Str, item = pre ++ trimSpace item ++ post ∧
      (∀ c ∈ pre, isSpace c = true) ∧ (∀ c ∈ post, isSpace c = true) ∧
      (∀ c, (trimSpace item).head? = some c → isSpace c = false) ∧
      (∀ c, (trimSpace item).getLast? = some c → isSpace c = false)) := by
  refine ⟨?_, ?_, trimSpace_spec⟩
  · unfold writeEntry
    split
    · rfl
    · unfold entryLinesSpec
      rw [List.map_flatten, List.flatten_flatten, List.map_map, List.map_map]
      show ((allSections.map (writeSection e)).flatten = _)
      congr 1
      apply List.map_congr_left
      intro s _
      exact writeSection_lines e s
  · intro s hs
    rcases hs with hs | hs <;> simp [writeSection, hs]

/-! ## The Unreleased header, the text format and the last line: the claims C17, C18 and C19 -/

/-- C17: what the code does when the Unreleased entry has a section but no item
(here the changelog parsed from `## [Unreleased]` and `### Added`): no section
is populated, and the rendered text has the line `## [Unreleased]`, because
`HasUnreleased` counts the sections of the map, not their items. -/
theorem GenerateMarkdown_unreleased_header_without_items :
    (parseText modelParse "## [Unreleased]\n### Added\n".toList).Releases = [] ∧
    (∀ s, (parseText modelParse "## [Unreleased]\n### Added\n".toList).Unreleased.Changes s =
      unreleasedWithoutItems.Unreleased.Changes s) ∧
    (∀ s, unreleasedWithoutItems.Unreleased.Changes s = none ∨
      unreleasedWithoutItems.Unreleased.Changes s = some []) ∧
    unreleasedWithoutItems.HasUnreleased = true ∧
    GenerateMarkdown modelString insertionSort unreleasedWithoutItems =
      some ("# Changelog\n\nAll notable changes to this project will be documented in " ++
        "this file.\n## [Unreleased]").toList ∧
    "## [Unreleased]".toList ∈
      readLines ("# Changelog\n\nAll notable changes to this project will be documented in " ++
        "this file.\n## [Unreleased]").toList :=
  ⟨rfl, fun s => by cases s <;> (set_option maxRecDepth 100000 in decide),
    fun s => by cases s <;> decide, by decide,
    by set_option maxRecDepth 100000 in decide, by set_option maxRecDepth 100000 in decide⟩

/-- C18: what the code produces for the changelog of the format example, line by
line: there is no blank line between the description and `## [Unreleased]`
and none between `## [Unreleased]` and `### Added`, so the text is not the
document of the specification. -/
theorem GenerateMarkdown_example_text :
    GenerateMarkdown modelString insertionSort exampleChangelog =
      some ("# Changelog\n\nAll notable changes to this project will be documented in " ++
        "this file.\n## [Unreleased]\n### Added\n\n- item text\n\n## [1.2.3] - 2024-05-01\n\n" ++
        "### Fixed\n\n- item text\n").toList ∧
    (GenerateMarkdown modelString insertionSort exampleChangelog).map readLines =
      some ["# Changelog".toList, [],
        "All notable changes to this project will be documented in this file.".toList,
        "## [Unreleased]".toList, "### Added".toList, [], "- item text".toList, [],
        "## [1.2.3] - 2024-05-01".toList, [], "### Fixed".toList, [], "- item text".toList] ∧
    (GenerateMarkdown modelString insertionSort exampleChangelog).map readLines ≠
      some ["# Changelog".toList, [],
        "All notable changes to this project will be documented in this file.".toList, [],
        "## [Unreleased]".toList, [], "### Added".toList, [], "- item text".toList, [],
        "## [1.2.3] - 2024-05-01".toList, [], "### Fixed".toList, [], "- item text".toList] :=
  ⟨by set_option maxRecDepth 100000 in decide, by set_option maxRecDepth 100000 in decide,
    by set_option maxRecDepth 100000 in decide⟩

theorem feed_cur_last (P : ParseState → Str → ParseState) : ∀ (t : Str) (s : ParseState)
    (cur : Str), (feed P (s, cur) t).2 ≠ [] →
    (feed P (s, cur) t).2.getLast? = (cur ++ t).getLast?
  | [], s, cur, _ => by simp [feed]
  | c :: cs, s, cur, h => by
    simp only [feed] at h ⊢
    split at h
    · rename_i hc
      rw [if_pos hc]
      have ih := feed_cur_last P cs (P s (dropCR cur)) [] h
      rw [ih]
      cases cs with
      | nil => simp [feed] at h
      | cons d ds =>
        rw [show cur ++ c :: d :: ds = (cur ++ [c]) ++ d :: ds by simp, List.nil_append,
          getLast?_append_cons]
    · rename_i hc
      rw [if_neg hc]
      have ih := feed_cur_last P cs s (cur ++ [c]) h
      rw [ih]
      simp

/-- C19, as stated, fails: the text below does not end with a line feed but
with a carriage return; its last item is read with the carriage return, and
without it when a line feed is appended. -/
theorem Parse_final_carriage_return :
    "## [Unreleased]\n### Added\n- a\r".toList.getLast? ≠ some '\n' ∧
    Parse modelParse (Reader.ofText "## [Unreleased]\n### Added\n- a\r".toList) =
      Except.ok (parseText modelParse "## [Unreleased]\n### Added\n- a\r".toList) ∧
    Parse modelParse (Reader.ofText ("## [Unreleased]\n### Added\n- a\r".toList ++ ['\n'])) =
      Except.ok (parseText modelParse ("## [Unreleased]\n### Added\n- a\r".toList ++ ['\n'])) ∧
    (parseText modelParse "## [Unreleased]\n### Added\n- a\r".toList).Unreleased.Changes
        Section.Added = some ["a\r".toList] ∧
    (parseText modelParse ("## [Unreleased]\n### Added\n- a\r".toList ++
        ['\n'])).Unreleased.Changes Section.Added = some ["a".toList] :=
  ⟨by decide, rfl, rfl, by set_option maxRecDepth 100000 in decide,
    by set_option maxRecDepth 100000 in decide⟩

/-- C19, amended: for every text that does not end with a carriage return
(whether or not it ends with a line feed), `Parse` returns the same changelog
for the text and for the text followed by a line feed; so the last line is
processed and the last entry stored without the final line feed. -/
theorem Parse_without_final_newline (semverParse : Str → Option Semver) (t : Str)
    (hcr : t.getLast? ≠ some '\r') :
    Parse semverParse (Reader.ofText t) = Parse semverParse (Reader.ofText (t ++ ['\n'])) := by
  simp only [Parse, Reader.ofText, parseText, parseLines, readLines]
  congr 2
  rw [foldl_readLinesFrom, foldl_readLinesFrom, feed_append]
  have hlast := feed_cur_last (parseLine semverParse) t ParseState.init []
  cases hf : feed (parseLine semverParse) (ParseState.init, []) t with
  | mk s cur =>
    rw [hf] at hlast
    simp only [feed, if_true, feedEnd]
    by_cases hcur : cur = []
    · subst hcur
      simp [dropCR_nil, parseLine_empty]
    · have h1 := hlast hcur
      simp only [List.nil_append] at h1
      have h2 : dropCR cur = cur := by
        apply dropCR_of_last
        intro c hc hcc
        apply hcr
        rw [← h1, hc, hcc]
      simp [hcur, h2]

theorem Parse_without_final_newline_witness :
    Parse modelParse (Reader.ofText "## [1.0.0] - 2024-01-01\n### Added\n- a".toList) =
      Parse modelParse (Reader.ofText ("## [1.0.0] - 2024-01-01\n### Added\n- a".toList ++
        ['\n'])) :=
  Parse_without_final_newline modelParse "## [1.0.0] - 2024-01-01\n### Added\n- a".toList
    (by decide)

/-! ## The validator and the enumeration order: the claim C21 -/

theorem sorted_pairs_unique (xs ys : List (Semver × Date)) (hv : ∀ p ∈ xs, validVersion p.1)
    (hperm : xs.Perm ys) (hx : xs.Pairwise (fun a b => pairLess b a = some false))
    (hy : ys.Pairwise (fun a b => pairLess b a = some false))
    (hne : xs.Pairwise (fun a b => cmpV a.1 b.1 ≠ 0)) : xs = ys := by
  have hvy : ∀ p ∈ ys, validVersion p.1 := fun p h => hv p (hperm.symm.subset h)
  have hsymm : ∀ {a b : Semver × Date},
      (cmpV a.1 b.1 ≠ 0 ∨ ¬ (validVersion a.1 ∧ validVersion b.1)) →
      (cmpV b.1 a.1 ≠ 0 ∨ ¬ (validVersion b.1 ∧ validVersion a.1)) := by
    intro a b h
    by_cases hab : validVersion a.1 ∧ validVersion b.1
    · rcases h with h | h
      · left
        rw [cmpV_swap a.1 b.1 hab.1 hab.2]; omega
      · exact absurd hab h
    · right; exact fun h' => hab ⟨h'.2, h'.1⟩
  have hney : ys.Pairwise (fun a b => cmpV a.1 b.1 ≠ 0) := by
    have h1 := (List.Perm.pairwise_iff hsymm hperm).mp (hne.imp (fun h => Or.inl h))
    refine h1.imp_of_mem ?_
    intro a b ha hb h
    rcases h with h | h
    · exact h
    · exact absurd ⟨hvy a ha, hvy b hb⟩ h
  have key : ∀ l : List (Semver × Date), (∀ p ∈ l, validVersion p.1) →
      l.Pairwise (fun a b => pairLess b a = some false) →
      l.Pairwise (fun a b => cmpV a.1 b.1 ≠ 0) →
      l.Pairwise (fun a b => validVersion a.1 ∧ validVersion b.1 ∧ cmpV a.1 b.1 > 0) := by
    intro l hl h1 h2
    refine (h1.and h2).imp_of_mem ?_
    intro a b ha hb h
    obtain ⟨h3, h4⟩ := h
    simp only [pairLess] at h3
    rw [versionLess_eq b.1 a.1 (hl b hb) (hl a ha)] at h3
    simp only [Option.some.injEq, decide_eq_false_iff_not, not_lt] at h3
    rw [cmpV_swap a.1 b.1 (hl a ha) (hl b hb)] at h3
    exact ⟨hl a ha, hl b hb, by omega⟩
  haveI : IsAntisymm (Semver × Date)
      (fun a b => validVersion a.1 ∧ validVersion b.1 ∧ cmpV a.1 b.1 > 0) :=
    ⟨fun a b h1 h2 => by
      have := cmpV_swap a.1 b.1 h1.1 h1.2.1
      have := h1.2.2
      have := h2.2.2
      omega⟩
  exact List.eq_of_perm_of_sorted hperm (key xs hv hx hne) (key ys hvy hy hney)

theorem datedReleases_unequal (rels : ReleaseMap) (hvalid : ∀ p ∈ rels, validVersion p.1)
    (hneq : rels.Pairwise (fun p q => Compare p.1 q.1 ≠ some 0)) :
    (datedReleases rels).Pairwise (fun a b => cmpV a.1 b.1 ≠ 0) := by
  unfold datedReleases
  rw [List.pairwise_filterMap]
  refine hneq.imp_of_mem ?_
  intro p q hp hq hpq b hb b' hb'
  simp only [Option.mem_def, Option.map_eq_some'] at hb hb'
  obtain ⟨_, _, rfl⟩ := hb
  obtain ⟨_, _, rfl⟩ := hb'
  intro h0
  apply hpq
  rw [Compare_eq_cmpV p.1 q.1 (hvalid p hp) (hvalid q hq), h0]

/-- C21, as stated, fails: the releases 1.0.0-1 of 2024-01-01 and 1.0.0-01 of
2024-02-02 have valid versions that compare equal and dates that parse;
enumerated in this order `Verify` returns the older-date error, enumerated in
the other order it returns success. -/
theorem Verify_depends_on_enumeration :
    (∀ p ∈ tiedReleases, validVersion p.1) ∧
    (∀ p ∈ tiedReleases, (parseDate p.2.Date).isSome) ∧
    Compare (mkVersion "1" "0" "0" (some "1")) (mkVersion "1" "0" "0" (some "01")) = some 0 ∧
    mkVersion "1" "0" "0" (some "1") ≠ mkVersion "1" "0" "0" (some "01") ∧
    tiedReleases.reverse.Perm tiedReleases ∧
    Verify insertionSort { Unreleased := Entry.empty, Releases := tiedReleases } =
      some (Except.error (VerifyError.olderDate
        (mkVersion "1" "0" "0" (some "1")) { year := 2024, month := 1, day := 1 }
        (mkVersion "1" "0" "0" (some "01")) { year := 2024, month := 2, day := 2 })) ∧
    Verify insertionSort { Unreleased := Entry.empty, Releases := tiedReleases.reverse } =
      some (Except.ok ()) :=
  ⟨by decide, by decide, by decide, by decide, List.reverse_perm _, rfl, rfl⟩

/-- C21, amended: when all releases have valid versions and dates that parse and
no two release versions compare equal, `Verify` returns a result, and the same
result (success, or the same error), for any two enumeration orders of the
map of releases. -/
theorem Verify_independent_of_enumeration (sortSlice : SortFn (Semver × Date))
    (hsort : sortSlice.Correct) (c1 c2 : Changelog) (hperm : c1.Releases.Perm c2.Releases)
    (hvalid : ∀ p ∈ c1.Releases, validVersion p.1)
    (hdate : ∀ p ∈ c1.Releases, (parseDate p.2.Date).isSome)
    (hneq : c1.Releases.Pairwise (fun p q => Compare p.1 q.1 ≠ some 0)) :
    ∃ r, Verify sortSlice c1 = some r ∧ Verify sortSlice c2 = some r := by
  have hvalid2 : ∀ p ∈ c2.Releases, validVersion p.1 :=
    fun p hp => hvalid p (hperm.symm.subset hp)
  have hdate2 : ∀ p ∈ c2.Releases, (parseDate p.2.Date).isSome :=
    fun p hp => hdate p (hperm.symm.subset hp)
  have hdv1 : ∀ p ∈ datedReleases c1.Releases, validVersion p.1 := by
    rintro ⟨v, d⟩ hp
    obtain ⟨q, hq, rfl, _⟩ := (mem_datedReleases _ _ _).mp hp
    exact hvalid q hq
  have hdv2 : ∀ p ∈ datedReleases c2.Releases, validVersion p.1 := by
    rintro ⟨v, d⟩ hp
    obtain ⟨q, hq, rfl, _⟩ := (mem_datedReleases _ _ _).mp hp
    exact hvalid2 q hq
  have hdperm : (datedReleases c1.Releases).Perm (datedReleases c2.Releases) :=
    List.Perm.filterMap _ hperm
  obtain ⟨s1, a1, a2, a3⟩ := hsort pairLess (datedReleases c1.Releases) (pairLess_totalOn _ hdv1)
  obtain ⟨s2, b1, b2, b3⟩ := hsort pairLess (datedReleases c2.Releases) (pairLess_totalOn _ hdv2)
  have a3 := a3 (pairLess_strictWeakOn _ hdv1)
  have b3 := b3 (pairLess_strictWeakOn _ hdv2)
  have hs1v : ∀ p ∈ s1, validVersion p.1 := fun p hp => hdv1 p (a2.subset hp)
  have hne1 : s1.Pairwise (fun a b => cmpV a.1 b.1 ≠ 0) := by
    have hsymm : ∀ {a b : Semver × Date},
        (cmpV a.1 b.1 ≠ 0 ∨ ¬ (validVersion a.1 ∧ validVersion b.1)) →
        (cmpV b.1 a.1 ≠ 0 ∨ ¬ (validVersion b.1 ∧ validVersion a.1)) := by
      intro a b h
      by_cases hab : validVersion a.1 ∧ validVersion b.1
      · rcases h with h | h
        · left
          rw [cmpV_swap a.1 b.1 hab.1 hab.2]; omega
        · exact absurd hab h
      · right; exact fun h' => hab ⟨h'.2, h'.1⟩
    have h1 := (List.Perm.pairwise_iff hsymm a2).mpr
      ((datedReleases_unequal c1.Releases hvalid hneq).imp (fun h => Or.inl h))
    refine h1.imp_of_mem ?_
    intro a b ha hb h
    rcases h with h | h
    · exact h
    · exact absurd ⟨hs1v a ha, hs1v b hb⟩ h
  have heq : s1 = s2 :=
    sorted_pairs_unique s1 s2 hs1v (a2.trans (hdperm.trans b2.symm)) a3 b3 hne1
  have hge : s1.Pairwise (fun x y => cmpV x.1 y.1 ≥ 0) := by
    refine a3.imp_of_mem ?_
    intro p q hp hq h
    simp only [pairLess] at h
    rw [versionLess_eq q.1 p.1 (hs1v q hq) (hs1v p hp)] at h
    simp only [Option.some.injEq, decide_eq_false_iff_not, not_lt] at h
    rw [cmpV_swap p.1 q.1 (hs1v p hp) (hs1v q hq)] at h
    omega
  obtain ⟨r, hr, _⟩ := checkOrder_no_shouldComeBefore s1 hs1v hge
  refine ⟨r, ?_, ?_⟩
  · simp only [Verify, collectDates_ok c1.Releases hdate, a1, hr]
  · simp only [Verify, collectDates_ok c2.Releases hdate2, b1, ← heq, hr]

theorem Verify_independent_of_enumeration_witness :
    ∃ r, Verify insertionSort { Unreleased := Entry.empty, Releases := releasesNewerFirst } =
        some r ∧
      Verify insertionSort
        { Unreleased := Entry.empty, Releases := releasesNewerFirst.reverse } = some r :=
  Verify_independent_of_enumeration insertionSort insertionSort_correct
    { Unreleased := Entry.empty, Releases := releasesNewerFirst }
    { Unreleased := Entry.empty, Releases := releasesNewerFirst.reverse }
    (List.reverse_perm _).symm (by decide) (by decide) (by decide)

end Makepad
